import Mathlib

/-!
# A verification development for the `json` codec (`json.h`, `json.cpp`)

The C++ program is embedded shallowly.

* A byte is a `Nat` below 256 and a `std::string` is a `List Nat`.
* A `const char*` into a zero-terminated buffer is the list of the bytes from
  the pointer to the end of the buffer; the terminating zero is implicit, so
  `*cur` is `cur.headD 0` and `cur++` is `cur.tail`.
* A `char32_t` is a `Nat`; no operation of the program overflows 32 bits
  (the decoder shifts at most three times by six bits a value below 32).
* A thrown `std::runtime_error` is `Result.error`.  The loops of the program
  are recursions on a fuel counter seeded from the length of the remaining
  input; `Result.outOfFuel` is the outcome of a loop that used its counter up.
* `double`, `std::strtod`, `std::isinf`, `std::isnan` and `snprintf("%.17g")`
  belong to the C library: they are the fields of a `Libc` parameter.
-/

namespace JsonCodec

/-! ## UTF-8 codec (json.cpp, lines 10-77) -/

/-- The continuation loop of `readUtf8Char` (json.cpp lines 41-50): `ret` and
`numConts` are the locals of the same name, the list is `cur`. -/
def readUtf8Cont : Nat → Nat → List Nat → Nat × List Nat
  | ret, numConts, [] =>
    if numConts ≠ 0 ∨ ret ≥ 0x110000 then (0xFFFD, []) else (ret, [])
  | ret, numConts, b :: rest =>
    if 0x80 ≤ b ∧ b < 0xC0 then
      if numConts = 0 then (0xFFFD, b :: rest)
      else readUtf8Cont ((ret <<< 6) ||| (b &&& 0x3F)) (numConts - 1) rest
    else if numConts ≠ 0 ∨ ret ≥ 0x110000 then (0xFFFD, b :: rest)
    else (ret, b :: rest)

/-- The function `readUtf8Char` (json.cpp lines 10-51): the codepoint read and the
advanced cursor.  The constant of the third test is `0b110'0000` as in the
source. -/
def readUtf8Char (cur : List Nat) : Nat × List Nat :=
  let b := cur.headD 0
  if b < 0x80 then (b, cur.tail)
  else if b ≥ 0xF8 then (0xFFFD, cur.tail)
  else if b ≥ 0xF0 then readUtf8Cont (b &&& 0x07) 3 cur.tail
  else if b ≥ 0xE0 then readUtf8Cont (b &&& 0x0F) 2 cur.tail
  else if b ≥ 0x60 then readUtf8Cont (b &&& 0x1F) 1 cur.tail
  else (0xFFFD, cur.tail)

/-- The lambda `g` of `utf32CharToUtf8`: `(c >> offset) & ~(~U'\0' << num)`. -/
def utf32CharToUtf8.g (c offset num : Nat) : Nat :=
  (c >>> offset) &&& (2 ^ num - 1)

/-- The lambda `gbytes` of `utf32CharToUtf8`; every value appended to the
`std::string` is narrowed to a `char`. -/
def utf32CharToUtf8.gbytes (c num : Nat) : List Nat :=
  ((utf32CharToUtf8.g c (6 * (num - 1)) (7 - num) ||| (0xF0 &&& (0xF0 <<< (4 - num)))) % 256)
    :: (List.range (num - 1)).map
        (fun i => (utf32CharToUtf8.g c (6 * (num - 2 - i)) 6 ||| 0x80) % 256)

/-- The string literal written `\uFFFD` in the source: the UTF-8 bytes of U+FFFD. -/
def replacementChar : List Nat := [0xEF, 0xBF, 0xBD]

/-- The function `utf32CharToUtf8` (json.cpp lines 53-77). -/
def utf32CharToUtf8 (c : Nat) : List Nat :=
  if c ≥ 0x110000 then replacementChar
  else if c ≥ 0x10000 then utf32CharToUtf8.gbytes c 4
  else if c ≥ 0x800 then utf32CharToUtf8.gbytes c 3
  else if c ≥ 0x80 then utf32CharToUtf8.gbytes c 2
  else [c % 256]

/-! ## Errors and results -/

/-- What a thrown `std::runtime_error` carries.  `LineColCur::error` throws the
text `msg (row r, column c)`; the encoder throws a bare message. -/
inductive RuntimeError where
  | atPosition (msg : String) (row : Nat) (column : Nat)
  | plain (msg : String)
deriving DecidableEq, Repr

/-- The outcome of running a piece of the program. -/
inductive Result (α : Type) where
  | ok (a : α)
  | error (e : RuntimeError)
  | outOfFuel
deriving DecidableEq, Repr

/-- Sequencing: an exception (or an exhausted counter) skips the continuation. -/
def Result.bind {α β : Type} : Result α → (α → Result β) → Result β
  | .ok a, f => f a
  | .error e, _ => .error e
  | .outOfFuel, _ => .outOfFuel

/-- Post-processing of a returned value. -/
def Result.map {α β : Type} (f : α → β) : Result α → Result β
  | .ok a => .ok (f a)
  | .error e => .error e
  | .outOfFuel => .outOfFuel

/-! ## The position-tracking cursor (json.cpp, lines 80-115) -/

/-- The struct `LineColCur`. -/
structure LineColCur where
  cur : List Nat
  line : Nat
  col : Nat
deriving DecidableEq, Repr

/-- The method `LineColCur::error`. -/
def LineColCur.error {α : Type} (c : LineColCur) (msg : String) : Result α :=
  .error (.atPosition msg c.line c.col)

/-- The method `LineColCur::getUnicodeChar`: the codepoint and the cursor after it. -/
def LineColCur.getUnicodeChar (c : LineColCur) : Result (Nat × LineColCur) :=
  let r := readUtf8Char c.cur
  if r.1 = 0 then c.error "Unexpected end of file"
  else if r.1 = 0x0A then .ok (r.1, { cur := r.2, line := c.line + 1, col := 1 })
  else .ok (r.1, { cur := r.2, line := c.line, col := c.col + 1 })

/-- The method `LineColCur::peekUnicodeChar`. -/
def LineColCur.peekUnicodeChar (c : LineColCur) : Nat :=
  (readUtf8Char c.cur).1

/-! ## The parse cursor (json.cpp, lines 117-335) -/

/-- The class `ParseCursor`: its `text` member only owns the buffer that `cur`
points into, so the state of a `ParseCursor` is its `LineColCur`. -/
abbrev ParseCursor := LineColCur

/-- The lambda `isJsonWhitespace` of `skipWhitespace`. -/
def isJsonWhitespace (c : Nat) : Bool :=
  c = 0x20 || c = 0x0A || c = 0x0D || c = 0x09

/-- The loop of `ParseCursor::skipWhitespace`. -/
def ParseCursor.skipWhitespaceLoop : Nat → ParseCursor → Result ParseCursor
  | 0, _ => .outOfFuel
  | fuel + 1, pc =>
    if isJsonWhitespace pc.peekUnicodeChar then
      (pc.getUnicodeChar).bind fun r => ParseCursor.skipWhitespaceLoop fuel r.2
    else .ok pc

/-- The method `ParseCursor::skipWhitespace` (json.cpp lines 123-130). -/
def ParseCursor.skipWhitespace (pc : ParseCursor) : Result ParseCursor :=
  ParseCursor.skipWhitespaceLoop (pc.cur.length + 1) pc

/-- The method `ParseCursor::atEnd`. -/
def ParseCursor.atEnd (pc : ParseCursor) : Bool :=
  pc.cur.headD 0 = 0

/-- The matching loop of `ParseCursor::tryParse`: `none` is the early
`return false`, `some tmpcur` the cursor after the whole token. -/
def ParseCursor.tryParseLoop : Nat → List Nat → LineColCur → Result (Option LineColCur)
  | 0, _, _ => .outOfFuel
  | fuel + 1, str, tmpcur =>
    if str.headD 0 = 0 then .ok (some tmpcur)
    else if tmpcur.cur.headD 0 = 0 ∨ tmpcur.peekUnicodeChar ≠ (readUtf8Char str).1 then .ok none
    else (tmpcur.getUnicodeChar).bind fun r =>
      ParseCursor.tryParseLoop fuel (readUtf8Char str).2 r.2

/-- The method `ParseCursor::tryParse` (json.cpp lines 142-154): the returned
`bool` and the state of the cursor afterwards. -/
def ParseCursor.tryParse (str : List Nat) (pc : ParseCursor) : Result (Bool × ParseCursor) :=
  (ParseCursor.tryParseLoop (str.length + 1) str pc).bind fun m =>
    match m with
    | none => .ok (false, pc)
    | some tmpcur => (ParseCursor.skipWhitespace tmpcur).map fun pc1 => (true, pc1)

/-- The constructor `ParseCursor::ParseCursor` (json.cpp lines 132-138). -/
def ParseCursor.new (text : List Nat) : Result ParseCursor :=
  (ParseCursor.tryParse [0xEF, 0xBB, 0xBF] { cur := text, line := 1, col := 1 }).bind fun r =>
    if r.1 then .ok r.2 else ParseCursor.skipWhitespace r.2

/-- The lambda `readUnicodeEscapeChar` of `parseString`: the value of one hex
digit (an `int16_t`) and the cursor after it. -/
def ParseCursor.readUnicodeEscapeChar (pc : ParseCursor) : Result (Nat × ParseCursor) :=
  (pc.getUnicodeChar).bind fun r =>
    if 0x30 ≤ r.1 ∧ r.1 ≤ 0x39 then .ok (r.1 - 0x30, r.2)
    else if 0x61 ≤ r.1 ∧ r.1 ≤ 0x66 then .ok (r.1 - 0x61 + 10, r.2)
    else if 0x41 ≤ r.1 ∧ r.1 ≤ 0x46 then .ok (r.1 - 0x41 + 10, r.2)
    else r.2.error "Invalid hex digit"

/-- Four calls of `readUnicodeEscapeChar` and the `char16_t` built from them,
`(d1 << 12) | (d2 << 8) | (d3 << 4) | d4` (json.cpp lines 211-215, 220-224). -/
def ParseCursor.readUnicodeEscape (pc : ParseCursor) : Result (Nat × ParseCursor) :=
  (ParseCursor.readUnicodeEscapeChar pc).bind fun r1 =>
  (ParseCursor.readUnicodeEscapeChar r1.2).bind fun r2 =>
  (ParseCursor.readUnicodeEscapeChar r2.2).bind fun r3 =>
  (ParseCursor.readUnicodeEscapeChar r3.2).bind fun r4 =>
    .ok (((r1.1 <<< 12) ||| (r2.1 <<< 8) ||| (r3.1 <<< 4) ||| r4.1) % 65536, r4.2)

/-- The `case U'u'` of the switch of `parseString` (json.cpp lines 199-248):
the bytes appended to `ret` and the cursor afterwards. -/
def ParseCursor.parseUnicodeEscape (pc : ParseCursor) : Result (List Nat × ParseCursor) :=
  (ParseCursor.readUnicodeEscape pc).bind fun u1 =>
    if 0xD800 ≤ u1.1 ∧ u1.1 ≤ 0xDBFF then
      (ParseCursor.tryParse [0x5C, 0x75] u1.2).bind fun t =>
        if t.1 then
          (ParseCursor.readUnicodeEscape t.2).bind fun u2 =>
            if ¬ (0xDC00 ≤ u2.1 ∧ u2.1 ≤ 0xDFFF) then
              .ok (replacementChar ++ replacementChar, u2.2)
            else
              .ok (utf32CharToUtf8
                ((((u1.1 &&& 0x3FF) <<< 10) ||| (u2.1 &&& 0x3FF)) + 0x10000), u2.2)
        else .ok (replacementChar, t.2)
    else if 0xDC00 ≤ u1.1 ∧ u1.1 ≤ 0xDFFF then .ok (replacementChar, u1.2)
    else .ok (utf32CharToUtf8 u1.1, u1.2)

/-- The switch on the escape letter `ec` of `parseString` (json.cpp lines
164-254), entered after the backslash: the bytes appended to `ret` and the
cursor afterwards. -/
def ParseCursor.parseEscape (pc : ParseCursor) : Result (List Nat × ParseCursor) :=
  (pc.getUnicodeChar).bind fun r =>
    let ec := r.1
    if ec = 0x22 ∨ ec = 0x5C ∨ ec = 0x2F then .ok (utf32CharToUtf8 ec, r.2)
    else if ec = 0x62 then .ok ([0x08], r.2)
    else if ec = 0x66 then .ok ([0x0C], r.2)
    else if ec = 0x6E then .ok ([0x0A], r.2)
    else if ec = 0x72 then .ok ([0x0D], r.2)
    else if ec = 0x74 then .ok ([0x09], r.2)
    else if ec = 0x75 then ParseCursor.parseUnicodeEscape r.2
    else .ok (replacementChar, r.2)

/-- The loop of `ParseCursor::parseString`; `ret` is the local of that name. -/
def ParseCursor.parseStringLoop (terminator : List Nat) :
    Nat → List Nat → ParseCursor → Result (List Nat × ParseCursor)
  | 0, _, _ => .outOfFuel
  | fuel + 1, ret, pc =>
    (ParseCursor.tryParse terminator pc).bind fun t =>
      if t.1 then .ok (ret, t.2)
      else (t.2.getUnicodeChar).bind fun r =>
        if r.1 = 0x5C then
          (ParseCursor.parseEscape r.2).bind fun e =>
            ParseCursor.parseStringLoop terminator fuel (ret ++ e.1) e.2
        else ParseCursor.parseStringLoop terminator fuel (ret ++ utf32CharToUtf8 r.1) r.2

/-- The method `ParseCursor::parseString` (json.cpp lines 156-262). -/
def ParseCursor.parseString (terminator : List Nat) (pc : ParseCursor) :
    Result (List Nat × ParseCursor) :=
  ParseCursor.parseStringLoop terminator (pc.cur.length + 1) [] pc

/-- The digit loop that `parseNumber` runs three times (json.cpp lines
271-282, 288-299, 307-318); `num` is the local of that name. -/
def ParseCursor.digitLoop : Nat → List Nat → ParseCursor → Result (List Nat × ParseCursor)
  | 0, _, _ => .outOfFuel
  | fuel + 1, num, pc =>
    if pc.atEnd then .ok (num, pc)
    else if 0x30 ≤ pc.peekUnicodeChar ∧ pc.peekUnicodeChar ≤ 0x39 then
      (pc.getUnicodeChar).bind fun r =>
        ParseCursor.digitLoop fuel (num ++ [pc.peekUnicodeChar % 256]) r.2
    else .ok (num, pc)

/-- The sign and the integer part of `ParseCursor::parseNumber` (json.cpp
lines 266-283): the text `num` and the cursor afterwards. -/
def ParseCursor.parseNumberInt (pc : ParseCursor) : Result (List Nat × ParseCursor) :=
  (ParseCursor.tryParse [0x2D] pc).bind fun neg =>
  (ParseCursor.tryParse [0x30] neg.2).bind fun zero =>
  if zero.1 then Result.ok ((if neg.1 then [0x2D] else []), zero.2)
  else ParseCursor.digitLoop (zero.2.cur.length + 1) (if neg.1 then [0x2D] else []) zero.2

/-- The fraction of `ParseCursor::parseNumber` (json.cpp lines 284-300). -/
def ParseCursor.parseNumberFrac (num : List Nat) (pc : ParseCursor) :
    Result (List Nat × ParseCursor) :=
  (ParseCursor.tryParse [0x2E] pc).bind fun dot =>
  if dot.1 then ParseCursor.digitLoop (dot.2.cur.length + 1) (num ++ [0x2E]) dot.2
  else Result.ok (num, dot.2)

/-- The exponent of `ParseCursor::parseNumber` (json.cpp lines 301-320). -/
def ParseCursor.parseNumberExp (num : List Nat) (pc : ParseCursor) :
    Result (List Nat × ParseCursor) :=
  (ParseCursor.tryParse [0x65] pc).bind fun e1 =>
  (if e1.1 then Result.ok e1 else ParseCursor.tryParse [0x45] e1.2).bind fun e =>
  if e.1 then
    (ParseCursor.tryParse [0x2B] e.2).bind fun plus =>
    (if plus.1 then Result.ok (false, plus.2)
     else ParseCursor.tryParse [0x2D] plus.2).bind fun negativeExp =>
    ParseCursor.digitLoop (negativeExp.2.cur.length + 1)
      (num ++ [0x65] ++ (if negativeExp.1 then [0x2D] else [])) negativeExp.2
  else Result.ok (num, e.2)

/-- The part of `ParseCursor::parseNumber` before the call of `strtod`
(json.cpp lines 266-322): the text `num` and the cursor afterwards. -/
def ParseCursor.parseNumberText (pc : ParseCursor) : Result (List Nat × ParseCursor) :=
  (ParseCursor.parseNumberInt pc).bind fun intPart =>
  (ParseCursor.parseNumberFrac intPart.1 intPart.2).bind fun fracPart =>
  (ParseCursor.parseNumberExp fracPart.1 fracPart.2).bind fun expPart =>
  (ParseCursor.skipWhitespace expPart.2).map fun pc1 => (expPart.1, pc1)

/-! ## The value model (json.h) -/

/-- What the program takes from the C library for the type `double` (`D`):
`std::strtod(s, nullptr)`, `std::isinf`, `std::isnan`, and the text that
`snprintf` writes for the format `%.17g`. -/
structure Libc (D : Type) where
  strtod : List Nat → D
  isinf : D → Bool
  isnan : D → Bool
  snprintf17g : D → List Nat

/-- The struct `JSONValue`, a `std::variant` whose alternatives are listed in
the order of `JSONType`.  A `JSONObject` (`std::map<std::string, JSONValue>`) is
the list of its entries in the iteration order of the map; a `JSONArray` is a
`std::vector`. -/
inductive JSONValue (D : Type) where
  | null
  | string (s : List Nat)
  | number (d : D)
  | object (o : List (List Nat × JSONValue D))
  | array (a : List (JSONValue D))
  | boolean (b : Bool)

/-- The type `JSONObject`. -/
abbrev JSONObject (D : Type) := List (List Nat × JSONValue D)

/-- The type `JSONArray`. -/
abbrev JSONArray (D : Type) := List (JSONValue D)

/-- The order `std::less<std::string>` of the map: `std::string::compare`,
which compares the bytes as `unsigned char` and then the lengths. -/
def stringLess : List Nat → List Nat → Bool
  | [], [] => false
  | [], _ :: _ => true
  | _ :: _, [] => false
  | a :: as, b :: bs => if a < b then true else if b < a then false else stringLess as bs

/-- The assignment `c[name] = v` on a `std::map`: the entry of `name` is
created at its place in the order, or its value is overwritten. -/
def JSONObject.assign {D : Type} (name : List Nat) (v : JSONValue D) :
    JSONObject D → JSONObject D
  | [] => [(name, v)]
  | (k, w) :: rest =>
    if stringLess name k then (name, v) :: (k, w) :: rest
    else if stringLess k name then (k, w) :: JSONObject.assign name v rest
    else (k, v) :: rest

/-! ## The grammar (json.cpp, lines 337-409) -/

/-- The method `ParseCursor::parseNumber` (json.cpp lines 264-324). -/
def ParseCursor.parseNumber {D : Type} (L : Libc D) (pc : ParseCursor) :
    Result (D × ParseCursor) :=
  (ParseCursor.parseNumberText pc).map fun r => (L.strtod r.1, r.2)

/-- The function `parseString` (json.cpp lines 339-342). -/
def parseString (pc : ParseCursor) : Result (List Nat × ParseCursor) :=
  ParseCursor.parseString [0x22] pc

/-- The function `parseNumber` (json.cpp lines 379-382). -/
def parseNumber {D : Type} (L : Libc D) (pc : ParseCursor) : Result (D × ParseCursor) :=
  ParseCursor.parseNumber L pc

mutual
/-- The function `parseValue` (json.cpp lines 384-403); the first argument
bounds the depth of the calls. -/
def parseValue {D : Type} (L : Libc D) : Nat → ParseCursor → Result (JSONValue D × ParseCursor)
  | 0, _ => .outOfFuel
  | fuel + 1, pc =>
    (ParseCursor.tryParse [0x22] pc).bind fun t1 =>
    if t1.1 then (parseString t1.2).map fun r => (JSONValue.string r.1, r.2)
    else (ParseCursor.tryParse [0x7B] t1.2).bind fun t2 =>
    if t2.1 then (parseObjectLoop L fuel [] true t2.2).map fun r => (JSONValue.object r.1, r.2)
    else (ParseCursor.tryParse [0x5B] t2.2).bind fun t3 =>
    if t3.1 then (parseArrayLoop L fuel [] true t3.2).map fun r => (JSONValue.array r.1, r.2)
    else (ParseCursor.tryParse [0x74, 0x72, 0x75, 0x65] t3.2).bind fun t4 =>
    if t4.1 then .ok (JSONValue.boolean true, t4.2)
    else (ParseCursor.tryParse [0x66, 0x61, 0x6C, 0x73, 0x65] t4.2).bind fun t5 =>
    if t5.1 then .ok (JSONValue.boolean false, t5.2)
    else (ParseCursor.tryParse [0x6E, 0x75, 0x6C, 0x6C] t5.2).bind fun t6 =>
    if t6.1 then .ok (JSONValue.null, t6.2)
    else if t6.2.atEnd then t6.2.error "Unexpected end of file"
    else if t6.2.peekUnicodeChar = 0x2D
        ∨ (0x30 ≤ t6.2.peekUnicodeChar ∧ t6.2.peekUnicodeChar ≤ 0x39) then
      (parseNumber L t6.2).map fun r => (JSONValue.number r.1, r.2)
    else t6.2.error "Expected value"
/-- The loop of the function `parseObject` (json.cpp lines 348-360); `c` and
`first` are the locals of those names. -/
def parseObjectLoop {D : Type} (L : Libc D) :
    Nat → JSONObject D → Bool → ParseCursor → Result (JSONObject D × ParseCursor)
  | 0, _, _, _ => .outOfFuel
  | fuel + 1, c, first, pc =>
    (ParseCursor.tryParse [0x7D] pc).bind fun t =>
    if t.1 then .ok (c, t.2)
    else
      (if first then Result.ok t.2
       else (ParseCursor.tryParse [0x2C] t.2).bind fun t1 =>
        if t1.1 then Result.ok t1.2 else t1.2.error "Expected ','").bind fun pc1 =>
      (ParseCursor.tryParse [0x22] pc1).bind fun t2 =>
      if ¬ t2.1 then t2.2.error "Expected '\"'"
      else (ParseCursor.parseString [0x22] t2.2).bind fun name =>
      (ParseCursor.tryParse [0x3A] name.2).bind fun t3 =>
      if ¬ t3.1 then t3.2.error "Expected ':'"
      else (parseValue L fuel t3.2).bind fun v =>
      parseObjectLoop L fuel (JSONObject.assign name.1 v.1 c) false v.2
/-- The loop of the function `parseArray` (json.cpp lines 368-375); `a` and
`first` are the locals of those names. -/
def parseArrayLoop {D : Type} (L : Libc D) :
    Nat → JSONArray D → Bool → ParseCursor → Result (JSONArray D × ParseCursor)
  | 0, _, _, _ => .outOfFuel
  | fuel + 1, a, first, pc =>
    (ParseCursor.tryParse [0x5D] pc).bind fun t =>
    if t.1 then .ok (a, t.2)
    else
      (if first then Result.ok t.2
       else (ParseCursor.tryParse [0x2C] t.2).bind fun t1 =>
        if t1.1 then Result.ok t1.2 else t1.2.error "Expected ','").bind fun pc1 =>
      (parseValue L fuel pc1).bind fun v =>
      parseArrayLoop L fuel (a ++ [v.1]) false v.2
end

/-- The function `parseObject` (json.cpp lines 344-362). -/
def parseObject {D : Type} (L : Libc D) (fuel : Nat) (pc : ParseCursor) :
    Result (JSONObject D × ParseCursor) :=
  parseObjectLoop L fuel [] true pc

/-- The function `parseArray` (json.cpp lines 364-377). -/
def parseArray {D : Type} (L : Libc D) (fuel : Nat) (pc : ParseCursor) :
    Result (JSONArray D × ParseCursor) :=
  parseArrayLoop L fuel [] true pc

/-- The function `parseJson` (json.cpp lines 405-409).  A call of `parseValue`
that returns has consumed a byte, and so has every turn of the two loops but
the first turn of `parseArray`, which calls `parseValue` at the byte after the
bracket: twice the length of the text bounds the depth of the calls. -/
def parseJson {D : Type} (L : Libc D) (text : List Nat) : Result (JSONValue D) :=
  (ParseCursor.new text).bind fun pc =>
    (parseValue L (2 * text.length + 1) pc).map fun r => r.1

/-! ## The serializer (json.cpp, lines 411-530)

A function that writes to the `std::stringstream` returns the bytes it writes. -/

/-- The loop of `encodeString` (json.cpp lines 417-436); `ss` is what has been
written since the opening quote. -/
def encodeStringLoop : Nat → List Nat → List Nat → Result (List Nat)
  | 0, _, _ => .outOfFuel
  | fuel + 1, cur, ss =>
    if cur.headD 0 = 0 then .ok ss
    else
      let c := (readUtf8Char cur).1
      encodeStringLoop fuel (readUtf8Char cur).2
        (ss ++
          (if c = 0x22 then [0x5C, 0x22]
           else if c = 0x5C then [0x5C, 0x5C]
           else if c = 0x08 then [0x5C, 0x62]
           else if c = 0x0C then [0x5C, 0x66]
           else if c = 0x0A then [0x5C, 0x6E]
           else if c = 0x0D then [0x5C, 0x72]
           else if c = 0x09 then [0x5C, 0x74]
           else utf32CharToUtf8 c))

/-- The function `encodeString` (json.cpp lines 413-438). -/
def encodeString (str : List Nat) : Result (List Nat) :=
  (encodeStringLoop (str.length + 1) str []).map fun ss => [0x22] ++ ss ++ [0x22]

/-- The function `encodeNumber` (json.cpp lines 440-456). -/
def encodeNumber {D : Type} (L : Libc D) (number : D) : Result (List Nat) :=
  if L.isinf number || L.isnan number then .ok [0x6E, 0x75, 0x6C, 0x6C]
  else if (L.snprintf17g number).length < 1 then
    .error (.plain "snprintf() failed to convert number to text")
  else .ok (L.snprintf17g number)

mutual
/-- The function `encodeJsonValue` (json.cpp lines 486-523).  A value of the
model always holds an alternative, so the `valueless_by_exception` test is
never taken. -/
def encodeJsonValue {D : Type} (L : Libc D) : JSONValue D → Result (List Nat)
  | .null => .ok [0x6E, 0x75, 0x6C, 0x6C]
  | .string s => encodeString s
  | .number d => encodeNumber L d
  | .object o => (encodeObjectLoop L true o).map fun ss => [0x7B] ++ ss ++ [0x7D]
  | .array a => (encodeArrayLoop L true a).map fun ss => [0x5B] ++ ss ++ [0x5D]
  | .boolean b => .ok (if b then [0x74, 0x72, 0x75, 0x65] else [0x66, 0x61, 0x6C, 0x73, 0x65])
/-- The loop of `encodeObject` (json.cpp lines 462-469) over the entries of the
map in iteration order. -/
def encodeObjectLoop {D : Type} (L : Libc D) : Bool → List (List Nat × JSONValue D) → Result (List Nat)
  | _, [] => .ok []
  | first, (k, v) :: rest =>
    (encodeString k).bind fun ks =>
    (encodeJsonValue L v).bind fun vs =>
    (encodeObjectLoop L false rest).map fun rs =>
      (if first then [] else [0x2C]) ++ ks ++ [0x3A] ++ vs ++ rs
/-- The loop of `encodeArray` (json.cpp lines 477-482). -/
def encodeArrayLoop {D : Type} (L : Libc D) : Bool → List (JSONValue D) → Result (List Nat)
  | _, [] => .ok []
  | first, v :: rest =>
    (encodeJsonValue L v).bind fun vs =>
    (encodeArrayLoop L false rest).map fun rs =>
      (if first then [] else [0x2C]) ++ vs ++ rs
end

/-- The function `encodeObject` (json.cpp lines 458-471). -/
def encodeObject {D : Type} (L : Libc D) (obj : JSONObject D) : Result (List Nat) :=
  (encodeObjectLoop L true obj).map fun ss => [0x7B] ++ ss ++ [0x7D]

/-- The function `encodeArray` (json.cpp lines 473-484). -/
def encodeArray {D : Type} (L : Libc D) (arr : JSONArray D) : Result (List Nat) :=
  (encodeArrayLoop L true arr).map fun ss => [0x5B] ++ ss ++ [0x5D]

/-- The function `encodeJson` (json.cpp lines 525-530). -/
def encodeJson {D : Type} (L : Libc D) (val : JSONValue D) : Result (List Nat) :=
  encodeJsonValue L val

/-- A stand-in for the C library on which the model can be run: a `double` is
kept as the text handed to `strtod`, is never infinite or NaN, and is printed as
that text. -/
def Libc.text : Libc (List Nat) where
  strtod := fun s => s
  isinf := fun _ => false
  isnan := fun _ => false
  snprintf17g := fun s => s

/-! ## Vocabulary of the statements -/

/-- The next byte is not one that the continuation loop of `readUtf8Char`
accepts (a byte of `0x80..0xBF`); the end of the buffer is such a place. -/
def notCont (rest : List Nat) : Prop :=
  ¬ (0x80 ≤ rest.headD 0 ∧ rest.headD 0 < 0xC0)

/-- The value of type `JSONValue E` with the shape of `v`, every number sent
through `f`. -/
def JSONValue.mapNumber {D E : Type} (f : D → E) : JSONValue D → JSONValue E
  | .null => .null
  | .string s => .string s
  | .number d => .number (f d)
  | .object o => .object (JSONValue.mapNumber.members f o)
  | .array a => .array (JSONValue.mapNumber.elements f a)
  | .boolean b => .boolean b
where
  /-- The entries of an object, mapped. -/
  members {D E : Type} (f : D → E) : List (List Nat × JSONValue D) → List (List Nat × JSONValue E)
    | [] => []
    | (k, v) :: rest => (k, JSONValue.mapNumber f v) :: members f rest
  /-- The elements of an array, mapped. -/
  elements {D E : Type} (f : D → E) : List (JSONValue D) → List (JSONValue E)
    | [] => []
    | v :: rest => JSONValue.mapNumber f v :: elements f rest

mutual
/-- Deep equality of two values as a computation (`operator==` of the variant,
numbers compared by the equality of `D`). -/
def JSONValue.beq {D : Type} [DecidableEq D] : JSONValue D → JSONValue D → Bool
  | .null, .null => true
  | .string s, .string t => decide (s = t)
  | .number d, .number e => decide (d = e)
  | .object o, .object p => JSONValue.beqMembers o p
  | .array a, .array b => JSONValue.beqElements a b
  | .boolean a, .boolean b => decide (a = b)
  | _, _ => false
/-- Deep equality of the entries of two objects. -/
def JSONValue.beqMembers {D : Type} [DecidableEq D] :
    List (List Nat × JSONValue D) → List (List Nat × JSONValue D) → Bool
  | [], [] => true
  | (k, v) :: r, (k', v') :: r' =>
    decide (k = k') && JSONValue.beq v v' && JSONValue.beqMembers r r'
  | _, _ => false
/-- Deep equality of the elements of two arrays. -/
def JSONValue.beqElements {D : Type} [DecidableEq D] :
    List (JSONValue D) → List (JSONValue D) → Bool
  | [], [] => true
  | v :: r, v' :: r' => JSONValue.beq v v' && JSONValue.beqElements r r'
  | _, _ => false
end

/-- The result is the returned value `v`, as a computation. -/
def Result.returns {D : Type} [DecidableEq D] (r : Result (JSONValue D)) (v : JSONValue D) : Bool :=
  match r with
  | .ok a => JSONValue.beq a v
  | _ => false

/-- The result is the thrown error `e`, as a computation. -/
def Result.throws {α : Type} (r : Result α) (e : RuntimeError) : Bool :=
  match r with
  | .error e1 => decide (e1 = e)
  | _ => false

/-- The standard UTF-8 encoding of a codepoint below 0x110000: one byte `0xxxxxxx`
below 0x80, two bytes `110xxxxx 10xxxxxx` below 0x800, three bytes
`1110xxxx 10xxxxxx 10xxxxxx` below 0x10000, four bytes
`11110xxx 10xxxxxx 10xxxxxx 10xxxxxx` otherwise. -/
def utf8Encode (c : Nat) : List Nat :=
  if c < 0x80 then [c]
  else if c < 0x800 then [0xC0 + c / 64, 0x80 + c % 64]
  else if c < 0x10000 then [0xE0 + c / 4096, 0x80 + c / 64 % 64, 0x80 + c % 64]
  else [0xF0 + c / 262144, 0x80 + c / 4096 % 64, 0x80 + c / 64 % 64, 0x80 + c % 64]

/-- A stand-in for the C library with a single `double`, an infinity. -/
def Libc.infinite : Libc Unit where
  strtod := fun _ => ()
  isinf := fun _ => true
  isnan := fun _ => false
  snprintf17g := fun _ => [0x69, 0x6E, 0x66]

/-- The codepoints that successive calls of `readUtf8Char` read from a
zero-terminated string, as the loops `while (*str != 0) ... readUtf8Char(str)`
of `tryParse` and `encodeString` do; the first argument bounds the number of
calls. -/
def codepointsLoop : Nat → List Nat → List Nat
  | 0, _ => []
  | fuel + 1, str =>
    if str.headD 0 = 0 then []
    else (readUtf8Char str).1 :: codepointsLoop fuel (readUtf8Char str).2

/-- The codepoints of a zero-terminated string (a call consumes a byte at
least, so the length bounds the number of calls). -/
def codepoints (str : List Nat) : List Nat :=
  codepointsLoop str.length str

/-- Successive calls of `getUnicodeChar` from the cursor `c` return the
codepoints `cps`, none throws, and they leave the cursor at `c1`. -/
inductive Reads : LineColCur → List Nat → LineColCur → Prop where
  | done (c : LineColCur) : Reads c [] c
  | step {c c1 c2 : LineColCur} {cp : Nat} {cps : List Nat} :
      c.getUnicodeChar = .ok (cp, c1) → Reads c1 cps c2 → Reads c (cp :: cps) c2

/-- The line and column after the codepoints `cps`, counted from the line and
column `p`: a line feed starts line `l + 1` at column 1, any other codepoint
moves one column on. -/
def advancePos : Nat × Nat → List Nat → Nat × Nat
  | p, [] => p
  | p, cp :: cps => advancePos (if cp = 0x0A then (p.1 + 1, 1) else (p.1, p.2 + 1)) cps

/-- The tokens that the program passes to `tryParse`: the byte-order mark, the
quote, `\u`, the characters of a number `-`, `0`, `.`, `e`, `E`, `+`, the
structural characters, and `true`, `false`, `null`. -/
def tokens : List (List Nat) :=
  [[0xEF, 0xBB, 0xBF], [0x22], [0x5C, 0x75], [0x2D], [0x30], [0x2E], [0x65], [0x45], [0x2B],
   [0x7D], [0x2C], [0x3A], [0x5D], [0x7B], [0x5B],
   [0x74, 0x72, 0x75, 0x65], [0x66, 0x61, 0x6C, 0x73, 0x65], [0x6E, 0x75, 0x6C, 0x6C]]

/-- The cursor that `getUnicodeChar` leaves when it returns: past the
codepoint, on the next line at column 1 after a line feed, one column on after
any other codepoint. -/
def LineColCur.advance (c : LineColCur) : LineColCur :=
  if c.peekUnicodeChar = 0x0A then { cur := (readUtf8Char c.cur).2, line := c.line + 1, col := 1 }
  else { cur := (readUtf8Char c.cur).2, line := c.line, col := c.col + 1 }

/-- The piece of the program ran to an end (no exhausted counter), and if it
returned, fewer than `n` bytes are left at the cursor it returned. -/
def Result.Below {α : Type} (n : Nat) (r : Result (α × ParseCursor)) : Prop :=
  match r with
  | .ok x => x.2.cur.length < n
  | .error _ => True
  | .outOfFuel => False

/-- If the piece of the program returned, what it returned satisfies `P`. -/
def Result.Sat {α : Type} (P : α → Prop) (r : Result α) : Prop :=
  match r with
  | .ok a => P a
  | .error _ => True
  | .outOfFuel => True

mutual
/-- Every `String` and every object key contained in the value satisfies `P`. -/
def JSONValue.AllStrings {D : Type} (P : List Nat → Prop) : JSONValue D → Prop
  | .null => True
  | .string s => P s
  | .number _ => True
  | .object o => JSONValue.AllStringsMembers P o
  | .array a => JSONValue.AllStringsElements P a
  | .boolean _ => True
/-- Every key, and every string of every value, of the entries satisfies `P`. -/
def JSONValue.AllStringsMembers {D : Type} (P : List Nat → Prop) :
    List (List Nat × JSONValue D) → Prop
  | [] => True
  | (k, v) :: rest =>
    P k ∧ JSONValue.AllStrings P v ∧ JSONValue.AllStringsMembers P rest
/-- Every string of every element satisfies `P`. -/
def JSONValue.AllStringsElements {D : Type} (P : List Nat → Prop) : List (JSONValue D) → Prop
  | [] => True
  | v :: rest => JSONValue.AllStrings P v ∧ JSONValue.AllStringsElements P rest
end

/-- The bytes are valid UTF-8 that encodes a sequence of Unicode scalar values:
the standard encodings, one after the other, of codepoints below 0x110000
outside the surrogate range 0xD800..0xDFFF. -/
def ValidUtf8 (s : List Nat) : Prop :=
  ∃ cps : List Nat, (∀ c ∈ cps, c < 0x110000 ∧ ¬ (0xD800 ≤ c ∧ c ≤ 0xDFFF)) ∧
    s = cps.flatMap utf8Encode

/-- The bytes are the standard encodings, one after the other, of codepoints
below 0x110000 (a surrogate code point, encoded as three bytes, is allowed). -/
def WellFormedUtf8 (s : List Nat) : Prop :=
  ∃ cps : List Nat, (∀ c ∈ cps, c < 0x110000) ∧ s = cps.flatMap utf8Encode

/-- What the serializer writes for one codepoint of a string: the
two-character escape of a quote, backslash, backspace, form feed, line feed,
carriage return or tab, and the raw UTF-8 bytes of any other codepoint. -/
def escapeOrRaw (c : Nat) : List Nat :=
  if c = 0x22 then [0x5C, 0x22]
  else if c = 0x5C then [0x5C, 0x5C]
  else if c = 0x08 then [0x5C, 0x62]
  else if c = 0x0C then [0x5C, 0x66]
  else if c = 0x0A then [0x5C, 0x6E]
  else if c = 0x0D then [0x5C, 0x72]
  else if c = 0x09 then [0x5C, 0x74]
  else utf8Encode c

/-- The codepoint in front of the cursor is not JSON whitespace (the end of
the buffer is such a place). -/
def NoWs (rest : List Nat) : Prop :=
  isJsonWhitespace (readUtf8Char rest).1 = false

/-- The string is the UTF-8 encoding of the non-zero codepoints `cps`, all
below 0x110000, and does not begin with a space. -/
def PlainStringOf (cps : List Nat) (s : List Nat) : Prop :=
  (∀ c ∈ cps, 0 < c ∧ c < 0x110000) ∧ s = cps.flatMap utf8Encode ∧ cps.head? ≠ some 0x20

/-- The string is the UTF-8 encoding of a sequence of non-zero codepoints
below 0x110000 and does not begin with a space (U+0020). -/
def PlainString (s : List Nat) : Prop :=
  ∃ cps : List Nat, PlainStringOf cps s

mutual
/-- The value is built from Null, Boolean, String, Array and Object only. -/
def JSONValue.NumberFree {D : Type} : JSONValue D → Prop
  | .null => True
  | .string _ => True
  | .number _ => False
  | .object o => JSONValue.NumberFreeMembers o
  | .array a => JSONValue.NumberFreeElements a
  | .boolean _ => True
/-- The values of the entries are number-free. -/
def JSONValue.NumberFreeMembers {D : Type} : List (List Nat × JSONValue D) → Prop
  | [] => True
  | (_, v) :: rest => JSONValue.NumberFree v ∧ JSONValue.NumberFreeMembers rest
/-- The elements are number-free. -/
def JSONValue.NumberFreeElements {D : Type} : List (JSONValue D) → Prop
  | [] => True
  | v :: rest => JSONValue.NumberFree v ∧ JSONValue.NumberFreeElements rest
end

/-- The keys of the entries are strictly ascending in the order of the map. -/
def JSONObject.Ascending {D : Type} (o : JSONObject D) : Prop :=
  List.Pairwise (fun x y => stringLess x.1 y.1 = true) o

mutual
/-- Every object in the value is a `std::map`: its entries are listed with
strictly ascending keys. -/
def JSONValue.SortedKeys {D : Type} : JSONValue D → Prop
  | .null => True
  | .string _ => True
  | .number _ => True
  | .object o => JSONObject.Ascending o ∧ JSONValue.SortedKeysMembers o
  | .array a => JSONValue.SortedKeysElements a
  | .boolean _ => True
/-- Every object in the values of the entries is a `std::map`. -/
def JSONValue.SortedKeysMembers {D : Type} : List (List Nat × JSONValue D) → Prop
  | [] => True
  | (_, v) :: rest => JSONValue.SortedKeys v ∧ JSONValue.SortedKeysMembers rest
/-- Every object in the elements is a `std::map`. -/
def JSONValue.SortedKeysElements {D : Type} : List (JSONValue D) → Prop
  | [] => True
  | v :: rest => JSONValue.SortedKeys v ∧ JSONValue.SortedKeysElements rest
end

/-- The text begins with the first byte of a serialized value that is not a
number: a quote, a brace, a bracket, or the `t`, `f`, `n` of a literal. -/
def StartsValue (text : List Nat) : Prop :=
  ∃ b tl, text = b :: tl ∧ (b = 0x22 ∨ b = 0x7B ∨ b = 0x5B ∨ b = 0x74 ∨ b = 0x66 ∨ b = 0x6E)

/-- The character `d` is a hex digit, of either case, and `v` is its value. -/
def HexDigit (d v : Nat) : Prop :=
  (0x30 ≤ d ∧ d ≤ 0x39 ∧ v = d - 0x30) ∨
  (0x61 ≤ d ∧ d ≤ 0x66 ∧ v = d - 0x61 + 10) ∨
  (0x41 ≤ d ∧ d ≤ 0x46 ∧ v = d - 0x41 + 10)

/-- The 16-bit unit written with the four hex digits of values `v1 v2 v3 v4`. -/
def hexUnit (v1 v2 v3 v4 : Nat) : Nat :=
  v1 * 4096 + v2 * 256 + v3 * 16 + v4

/-- The map after the assignments `c[k] = v` of the pairs `ms`, in order, to
the map `c`. -/
def JSONObject.assignAll {D : Type} (c : JSONObject D) (ms : List (List Nat × JSONValue D)) :
    JSONObject D :=
  ms.foldl (fun c p => JSONObject.assign p.1 p.2 c) c

/-- The string holds no zero byte and does not begin with a space (U+0020). -/
def NoZeroNoLeadingSpace (s : List Nat) : Prop :=
  0 ∉ s ∧ s.head? ≠ some 0x20

/-- The last of the codepoints `cps` that is not whitespace, if there is one. -/
def lastSolid (cps : List Nat) : Option Nat :=
  cps.reverse.find? (fun x => !isJsonWhitespace x)

/-- A character that `parseNumber` consumes: a digit, `-`, `.`, `e`, `E` or `+`. -/
def NumberChar (x : Nat) : Prop :=
  (0x30 ≤ x ∧ x ≤ 0x39) ∨ x = 0x2D ∨ x = 0x2E ∨ x = 0x65 ∨ x = 0x45 ∨ x = 0x2B

/-- The last character of a value: the quote of a string, a closing brace or
bracket, the `e` of `true` and `false`, the `l` of `null`, or a character of a
number. -/
def ValueEnd (x : Nat) : Prop :=
  x = 0x22 ∨ x = 0x7D ∨ x = 0x5D ∨ x = 0x65 ∨ x = 0x6C ∨ NumberChar x

/-- What stands before a value: nothing but whitespace, the byte-order mark,
an opening bracket, a comma or a colon. -/
def ValueSlot (o : Option Nat) : Prop :=
  o = none ∨ o = some 0xFEFF ∨ o = some 0x5B ∨ o = some 0x2C ∨ o = some 0x3A

/-- The place of an error with the message `msg`, by what was consumed before
it (`cps`, the codepoints that `getUnicodeChar` returned) and what stands at
the cursor `c`:
* `Unexpected end of file`: the decoder reads U+0000 at the cursor;
* `Invalid hex digit`: the codepoint consumed last is not a hex digit;
* `Expected ','`: the last consumed codepoint that is not whitespace ends a
  value, and the cursor stands at a codepoint that is neither whitespace nor a
  comma;
* `Expected '"'`: after an opening brace or a comma, at a codepoint that is
  neither whitespace nor a quote;
* `Expected ':'`: after the closing quote of a key, at a codepoint that is
  neither whitespace nor a colon;
* `Expected value`: where a value may begin (at the start, or after a bracket,
  a comma or a colon), at a byte that is not zero and a codepoint that is
  neither whitespace nor the first character of a string, an object, an array
  or a number, with bytes that do not begin with `true`, `false` or `null`. -/
def FailsAt (msg : String) (cps : List Nat) (c : LineColCur) : Prop :=
  (msg = "Unexpected end of file" ∧ c.peekUnicodeChar = 0) ∨
  (msg = "Invalid hex digit" ∧ ∃ pre ch, cps = pre ++ [ch] ∧ ∀ v, ¬ HexDigit ch v) ∨
  (msg = "Expected ','" ∧ isJsonWhitespace c.peekUnicodeChar = false ∧
    c.peekUnicodeChar ≠ 0x2C ∧ ∃ x, lastSolid cps = some x ∧ ValueEnd x) ∨
  (msg = "Expected '\"'" ∧ isJsonWhitespace c.peekUnicodeChar = false ∧
    c.peekUnicodeChar ≠ 0x22 ∧ (lastSolid cps = some 0x7B ∨ lastSolid cps = some 0x2C)) ∨
  (msg = "Expected ':'" ∧ isJsonWhitespace c.peekUnicodeChar = false ∧
    c.peekUnicodeChar ≠ 0x3A ∧ lastSolid cps = some 0x22) ∨
  (msg = "Expected value" ∧ isJsonWhitespace c.peekUnicodeChar = false ∧
    c.cur.headD 0 ≠ 0 ∧ ValueSlot (lastSolid cps) ∧
    c.peekUnicodeChar ≠ 0x22 ∧ c.peekUnicodeChar ≠ 0x7B ∧ c.peekUnicodeChar ≠ 0x5B ∧
    c.peekUnicodeChar ≠ 0x2D ∧ ¬ (0x30 ≤ c.peekUnicodeChar ∧ c.peekUnicodeChar ≤ 0x39) ∧
    (¬ ∃ rest, c.cur = [0x74, 0x72, 0x75, 0x65] ++ rest) ∧
    (¬ ∃ rest, c.cur = [0x66, 0x61, 0x6C, 0x73, 0x65] ++ rest) ∧
    (¬ ∃ rest, c.cur = [0x6E, 0x75, 0x6C, 0x6C] ++ rest))

/-- If the piece of the program returned `a`, then `Q a`; if it threw an
error, the error carries a message `msg` and the line and column of a cursor `c`
that successive calls of `getUnicodeChar` reach from the cursor `start`, and
`msg` is in its place there (`FailsAt`). -/
def Result.FailsOr {α : Type} (start : LineColCur) (Q : α → Prop) (r : Result α) : Prop :=
  match r with
  | .ok a => Q a
  | .error e => ∃ msg cps c, Reads start cps c ∧ e = .atPosition msg c.line c.col ∧
      FailsAt msg cps c
  | .outOfFuel => True

/-- Successive calls of `getUnicodeChar` from `start` reach the cursor `c`,
which stands at a codepoint that is not whitespace; the last codepoint read
that is not whitespace satisfies `P` (`none`: there is no such codepoint). -/
def After (start : LineColCur) (P : Option Nat → Prop) (c : LineColCur) : Prop :=
  ∃ cps, Reads start cps c ∧ isJsonWhitespace c.peekUnicodeChar = false ∧ P (lastSolid cps)

/-- The text of a finite number as `snprintf` writes it for `%.17g`: an
optional minus sign, the digits of the integer part, an optional fraction (a
point and digits), an optional exponent (`e`, a sign, digits). -/
structure NumberText where
  negative : Bool
  intDigits : List Nat
  fracDigits : Option (List Nat)
  exponent : Option (Bool × List Nat)

/-- The fraction as it is written and as `parseNumber` collects it. -/
def NumberText.fracText (t : NumberText) : List Nat :=
  match t.fracDigits with
  | none => []
  | some ds => 0x2E :: ds

/-- The exponent as `snprintf` writes it: `e`, the sign `-` or `+`, the digits. -/
def NumberText.expText (t : NumberText) : List Nat :=
  match t.exponent with
  | none => []
  | some (neg, ds) => 0x65 :: (if neg then 0x2D else 0x2B) :: ds

/-- The exponent as `parseNumber` collects it in `num`: `e`, a minus sign if
the exponent is negative, the digits (json.cpp lines 301-320). -/
def NumberText.expCollected (t : NumberText) : List Nat :=
  match t.exponent with
  | none => []
  | some (neg, ds) => 0x65 :: ((if neg then [0x2D] else []) ++ ds)

/-- The text of the number. -/
def NumberText.printed (t : NumberText) : List Nat :=
  (if t.negative then [0x2D] else []) ++ (t.intDigits ++ (t.fracText ++ t.expText))

/-- The text that `parseNumber` collects in `num` from the printed text and
hands to `strtod`: a leading digit `0` is matched and not appended (json.cpp
lines 266-283), the plus sign of the exponent is dropped. -/
def NumberText.collected (t : NumberText) : List Nat :=
  (if t.negative then [0x2D] else []) ++
    ((if t.intDigits = [0x30] then [] else t.intDigits) ++ (t.fracText ++ t.expCollected))

/-- Every byte is a decimal digit. -/
def IsDigits (ds : List Nat) : Prop :=
  ∀ d ∈ ds, 0x30 ≤ d ∧ d ≤ 0x39

/-- The parts of the text are digits, and the integer part is `0` or begins
with a digit other than `0`. -/
def NumberText.WellFormed (t : NumberText) : Prop :=
  IsDigits t.intDigits ∧
  (t.intDigits = [0x30] ∨ (t.intDigits ≠ [] ∧ t.intDigits.head? ≠ some 0x30)) ∧
  (∀ ds, t.fracDigits = some ds → IsDigits ds) ∧
  (∀ neg ds, t.exponent = some (neg, ds) → IsDigits ds)

/-- The C library reads the `double` `x` back: `x` is neither infinite nor NaN,
`snprintf` writes for it a text of the form above, and `strtod` returns `x`
for that text as `parseNumber` hands it on. -/
def ReadsBack {D : Type} (L : Libc D) (x : D) : Prop :=
  L.isinf x = false ∧ L.isnan x = false ∧
  ∃ t : NumberText, t.WellFormed ∧ L.snprintf17g x = t.printed ∧ L.strtod t.collected = x

mutual
/-- Every `Number` contained in the value satisfies `P`. -/
def JSONValue.AllNumbers {D : Type} (P : D → Prop) : JSONValue D → Prop
  | .null => True
  | .string _ => True
  | .number d => P d
  | .object o => JSONValue.AllNumbersMembers P o
  | .array a => JSONValue.AllNumbersElements P a
  | .boolean _ => True
/-- Every number of every value of the entries satisfies `P`. -/
def JSONValue.AllNumbersMembers {D : Type} (P : D → Prop) :
    List (List Nat × JSONValue D) → Prop
  | [] => True
  | (_, v) :: rest => JSONValue.AllNumbers P v ∧ JSONValue.AllNumbersMembers P rest
/-- Every number of every element satisfies `P`. -/
def JSONValue.AllNumbersElements {D : Type} (P : D → Prop) : List (JSONValue D) → Prop
  | [] => True
  | v :: rest => JSONValue.AllNumbers P v ∧ JSONValue.AllNumbersElements P rest
end

/-- What follows a value in a serialized text: nothing, a comma, a closing
bracket or a closing brace. -/
def Delim (rest : List Nat) : Prop :=
  rest = [] ∨ ∃ tl, rest = 0x2C :: tl ∨ rest = 0x5D :: tl ∨ rest = 0x7D :: tl

/-- The text begins with a plain character that is neither zero, nor
whitespace, nor a closing bracket. -/
def StartsSolid (text : List Nat) : Prop :=
  ∃ b tl, text = b :: tl ∧ 0 < b ∧ b < 0x80 ∧ isJsonWhitespace b = false ∧ b ≠ 0x5D

/-! # Theorems -/

/-! ## The UTF-8 codec: arithmetic form and decoding of an encoded codepoint -/

theorem or_0x80 : ∀ x, x < 64 → (x ||| 0x80) = x + 0x80 := by decide
theorem or_lead2 : ∀ x, x < 32 → (x ||| (0xF0 &&& (0xF0 <<< 2))) = x + 0xC0 := by decide
theorem or_lead3 : ∀ x, x < 16 → (x ||| (0xF0 &&& (0xF0 <<< 1))) = x + 0xE0 := by decide
theorem or_lead4 : ∀ x, x < 8 → (x ||| (0xF0 &&& (0xF0 <<< 0))) = x + 0xF0 := by decide

theorem g_eq (c offset num : Nat) :
    utf32CharToUtf8.g c offset num = c / 2 ^ offset % 2 ^ num := by
  unfold utf32CharToUtf8.g
  rw [Nat.and_pow_two_sub_one_eq_mod, Nat.shiftRight_eq_div_pow]

theorem utf32CharToUtf8_one {c : Nat} (h : c < 0x80) : utf32CharToUtf8 c = [c] := by
  unfold utf32CharToUtf8
  have h1 : ¬ c ≥ 0x110000 := by omega
  have h2 : ¬ c ≥ 0x10000 := by omega
  have h3 : ¬ c ≥ 0x800 := by omega
  have h4 : ¬ c ≥ 0x80 := by omega
  simp only [h1, h2, h3, h4, if_false]
  congr 1
  omega

theorem utf32CharToUtf8_two {c : Nat} (h : 0x80 ≤ c) (h' : c < 0x800) :
    utf32CharToUtf8 c = [0xC0 + c / 64, 0x80 + c % 64] := by
  unfold utf32CharToUtf8
  have h1 : ¬ c ≥ 0x110000 := by omega
  have h2 : ¬ c ≥ 0x10000 := by omega
  have h3 : ¬ c ≥ 0x800 := by omega
  have h4 : c ≥ 0x80 := by omega
  simp only [h1, h2, h3, h4, if_false, if_true]
  simp only [utf32CharToUtf8.gbytes, g_eq]
  have e1 : c / 2 ^ (6 * (2 - 1)) % 2 ^ (7 - 2) = c / 64 := by
    norm_num; omega
  have e2 : c / 2 ^ (6 * (2 - 2 - 0)) % 2 ^ 6 = c % 64 := by
    norm_num
  simp only [List.range, List.range.loop, List.map, e1, e2] 
  rw [or_lead2 _ (by omega), or_0x80 _ (by omega)]
  congr 1
  · omega
  · congr 1; omega

theorem utf32CharToUtf8_three {c : Nat} (h : 0x800 ≤ c) (h' : c < 0x10000) :
    utf32CharToUtf8 c = [0xE0 + c / 4096, 0x80 + c / 64 % 64, 0x80 + c % 64] := by
  unfold utf32CharToUtf8
  have h1 : ¬ c ≥ 0x110000 := by omega
  have h2 : ¬ c ≥ 0x10000 := by omega
  have h3 : c ≥ 0x800 := by omega
  simp only [h1, h2, h3, if_false, if_true]
  simp only [utf32CharToUtf8.gbytes, g_eq]
  have e1 : c / 2 ^ (6 * (3 - 1)) % 2 ^ (7 - 3) = c / 4096 := by
    norm_num; omega
  have e2 : c / 2 ^ (6 * (3 - 2 - 0)) % 2 ^ 6 = c / 64 % 64 := by
    norm_num
  have e3 : c / 2 ^ (6 * (3 - 2 - 1)) % 2 ^ 6 = c % 64 := by
    norm_num
  simp only [List.range, List.range.loop, List.map, e1, e2, e3]
  rw [or_lead3 _ (by omega), or_0x80 _ (by omega), or_0x80 _ (by omega)]
  congr 1
  · omega
  · congr 1
    · omega
    · congr 1; omega

theorem utf32CharToUtf8_four {c : Nat} (h : 0x10000 ≤ c) (h' : c < 0x110000) :
    utf32CharToUtf8 c =
      [0xF0 + c / 262144, 0x80 + c / 4096 % 64, 0x80 + c / 64 % 64, 0x80 + c % 64] := by
  unfold utf32CharToUtf8
  have h1 : ¬ c ≥ 0x110000 := by omega
  have h2 : c ≥ 0x10000 := by omega
  simp only [h1, h2, if_false, if_true]
  simp only [utf32CharToUtf8.gbytes, g_eq]
  have e1 : c / 2 ^ (6 * (4 - 1)) % 2 ^ (7 - 4) = c / 262144 := by
    norm_num; omega
  have e2 : c / 2 ^ (6 * (4 - 2 - 0)) % 2 ^ 6 = c / 4096 % 64 := by
    norm_num
  have e3 : c / 2 ^ (6 * (4 - 2 - 1)) % 2 ^ 6 = c / 64 % 64 := by
    norm_num
  have e4 : c / 2 ^ (6 * (4 - 2 - 2)) % 2 ^ 6 = c % 64 := by
    norm_num
  simp only [List.range, List.range.loop, List.map, e1, e2, e3, e4]
  rw [or_lead4 _ (by omega), or_0x80 _ (by omega), or_0x80 _ (by omega), or_0x80 _ (by omega)]
  congr 1
  · omega
  · congr 1
    · omega
    · congr 1
      · omega
      · congr 1; omega

theorem and_0x3F (b : Nat) : (b &&& 0x3F) = b % 64 := Nat.and_pow_two_sub_one_eq_mod b 6
theorem and_0x1F (b : Nat) : (b &&& 0x1F) = b % 32 := Nat.and_pow_two_sub_one_eq_mod b 5
theorem and_0x0F (b : Nat) : (b &&& 0x0F) = b % 16 := Nat.and_pow_two_sub_one_eq_mod b 4
theorem and_0x07 (b : Nat) : (b &&& 0x07) = b % 8 := Nat.and_pow_two_sub_one_eq_mod b 3

theorem shift_or (ret b : Nat) (hb : b < 64) : ((ret <<< 6) ||| b) = ret * 64 + b := by
  rw [Nat.shiftLeft_eq]
  have := Nat.mul_add_lt_is_or (i := 6) (b := b) (by simpa using hb) ret
  rw [Nat.mul_comm] at this
  simpa using this.symm

theorem readUtf8Cont_stop (ret : Nat) (rest : List Nat) (h : notCont rest) (hr : ret < 0x110000) :
    readUtf8Cont ret 0 rest = (ret, rest) := by
  cases rest with
  | nil => simp [readUtf8Cont]; omega
  | cons b tl =>
    have hb : ¬ (0x80 ≤ b ∧ b < 0xC0) := by simpa [notCont] using h
    simp only [readUtf8Cont, hb, if_false]
    simp; omega

theorem readUtf8Cont_step (ret n v : Nat) (rest : List Nat) (hv : v < 64) :
    readUtf8Cont ret (n + 1) ((0x80 + v) :: rest) = readUtf8Cont (ret * 64 + v) n rest := by
  have hb : (0x80 ≤ 0x80 + v ∧ 0x80 + v < 0xC0) := by omega
  simp only [readUtf8Cont, hb, if_true]
  have : ¬ (n + 1 = 0) := by omega
  simp only [this, if_false, Nat.add_sub_cancel]
  rw [and_0x3F, shift_or _ _ (Nat.mod_lt _ (by norm_num))]
  have e : (0x80 + v) % 64 = v := by omega
  rw [e]
  simp

theorem readUtf8Char_utf32CharToUtf8 {c : Nat} (hc : c < 0x110000) (rest : List Nat)
    (h : notCont rest) : readUtf8Char (utf32CharToUtf8 c ++ rest) = (c, rest) := by
  by_cases h1 : c < 0x80
  · rw [utf32CharToUtf8_one h1]
    simp [readUtf8Char, h1]
  by_cases h2 : c < 0x800
  · rw [utf32CharToUtf8_two (by omega) h2]
    have a1 : ¬ (0xC0 + c / 64 < 0x80) := by omega
    have a2 : ¬ (0xC0 + c / 64 ≥ 0xF8) := by omega
    have a3 : ¬ (0xC0 + c / 64 ≥ 0xF0) := by omega
    have a4 : ¬ (0xC0 + c / 64 ≥ 0xE0) := by omega
    have a5 : (0xC0 + c / 64 ≥ 0x60) := by omega
    simp only [readUtf8Char, List.cons_append, List.nil_append, List.headD_cons, List.tail_cons,
      a1, a2, a3, a4, a5, if_false, if_true]
    rw [and_0x1F, readUtf8Cont_step _ _ _ _ (Nat.mod_lt _ (by norm_num)),
      readUtf8Cont_stop _ _ h (by omega)]
    congr 1; omega
  by_cases h3 : c < 0x10000
  · rw [utf32CharToUtf8_three (by omega) h3]
    have a1 : ¬ (0xE0 + c / 4096 < 0x80) := by omega
    have a2 : ¬ (0xE0 + c / 4096 ≥ 0xF8) := by omega
    have a3 : ¬ (0xE0 + c / 4096 ≥ 0xF0) := by omega
    have a4 : (0xE0 + c / 4096 ≥ 0xE0) := by omega
    simp only [readUtf8Char, List.cons_append, List.nil_append, List.headD_cons, List.tail_cons,
      a1, a2, a3, a4, if_false, if_true]
    rw [and_0x0F, readUtf8Cont_step _ _ _ _ (Nat.mod_lt _ (by norm_num)),
      readUtf8Cont_step _ _ _ _ (Nat.mod_lt _ (by norm_num)),
      readUtf8Cont_stop _ _ h (by omega)]
    congr 1; omega
  · rw [utf32CharToUtf8_four (by omega) hc]
    have a1 : ¬ (0xF0 + c / 262144 < 0x80) := by omega
    have a2 : ¬ (0xF0 + c / 262144 ≥ 0xF8) := by omega
    have a3 : (0xF0 + c / 262144 ≥ 0xF0) := by omega
    simp only [readUtf8Char, List.cons_append, List.nil_append, List.headD_cons, List.tail_cons,
      a1, a2, a3, if_false, if_true]
    rw [and_0x07, readUtf8Cont_step _ _ _ _ (Nat.mod_lt _ (by norm_num)),
      readUtf8Cont_step _ _ _ _ (Nat.mod_lt _ (by norm_num)),
      readUtf8Cont_step _ _ _ _ (Nat.mod_lt _ (by norm_num)),
      readUtf8Cont_stop _ _ h (by omega)]
    congr 1; omega

/-! ## Results -/

@[simp] theorem Result.bind_ok {α β : Type} (a : α) (f : α → Result β) :
    (Result.ok a).bind f = f a := rfl

@[simp] theorem Result.bind_error {α β : Type} (e : RuntimeError) (f : α → Result β) :
    (Result.error e).bind f = Result.error e := rfl

@[simp] theorem Result.bind_outOfFuel {α β : Type} (f : α → Result β) :
    (Result.outOfFuel).bind f = Result.outOfFuel := rfl

@[simp] theorem Result.map_ok {α β : Type} (a : α) (f : α → β) :
    (Result.ok a).map f = Result.ok (f a) := rfl

/-! ## The cursor on plain bytes -/

theorem readUtf8Char_nil : readUtf8Char [] = (0, []) := by
  simp [readUtf8Char]

theorem readUtf8Char_ascii {b : Nat} (h : b < 0x80) (rest : List Nat) :
    readUtf8Char (b :: rest) = (b, rest) := by
  simp [readUtf8Char, h]

theorem peekUnicodeChar_ascii {b : Nat} (h : b < 0x80) (rest : List Nat) (l c : Nat) :
    LineColCur.peekUnicodeChar ⟨b :: rest, l, c⟩ = b := by
  simp [LineColCur.peekUnicodeChar, readUtf8Char_ascii h]

theorem peekUnicodeChar_nil (l c : Nat) : LineColCur.peekUnicodeChar ⟨[], l, c⟩ = 0 := by
  simp [LineColCur.peekUnicodeChar, readUtf8Char_nil]

theorem getUnicodeChar_ascii {b : Nat} (h : b < 0x80) (h0 : b ≠ 0) (hn : b ≠ 0x0A)
    (rest : List Nat) (l c : Nat) :
    LineColCur.getUnicodeChar ⟨b :: rest, l, c⟩ = .ok (b, ⟨rest, l, c + 1⟩) := by
  simp [LineColCur.getUnicodeChar, readUtf8Char_ascii h, h0, hn]

theorem skipWhitespace_of_not_ws (pc : ParseCursor)
    (h : isJsonWhitespace pc.peekUnicodeChar = false) :
    ParseCursor.skipWhitespace pc = .ok pc := by
  simp [ParseCursor.skipWhitespace, ParseCursor.skipWhitespaceLoop, h]

theorem tryParse_miss (str : List Nat) (pc : ParseCursor) (hs : str.headD 0 ≠ 0)
    (h : pc.cur.headD 0 = 0 ∨ pc.peekUnicodeChar ≠ (readUtf8Char str).1) :
    ParseCursor.tryParse str pc = .ok (false, pc) := by
  unfold ParseCursor.tryParse ParseCursor.tryParseLoop
  rw [if_neg hs, if_pos h]
  rfl

theorem tryParseLoop_ascii (ts : List Nat) :
    ∀ (fuel : Nat) (rest : List Nat) (l c : Nat),
      (∀ b ∈ ts, 0 < b ∧ b < 0x80 ∧ b ≠ 0x0A) → ts.length < fuel →
      ParseCursor.tryParseLoop fuel ts ⟨ts ++ rest, l, c⟩ = .ok (some ⟨rest, l, c + ts.length⟩) := by
  induction ts with
  | nil =>
    intro fuel rest l c _ hf
    cases fuel with
    | zero => simp at hf
    | succ n => simp [ParseCursor.tryParseLoop]
  | cons t ts ih =>
    intro fuel rest l c hts hf
    cases fuel with
    | zero => simp at hf
    | succ n =>
      have ht := hts t (by simp)
      have h0 : t ≠ 0 := by omega
      simp only [ParseCursor.tryParseLoop, List.headD_cons, h0, if_false, List.cons_append,
        peekUnicodeChar_ascii ht.2.1, readUtf8Char_ascii ht.2.1, ne_eq, not_true_eq_false,
        or_self, getUnicodeChar_ascii ht.2.1 h0 ht.2.2, Result.bind_ok]
      rw [ih n rest l (c + 1) (fun b hb => hts b (by simp [hb])) (by simpa using hf)]
      simp only [List.length_cons]
      congr 3
      omega

theorem tryParse_ascii_hit (ts : List Nat) (rest : List Nat) (l c : Nat)
    (hts : ∀ b ∈ ts, 0 < b ∧ b < 0x80 ∧ b ≠ 0x0A) :
    ParseCursor.tryParse ts ⟨ts ++ rest, l, c⟩ =
      (ParseCursor.skipWhitespace ⟨rest, l, c + ts.length⟩).map fun pc1 => (true, pc1) := by
  simp [ParseCursor.tryParse, tryParseLoop_ascii ts _ rest l c hts (Nat.lt_succ_self _)]

@[simp] theorem Result.map_error {α β : Type} (e : RuntimeError) (f : α → β) :
    (Result.error e : Result α).map f = Result.error e := rfl

@[simp] theorem Result.map_outOfFuel {α β : Type} (f : α → β) :
    (Result.outOfFuel : Result α).map f = Result.outOfFuel := rfl

theorem Result.map_bind {α β γ : Type} (x : Result α) (f : α → Result β) (g : β → γ) :
    (x.bind f).map g = x.bind (fun a => (f a).map g) := by
  cases x <;> rfl

theorem Result.bind_map {α β γ : Type} (x : Result α) (f : α → β) (g : β → Result γ) :
    (x.map f).bind g = x.bind (fun a => g (f a)) := by
  cases x <;> rfl

theorem Result.map_map {α β γ : Type} (x : Result α) (f : α → β) (g : β → γ) :
    (x.map f).map g = x.map (fun a => g (f a)) := by
  cases x <;> rfl

theorem Result.map_ite {α β : Type} (c : Prop) [Decidable c] (x y : Result α) (g : α → β) :
    (if c then x else y).map g = if c then x.map g else y.map g := by
  split <;> rfl

@[simp] theorem LineColCur.error_map {α β : Type} (c : LineColCur) (msg : String) (g : α → β) :
    (c.error msg : Result α).map g = c.error msg := rfl

@[simp] theorem LineColCur.error_bind {α β : Type} (c : LineColCur) (msg : String)
    (g : α → Result β) : (c.error msg : Result α).bind g = c.error msg := rfl

theorem assign_mapNumber {D E : Type} (f : D → E) (name : List Nat) (v : JSONValue D)
    (c : JSONObject D) :
    JSONValue.mapNumber.members f (JSONObject.assign name v c)
      = JSONObject.assign name (JSONValue.mapNumber f v) (JSONValue.mapNumber.members f c) := by
  induction c with
  | nil => simp [JSONObject.assign, JSONValue.mapNumber.members]
  | cons kw rest ih =>
    obtain ⟨k, w⟩ := kw
    simp only [JSONObject.assign, JSONValue.mapNumber.members]
    split
    · simp [JSONValue.mapNumber.members]
    · split
      · simp [JSONValue.mapNumber.members, ih]
      · simp [JSONValue.mapNumber.members]

theorem elements_append {D E : Type} (f : D → E) (a : List (JSONValue D)) (v : JSONValue D) :
    JSONValue.mapNumber.elements f (a ++ [v])
      = JSONValue.mapNumber.elements f a ++ [JSONValue.mapNumber f v] := by
  induction a with
  | nil => simp [JSONValue.mapNumber.elements]
  | cons x rest ih => simp [JSONValue.mapNumber.elements, ih]

theorem parse_natural {D : Type} (L : Libc D) : ∀ fuel : Nat,
    (∀ pc, parseValue L fuel pc
        = (parseValue Libc.text fuel pc).map
            (fun r => (JSONValue.mapNumber L.strtod r.1, r.2))) ∧
    (∀ c first pc, parseObjectLoop L fuel (JSONValue.mapNumber.members L.strtod c) first pc
        = (parseObjectLoop Libc.text fuel c first pc).map
            (fun r => (JSONValue.mapNumber.members L.strtod r.1, r.2))) ∧
    (∀ a first pc, parseArrayLoop L fuel (JSONValue.mapNumber.elements L.strtod a) first pc
        = (parseArrayLoop Libc.text fuel a first pc).map
            (fun r => (JSONValue.mapNumber.elements L.strtod r.1, r.2))) := by
  intro fuel
  induction fuel with
  | zero => exact ⟨fun _ => rfl, fun _ _ _ => rfl, fun _ _ _ => rfl⟩
  | succ n ih =>
    obtain ⟨ihv, iho, iha⟩ := ih
    refine ⟨?_, ?_, ?_⟩
    · intro pc
      have ho := iho [] true
      have ha := iha [] true
      simp only [JSONValue.mapNumber.members, JSONValue.mapNumber.elements] at ho ha
      simp only [parseValue, Result.map_bind, Result.map_ite, Result.map_map, Result.map_ok,
        LineColCur.error_map, ho, ha, JSONValue.mapNumber, parseNumber, ParseCursor.parseNumber,
        Libc.text]
    · intro c first pc
      simp only [parseObjectLoop, Result.map_bind, Result.map_ite, Result.map_map, Result.map_ok,
        LineColCur.error_map, ihv, Result.bind_map, ← iho, assign_mapNumber]
    · intro a first pc
      simp only [parseArrayLoop, Result.map_bind, Result.map_ite, Result.map_map, Result.map_ok,
        LineColCur.error_map, ihv, Result.bind_map, ← iha, elements_append]

/-! ## Deep equality as a computation, and the parser over any C library -/

mutual
theorem JSONValue.eq_of_beq {D : Type} [DecidableEq D] :
    ∀ (a b : JSONValue D), JSONValue.beq a b = true → a = b
  | .null, .null, _ => rfl
  | .string s, .string t, h => by simp [JSONValue.beq] at h; rw [h]
  | .number d, .number e, h => by simp [JSONValue.beq] at h; rw [h]
  | .object o, .object p, h => by
      simp only [JSONValue.beq] at h; rw [JSONValue.eq_of_beqMembers o p h]
  | .array a, .array b, h => by
      simp only [JSONValue.beq] at h; rw [JSONValue.eq_of_beqElements a b h]
  | .boolean a, .boolean b, h => by simp [JSONValue.beq] at h; rw [h]
  | .null, .string _, h | .null, .number _, h | .null, .object _, h | .null, .array _, h
  | .null, .boolean _, h => by simp [JSONValue.beq] at h
  | .string _, .null, h | .string _, .number _, h | .string _, .object _, h
  | .string _, .array _, h | .string _, .boolean _, h => by simp [JSONValue.beq] at h
  | .number _, .null, h | .number _, .string _, h | .number _, .object _, h
  | .number _, .array _, h | .number _, .boolean _, h => by simp [JSONValue.beq] at h
  | .object _, .null, h | .object _, .string _, h | .object _, .number _, h
  | .object _, .array _, h | .object _, .boolean _, h => by simp [JSONValue.beq] at h
  | .array _, .null, h | .array _, .string _, h | .array _, .number _, h
  | .array _, .object _, h | .array _, .boolean _, h => by simp [JSONValue.beq] at h
  | .boolean _, .null, h | .boolean _, .string _, h | .boolean _, .number _, h
  | .boolean _, .object _, h | .boolean _, .array _, h => by simp [JSONValue.beq] at h
theorem JSONValue.eq_of_beqMembers {D : Type} [DecidableEq D] :
    ∀ (o p : List (List Nat × JSONValue D)), JSONValue.beqMembers o p = true → o = p
  | [], [], _ => rfl
  | (k, v) :: r, (k', v') :: r', h => by
      simp only [JSONValue.beqMembers, Bool.and_eq_true, decide_eq_true_eq] at h
      rw [h.1.1, JSONValue.eq_of_beq v v' h.1.2, JSONValue.eq_of_beqMembers r r' h.2]
  | [], _ :: _, h => by simp [JSONValue.beqMembers] at h
  | _ :: _, [], h => by simp [JSONValue.beqMembers] at h
theorem JSONValue.eq_of_beqElements {D : Type} [DecidableEq D] :
    ∀ (a b : List (JSONValue D)), JSONValue.beqElements a b = true → a = b
  | [], [], _ => rfl
  | v :: r, v' :: r', h => by
      simp only [JSONValue.beqElements, Bool.and_eq_true] at h
      rw [JSONValue.eq_of_beq v v' h.1, JSONValue.eq_of_beqElements r r' h.2]
  | [], _ :: _, h => by simp [JSONValue.beqElements] at h
  | _ :: _, [], h => by simp [JSONValue.beqElements] at h
end

theorem Result.eq_ok_of_returns {D : Type} [DecidableEq D] (r : Result (JSONValue D))
    (v : JSONValue D) (h : Result.returns r v = true) : r = .ok v := by
  cases r with
  | ok a => simp only [Result.returns] at h; rw [JSONValue.eq_of_beq a v h]
  | error e => simp [Result.returns] at h
  | outOfFuel => simp [Result.returns] at h

theorem parseJson_natural {D : Type} (L : Libc D) (text : List Nat) :
    parseJson L text = (parseJson Libc.text text).map (JSONValue.mapNumber L.strtod) := by
  simp only [parseJson, Result.map_bind, Result.map_map, (parse_natural L _).1]

/-- A document that the parser run on number texts turns into `tv` is turned
into `tv`, its number texts converted by `strtod`, whatever the C library. -/
theorem parseJson_of_text {D : Type} (L : Libc D) (text : List Nat) (tv : JSONValue (List Nat))
    (h : Result.returns (parseJson Libc.text text) tv = true) :
    parseJson L text = .ok (JSONValue.mapNumber L.strtod tv) := by
  rw [parseJson_natural, Result.eq_ok_of_returns _ _ h]; rfl

theorem Result.eq_error_of_throws {α : Type} (r : Result α) (e : RuntimeError)
    (h : Result.throws r e = true) : r = .error e := by
  cases r with
  | ok a => simp [Result.throws] at h
  | error e1 => simp only [Result.throws, decide_eq_true_eq] at h; rw [h]
  | outOfFuel => simp [Result.throws] at h

/-- A document on which the parser run on number texts throws `e` makes the
parser throw `e` whatever the C library. -/
theorem parseJson_error_of_text {D : Type} (L : Libc D) (text : List Nat) (e : RuntimeError)
    (h : Result.throws (parseJson Libc.text text) e = true) : parseJson L text = .error e := by
  rw [parseJson_natural, Result.eq_error_of_throws _ _ h]; rfl

/-! ## C15, C16, C13, C11 -/

theorem utf32CharToUtf8_eq_utf8Encode {c : Nat} (hc : c < 0x110000) :
    utf32CharToUtf8 c = utf8Encode c := by
  unfold utf8Encode
  by_cases h1 : c < 0x80
  · rw [utf32CharToUtf8_one h1, if_pos h1]
  by_cases h2 : c < 0x800
  · rw [utf32CharToUtf8_two (by omega) h2, if_neg h1, if_pos h2]
  by_cases h3 : c < 0x10000
  · rw [utf32CharToUtf8_three (by omega) h3, if_neg h1, if_neg h2, if_pos h3]
  · rw [utf32CharToUtf8_four (by omega) hc, if_neg h1, if_neg h2, if_neg h3]

theorem utf32CharToUtf8_large {c : Nat} (hc : 0x110000 ≤ c) :
    utf32CharToUtf8 c = [0xEF, 0xBF, 0xBD] := by
  unfold utf32CharToUtf8
  rw [if_pos hc]; rfl

/-- C15. For every codepoint `c` below 0x110000, `utf32CharToUtf8 c` is the
standard UTF-8 encoding of `c` (1 byte below 0x80, 2 below 0x800, 3 below
0x10000, 4 otherwise), and `readUtf8Char` at those bytes followed by anything
but a continuation byte returns `c` and leaves the cursor right after them; for
every `c` at or above 0x110000, `utf32CharToUtf8 c` is `EF BF BD`. -/
theorem C15_utf8_codec_round_trip (c : Nat) :
    (c < 0x110000 →
      utf32CharToUtf8 c = utf8Encode c ∧
      (utf32CharToUtf8 c).length
        = (if c < 0x80 then 1 else if c < 0x800 then 2 else if c < 0x10000 then 3 else 4) ∧
      ∀ rest : List Nat, notCont rest →
        readUtf8Char (utf32CharToUtf8 c ++ rest) = (c, rest)) ∧
    (0x110000 ≤ c → utf32CharToUtf8 c = [0xEF, 0xBF, 0xBD]) := by
  refine ⟨fun hc => ⟨utf32CharToUtf8_eq_utf8Encode hc, ?_,
    fun rest h => readUtf8Char_utf32CharToUtf8 hc rest h⟩, utf32CharToUtf8_large⟩
  rw [utf32CharToUtf8_eq_utf8Encode hc]
  unfold utf8Encode
  split
  · rfl
  · split
    · rfl
    · split <;> rfl

/-- C15 at U+1F600 followed by a quote: the encoding is `F0 9F 98 80` and is
read back. -/
theorem C15_utf8_codec_round_trip_witness :
    utf32CharToUtf8 0x1F600 = [0xF0, 0x9F, 0x98, 0x80] ∧
    readUtf8Char (utf32CharToUtf8 0x1F600 ++ [0x22]) = (0x1F600, [0x22]) :=
  ⟨by decide,
   ((C15_utf8_codec_round_trip 0x1F600).1 (by decide)).2.2 [0x22] (by simp [notCont])⟩

/-- C16 at its failing input. A stray continuation byte 0x80 followed by the
continuation byte 0xBF is read as a two-byte sequence: `readUtf8Char` returns
U+003F, not U+FFFD, and consumes two bytes, not one. -/
theorem C16_stray_continuation_lead_consumes_two :
    readUtf8Char [0x80, 0xBF, 0x41] = (0x3F, [0x41]) := by
  decide

/-- C13. For every number whose `double` is infinite or NaN, `encodeJson`
returns exactly the text `null`. -/
theorem C13_non_finite_serialises_as_null {D : Type} (L : Libc D) (x : D)
    (h : L.isinf x = true ∨ L.isnan x = true) :
    encodeJson L (.number x) = .ok [0x6E, 0x75, 0x6C, 0x6C] := by
  have hb : (L.isinf x || L.isnan x) = true := by
    rcases h with h | h <;> simp [h]
  simp only [encodeJson, encodeJsonValue, encodeNumber, hb, if_true]

/-- C13 at the infinity of a C library that has one. -/
theorem C13_non_finite_serialises_as_null_witness :
    encodeJson Libc.infinite (.number ()) = .ok [0x6E, 0x75, 0x6C, 0x6C] :=
  C13_non_finite_serialises_as_null Libc.infinite () (Or.inl rfl)

theorem stray_continuation_text :
    ∀ b, b < 0xC0 → 0x80 ≤ b →
      Result.returns (parseJson Libc.text [0x22, b, 0x22]) (.string [0xEF, 0xBF, 0xBD]) = true := by
  decide!

/-- C11. For every byte `b` of 0x80..0xBF, `parseJson` of the three bytes
quote, `b`, quote returns the string that is exactly one U+FFFD (`EF BF BD`). -/
theorem C11_stray_continuation_byte_replaced {D : Type} (L : Libc D) (b : Nat)
    (h1 : 0x80 ≤ b) (h2 : b ≤ 0xBF) :
    parseJson L [0x22, b, 0x22] = .ok (.string [0xEF, 0xBF, 0xBD]) :=
  parseJson_of_text L _ (.string [0xEF, 0xBF, 0xBD])
    (stray_continuation_text b (by omega) h1)

/-- C11 at the byte 0x80. -/
theorem C11_stray_continuation_byte_replaced_witness :
    parseJson Libc.text [0x22, 0x80, 0x22] = .ok (.string [0xEF, 0xBF, 0xBD]) :=
  C11_stray_continuation_byte_replaced Libc.text 0x80 (by decide) (by decide)

/-! ## The decoder reads a bounded, non-empty piece of the buffer -/

/-- The continuation loop consumes some `k` bytes of `s`, and what it returns
does not depend on what follows a zero byte after `s`. -/
theorem readUtf8Cont_frame (s : List Nat) : ∀ ret n : Nat,
    ∃ c k, k ≤ s.length ∧ readUtf8Cont ret n s = (c, s.drop k) ∧
      ∀ post : List Nat, readUtf8Cont ret n (s ++ 0 :: post) = (c, s.drop k ++ 0 :: post) := by
  induction s with
  | nil =>
    intro ret n
    by_cases h : n ≠ 0 ∨ ret ≥ 0x110000
    · exact ⟨0xFFFD, 0, by simp, by simp [readUtf8Cont, h], fun post => by simp [readUtf8Cont, h]⟩
    · exact ⟨ret, 0, by simp, by simp [readUtf8Cont, h], fun post => by simp [readUtf8Cont, h]⟩
  | cons b s ih =>
    intro ret n
    by_cases hb : 0x80 ≤ b ∧ b < 0xC0
    · by_cases hn : n = 0
      · exact ⟨0xFFFD, 0, by simp, by simp [readUtf8Cont, hb, hn],
          fun post => by simp [readUtf8Cont, hb, hn]⟩
      · obtain ⟨c, k, hk, h1, h2⟩ := ih ((ret <<< 6) ||| (b &&& 0x3F)) (n - 1)
        refine ⟨c, k + 1, by simpa using hk, ?_, fun post => ?_⟩
        · simp only [readUtf8Cont, hb, hn, and_self, if_true, if_false, h1, List.drop_succ_cons]
        · have h3 := h2 post
          simpa [readUtf8Cont, hb, hn] using h3
    · by_cases h : n ≠ 0 ∨ ret ≥ 0x110000
      · exact ⟨0xFFFD, 0, by simp, by simp [readUtf8Cont, hb, h],
          fun post => by simp [readUtf8Cont, hb, h]⟩
      · exact ⟨ret, 0, by simp, by simp [readUtf8Cont, hb, h],
          fun post => by simp [readUtf8Cont, hb, h]⟩

/-- On a non-empty buffer `readUtf8Char` consumes `k` bytes, at least one, and
what it returns does not depend on what follows a zero byte after `s`. -/
theorem readUtf8Char_frame (s : List Nat) (hs : s ≠ []) :
    ∃ c k, 0 < k ∧ k ≤ s.length ∧ readUtf8Char s = (c, s.drop k) ∧
      ∀ post : List Nat, readUtf8Char (s ++ 0 :: post) = (c, s.drop k ++ 0 :: post) := by
  cases s with
  | nil => exact absurd rfl hs
  | cons b s =>
    have frame : ∀ ret n, ∃ c k, 0 < k ∧ k ≤ (b :: s).length ∧
        readUtf8Cont ret n s = (c, (b :: s).drop k) ∧
        ∀ post : List Nat, readUtf8Cont ret n (s ++ 0 :: post) = (c, (b :: s).drop k ++ 0 :: post) := by
      intro ret n
      obtain ⟨c, k, hk, h1, h2⟩ := readUtf8Cont_frame s ret n
      exact ⟨c, k + 1, by omega, by simpa using hk, by simpa using h1, fun post => by simpa using h2 post⟩
    have one : ∀ c : Nat, ∃ c1 k, 0 < k ∧ k ≤ (b :: s).length ∧
        (c, s) = (c1, (b :: s).drop k) ∧
        ∀ post : List Nat, (c, s ++ 0 :: post) = (c1, (b :: s).drop k ++ 0 :: post) :=
      fun c => ⟨c, 1, by omega, by simp, by simp, fun post => by simp⟩
    simp only [readUtf8Char, List.headD_cons, List.tail_cons, List.cons_append]
    split
    · exact one _
    · split
      · exact one _
      · split
        · exact frame _ _
        · split
          · exact frame _ _
          · split
            · exact frame _ _
            · exact one _

theorem readUtf8Char_length_le (s : List Nat) : (readUtf8Char s).2.length ≤ s.length := by
  cases s with
  | nil => simp [readUtf8Char_nil]
  | cons b t =>
    obtain ⟨c, k, _, _, h, _⟩ := readUtf8Char_frame (b :: t) (by simp)
    rw [h]; simp

theorem readUtf8Char_length_lt (s : List Nat) (hs : s ≠ []) :
    (readUtf8Char s).2.length < s.length := by
  obtain ⟨c, k, hk, hk2, h, _⟩ := readUtf8Char_frame s hs
  rw [h]
  simp only [List.length_drop]
  have : 0 < s.length := List.length_pos.mpr hs
  omega

/-- C17. In a buffer whose bytes from the cursor on are `s`, a zero byte and
then anything (so with `s` free of zero bytes that zero is the terminator),
`readUtf8Char` is a total function that returns a codepoint and a cursor which
are the same whatever follows the zero byte: at the zero byte itself it reads
that byte alone; before it, it advances by `k` bytes with `0 < k` and `k` at
most the distance to the zero byte.  The same holds when the buffer ends after
`s`. -/
theorem C17_decoder_stays_before_terminator (s : List Nat) :
    (∀ post : List Nat, readUtf8Char (0 :: post) = (0, post)) ∧
    (s ≠ [] → ∃ c k, 0 < k ∧ k ≤ s.length ∧ readUtf8Char s = (c, s.drop k) ∧
      ∀ post : List Nat, readUtf8Char (s ++ 0 :: post) = (c, s.drop k ++ 0 :: post)) :=
  ⟨fun post => readUtf8Char_ascii (by decide) post, fun h => readUtf8Char_frame s h⟩

/-- C17 at the bytes `E2 82` (a three-byte sequence cut short by the
terminator): the decoder stops at the zero byte. -/
theorem C17_decoder_stays_before_terminator_witness :
    ∃ c k, 0 < k ∧ k ≤ 2 ∧ readUtf8Char [0xE2, 0x82] = (c, [0xE2, 0x82].drop k) ∧
      ∀ post : List Nat,
        readUtf8Char ([0xE2, 0x82] ++ 0 :: post) = (c, [0xE2, 0x82].drop k ++ 0 :: post) :=
  (C17_decoder_stays_before_terminator [0xE2, 0x82]).2 (by decide)

/-! ## The cursor: one codepoint, whitespace, tokens -/

theorem getUnicodeChar_eq (c : LineColCur) :
    c.getUnicodeChar =
      if c.peekUnicodeChar = 0 then c.error "Unexpected end of file"
      else .ok (c.peekUnicodeChar, c.advance) := by
  unfold LineColCur.getUnicodeChar LineColCur.advance LineColCur.peekUnicodeChar
  by_cases h0 : (readUtf8Char c.cur).1 = 0
  · simp [h0]
  · by_cases h1 : (readUtf8Char c.cur).1 = 0x0A
    · simp [h1]
    · simp [h0, h1]

theorem cur_ne_nil_of_peek (c : LineColCur) (h : c.peekUnicodeChar ≠ 0) : c.cur ≠ [] := by
  intro hn
  apply h
  simp [LineColCur.peekUnicodeChar, hn, readUtf8Char_nil]

theorem cur_ne_nil_of_head (s : List Nat) (h : s.headD 0 ≠ 0) : s ≠ [] := by
  intro hn
  apply h
  simp [hn]

theorem advance_length_le (c : LineColCur) : c.advance.cur.length ≤ c.cur.length := by
  unfold LineColCur.advance
  split <;> exact readUtf8Char_length_le _

theorem advance_length_lt (c : LineColCur) (h : c.cur ≠ []) :
    c.advance.cur.length < c.cur.length := by
  unfold LineColCur.advance
  split <;> exact readUtf8Char_length_lt _ h

theorem Reads.length_le {c c1 : LineColCur} {cps : List Nat} (h : Reads c cps c1) :
    c1.cur.length + cps.length ≤ c.cur.length := by
  induction h with
  | done c => simp
  | @step c c1 c2 cp cps hg _ ih =>
    rw [getUnicodeChar_eq] at hg
    by_cases h0 : c.peekUnicodeChar = 0
    · simp [h0, LineColCur.error] at hg
    · simp only [h0, if_false, Result.ok.injEq, Prod.mk.injEq] at hg
      have := advance_length_lt c (cur_ne_nil_of_peek c h0)
      rw [hg.2] at this
      simp only [List.length_cons]
      omega

theorem Reads.append {c c1 c2 : LineColCur} {xs ys : List Nat} (h1 : Reads c xs c1)
    (h2 : Reads c1 ys c2) : Reads c (xs ++ ys) c2 := by
  induction h1 with
  | done c => simpa using h2
  | step hg _ ih => exact Reads.step hg (ih h2)

theorem Reads.pos {c c1 : LineColCur} {cps : List Nat} (h : Reads c cps c1) :
    (c1.line, c1.col) = advancePos (c.line, c.col) cps := by
  induction h with
  | done c => rfl
  | @step c c1 c2 cp cps hg _ ih =>
    rw [getUnicodeChar_eq] at hg
    by_cases h0 : c.peekUnicodeChar = 0
    · simp [h0, LineColCur.error] at hg
    · simp only [h0, if_false, Result.ok.injEq, Prod.mk.injEq] at hg
      obtain ⟨hcp, hc1⟩ := hg
      rw [ih, ← hc1, ← hcp]
      unfold LineColCur.advance
      by_cases hn : c.peekUnicodeChar = 0x0A
      · simp [advancePos, hn]
      · simp [advancePos, hn]

theorem isJsonWhitespace_ne_zero {w : Nat} (h : isJsonWhitespace w = true) : w ≠ 0 := by
  intro h0
  rw [h0] at h
  simp [isJsonWhitespace] at h

/-- The loop of `skipWhitespace` returns: it reads whitespace codepoints only
and stops in front of a codepoint that is not whitespace. -/
theorem skipWhitespaceLoop_spec : ∀ (fuel : Nat) (pc : ParseCursor), pc.cur.length < fuel →
    ∃ ws pc1, ParseCursor.skipWhitespaceLoop fuel pc = .ok pc1 ∧ Reads pc ws pc1 ∧
      (∀ w ∈ ws, isJsonWhitespace w = true) ∧ isJsonWhitespace pc1.peekUnicodeChar = false := by
  intro fuel
  induction fuel with
  | zero => intro pc h; omega
  | succ n ih =>
    intro pc h
    by_cases hw : isJsonWhitespace pc.peekUnicodeChar = true
    · have h0 := isJsonWhitespace_ne_zero hw
      have hg : pc.getUnicodeChar = .ok (pc.peekUnicodeChar, pc.advance) := by
        rw [getUnicodeChar_eq, if_neg h0]
      have hl := advance_length_lt pc (cur_ne_nil_of_peek pc h0)
      obtain ⟨ws, pc1, e, r, a, b⟩ := ih pc.advance (by omega)
      refine ⟨pc.peekUnicodeChar :: ws, pc1, ?_, Reads.step hg r, ?_, b⟩
      · simp only [ParseCursor.skipWhitespaceLoop, hw, if_true, hg, Result.bind_ok, e]
      · intro w hw1
        rcases List.mem_cons.mp hw1 with h1 | h1
        · rw [h1]; exact hw
        · exact a w h1
    · have hw1 : isJsonWhitespace pc.peekUnicodeChar = false := by simpa using hw
      exact ⟨[], pc, by simp [ParseCursor.skipWhitespaceLoop, hw1], Reads.done pc, by simp, hw1⟩

theorem skipWhitespace_spec (pc : ParseCursor) :
    ∃ ws pc1, ParseCursor.skipWhitespace pc = .ok pc1 ∧ Reads pc ws pc1 ∧
      (∀ w ∈ ws, isJsonWhitespace w = true) ∧ isJsonWhitespace pc1.peekUnicodeChar = false :=
  skipWhitespaceLoop_spec _ pc (Nat.lt_succ_self _)

theorem codepointsLoop_fuel : ∀ (fuel fuel1 : Nat) (s : List Nat),
    s.length ≤ fuel → s.length ≤ fuel1 → codepointsLoop fuel s = codepointsLoop fuel1 s := by
  intro fuel
  induction fuel with
  | zero =>
    intro fuel1 s h _
    have hs : s = [] := List.length_eq_zero.mp (by omega)
    subst hs
    cases fuel1 <;> simp [codepointsLoop]
  | succ n ih =>
    intro fuel1 s h h1
    cases fuel1 with
    | zero =>
      have hs : s = [] := List.length_eq_zero.mp (by omega)
      subst hs
      simp [codepointsLoop]
    | succ m =>
      by_cases h0 : s.headD 0 = 0
      · simp only [codepointsLoop, h0, if_true]
      · have hl := readUtf8Char_length_lt s (cur_ne_nil_of_head s h0)
        simp only [codepointsLoop, h0, if_false]
        rw [ih m _ (by omega) (by omega)]

theorem codepoints_of_head_zero (s : List Nat) (h : s.headD 0 = 0) : codepoints s = [] := by
  unfold codepoints
  cases hs : s.length with
  | zero => rfl
  | succ n => simp only [codepointsLoop, h, if_true]

theorem codepoints_of_head (s : List Nat) (h : s.headD 0 ≠ 0) :
    codepoints s = (readUtf8Char s).1 :: codepoints (readUtf8Char s).2 := by
  have hne := cur_ne_nil_of_head s h
  have hl := readUtf8Char_length_lt s hne
  unfold codepoints
  cases hs : s.length with
  | zero => exact absurd (List.length_eq_zero.mp hs) hne
  | succ n =>
    simp only [codepointsLoop, h, if_false]
    rw [codepointsLoop_fuel n _ _ (by omega) (le_refl _)]

/-- The matching loop of `tryParse` on a token none of whose codepoints is
zero: it gives up, or it has read the codepoints of the token. -/
theorem tryParseLoop_spec : ∀ (fuel : Nat) (str : List Nat) (tmp : LineColCur),
    str.length < fuel → 0 ∉ codepoints str →
    ParseCursor.tryParseLoop fuel str tmp = .ok none ∨
    ∃ mid, ParseCursor.tryParseLoop fuel str tmp = .ok (some mid) ∧ Reads tmp (codepoints str) mid := by
  intro fuel
  induction fuel with
  | zero => intro str tmp h; omega
  | succ n ih =>
    intro str tmp h hz
    by_cases h0 : str.headD 0 = 0
    · right
      refine ⟨tmp, by simp only [ParseCursor.tryParseLoop, h0, if_true], ?_⟩
      rw [codepoints_of_head_zero str h0]
      exact Reads.done tmp
    · rw [codepoints_of_head str h0] at hz ⊢
      by_cases hc : tmp.cur.headD 0 = 0 ∨ tmp.peekUnicodeChar ≠ (readUtf8Char str).1
      · left
        unfold ParseCursor.tryParseLoop
        rw [if_neg h0, if_pos hc]
      · have hp : tmp.peekUnicodeChar = (readUtf8Char str).1 := by
          by_contra hne
          exact hc (Or.inr hne)
        have hnz : tmp.peekUnicodeChar ≠ 0 := by
          rw [hp]
          intro e
          exact hz (by rw [e]; simp)
        have hg : tmp.getUnicodeChar = .ok (tmp.peekUnicodeChar, tmp.advance) := by
          rw [getUnicodeChar_eq, if_neg hnz]
        have hl := readUtf8Char_length_lt str (cur_ne_nil_of_head str h0)
        have step : ParseCursor.tryParseLoop (n + 1) str tmp
            = ParseCursor.tryParseLoop n (readUtf8Char str).2 tmp.advance := by
          conv_lhs => unfold ParseCursor.tryParseLoop
          rw [if_neg h0, if_neg hc, hg, Result.bind_ok]
        rcases ih (readUtf8Char str).2 tmp.advance (by omega)
          (fun hm => hz (List.mem_cons_of_mem _ hm)) with e | ⟨mid, e, r⟩
        · left; rw [step, e]
        · right
          refine ⟨mid, by rw [step, e], ?_⟩
          rw [← hp]
          exact Reads.step hg r

/-- What `tryParse` does on a token none of whose codepoints is zero: it
returns false and leaves the cursor alone, or it returns true after reading
the codepoints of the token and then whitespace up to a codepoint that is not
whitespace. -/
theorem tryParse_spec (str : List Nat) (hz : 0 ∉ codepoints str) (pc : ParseCursor) :
    ParseCursor.tryParse str pc = .ok (false, pc) ∨
    ∃ mid ws pc1, ParseCursor.tryParse str pc = .ok (true, pc1) ∧
      Reads pc (codepoints str) mid ∧ Reads mid ws pc1 ∧
      (∀ w ∈ ws, isJsonWhitespace w = true) ∧ isJsonWhitespace pc1.peekUnicodeChar = false := by
  rcases tryParseLoop_spec (str.length + 1) str pc (Nat.lt_succ_self _) hz with e | ⟨mid, e, r⟩
  · left
    simp [ParseCursor.tryParse, e]
  · right
    obtain ⟨ws, pc1, e1, r1, a, b⟩ := skipWhitespace_spec mid
    exact ⟨mid, ws, pc1, by simp [ParseCursor.tryParse, e, e1], r, r1, a, b⟩

theorem tokens_codepoints : ∀ str ∈ tokens, 0 ∉ codepoints str ∧ str.headD 0 ≠ 0 := by
  decide

/-- C18. For every cursor state and every token of the program, `tryParse`
throws nothing and returns; when it returns false the cursor (byte position,
line, column) is unchanged; when it returns true, the cursor has read the
codepoints of the token and then a run `ws` of whitespace codepoints, it
stands in front of a codepoint that is not whitespace (the run is maximal), and
its line and column are those counted over every codepoint read. -/
theorem C18_tryParse_commits_or_rolls_back (str : List Nat) (hstr : str ∈ tokens)
    (pc : ParseCursor) :
    ∃ b pc1, ParseCursor.tryParse str pc = .ok (b, pc1) ∧
      (b = false → pc1 = pc) ∧
      (b = true → ∃ mid ws, Reads pc (codepoints str) mid ∧ Reads mid ws pc1 ∧
        (∀ w ∈ ws, isJsonWhitespace w = true) ∧
        isJsonWhitespace pc1.peekUnicodeChar = false ∧
        (pc1.line, pc1.col) = advancePos (pc.line, pc.col) (codepoints str ++ ws)) := by
  rcases tryParse_spec str (tokens_codepoints str hstr).1 pc with e | ⟨mid, ws, pc1, e, r, r1, a, b⟩
  · exact ⟨false, pc, e, fun _ => rfl, fun h => by simp at h⟩
  · exact ⟨true, pc1, e, fun h => by simp at h,
      fun _ => ⟨mid, ws, r, r1, a, b, (Reads.append r r1).pos⟩⟩


/-- C18 at the quote token in front of `" A`: `tryParse` returns, with the
cursor unchanged or past the token and the whitespace. -/
theorem C18_tryParse_commits_or_rolls_back_witness :
    ∃ b pc1, ParseCursor.tryParse [0x22] ⟨[0x22, 0x20, 0x41], 1, 1⟩ = .ok (b, pc1) ∧
      (b = false → pc1 = ⟨[0x22, 0x20, 0x41], 1, 1⟩) ∧
      (b = true → ∃ mid ws, Reads ⟨[0x22, 0x20, 0x41], 1, 1⟩ (codepoints [0x22]) mid ∧
        Reads mid ws pc1 ∧ (∀ w ∈ ws, isJsonWhitespace w = true) ∧
        isJsonWhitespace pc1.peekUnicodeChar = false ∧
        (pc1.line, pc1.col) = advancePos (1, 1) (codepoints [0x22] ++ ws)) :=
  C18_tryParse_commits_or_rolls_back [0x22] (by decide) ⟨[0x22, 0x20, 0x41], 1, 1⟩

/-! ## Progress: every piece of the parser ends and does not move the cursor back -/

theorem Result.Below.mono {α : Type} {n m : Nat} {r : Result (α × ParseCursor)}
    (h : Result.Below n r) (hnm : n ≤ m) : Result.Below m r := by
  cases r with
  | ok x => exact Nat.lt_of_lt_of_le h hnm
  | error e => trivial
  | outOfFuel => exact h

theorem Result.Below.bind {α β : Type} {n m : Nat} {x : Result (α × ParseCursor)}
    {f : α × ParseCursor → Result (β × ParseCursor)} (hx : Result.Below n x)
    (hf : ∀ a, a.2.cur.length < n → Result.Below m (f a)) : Result.Below m (x.bind f) := by
  cases x with
  | ok a => exact hf a hx
  | error e => trivial
  | outOfFuel => exact hx

theorem Result.Below.map {α β : Type} {n : Nat} {x : Result (α × ParseCursor)}
    {g : α × ParseCursor → β × ParseCursor} (hx : Result.Below n x)
    (hg : ∀ a, (g a).2 = a.2) : Result.Below n (x.map g) := by
  cases x with
  | ok a => simp only [Result.map_ok, Result.Below, hg]; exact hx
  | error e => trivial
  | outOfFuel => exact hx

theorem Result.Below.error {α : Type} (n : Nat) (c : LineColCur) (msg : String) :
    Result.Below n (c.error msg : Result (α × ParseCursor)) := trivial

theorem skipWhitespace_le (pc : ParseCursor) :
    ∃ pc1, ParseCursor.skipWhitespace pc = .ok pc1 ∧ pc1.cur.length ≤ pc.cur.length := by
  obtain ⟨ws, pc1, e, r, _, _⟩ := skipWhitespace_spec pc
  exact ⟨pc1, e, by have := r.length_le; omega⟩

theorem Result.Below.skipWhitespace_map {α : Type} (pc : ParseCursor) (a : α) :
    Result.Below (pc.cur.length + 1)
      ((ParseCursor.skipWhitespace pc).map fun pc1 => (a, pc1)) := by
  obtain ⟨pc1, e, h⟩ := skipWhitespace_le pc
  rw [e]
  simp only [Result.map_ok, Result.Below]
  omega

theorem codepoints_ne_nil (str : List Nat) (h : str.headD 0 ≠ 0) : 0 < (codepoints str).length := by
  rw [codepoints_of_head str h]
  simp

/-- The two outcomes of `tryParse` on a token: false with the cursor
unchanged, or true with the cursor further on. -/
theorem tryParse_cases (str : List Nat) (hstr : str ∈ tokens) (pc : ParseCursor) :
    ParseCursor.tryParse str pc = .ok (false, pc) ∨
    ∃ pc1, ParseCursor.tryParse str pc = .ok (true, pc1) ∧ pc1.cur.length < pc.cur.length := by
  obtain ⟨hz, hh⟩ := tokens_codepoints str hstr
  rcases tryParse_spec str hz pc with e | ⟨mid, ws, pc1, e, r, r1, _, _⟩
  · exact Or.inl e
  · right
    refine ⟨pc1, e, ?_⟩
    have h1 := r.length_le
    have h2 := r1.length_le
    have h3 := codepoints_ne_nil str hh
    omega

theorem Result.Below.tryParse_bind {β : Type} (str : List Nat) (hstr : str ∈ tokens)
    (pc : ParseCursor) {m : Nat} {f : Bool × ParseCursor → Result (β × ParseCursor)}
    (hmiss : Result.Below m (f (false, pc)))
    (hhit : ∀ pc1 : ParseCursor, pc1.cur.length < pc.cur.length → Result.Below m (f (true, pc1))) :
    Result.Below m ((ParseCursor.tryParse str pc).bind f) := by
  rcases tryParse_cases str hstr pc with e | ⟨pc1, e, h⟩
  · rw [e]; exact hmiss
  · rw [e]; exact hhit pc1 h

theorem Result.Below.tryParse (str : List Nat) (hstr : str ∈ tokens) (pc : ParseCursor) :
    Result.Below (pc.cur.length + 1) (ParseCursor.tryParse str pc) := by
  rcases tryParse_cases str hstr pc with e | ⟨pc1, e, h⟩
  · rw [e]; exact Nat.lt_succ_self _
  · rw [e]; exact Nat.lt_succ_of_lt h

theorem Result.Below.getUnicodeChar (pc : ParseCursor) :
    Result.Below pc.cur.length pc.getUnicodeChar := by
  rw [getUnicodeChar_eq]
  by_cases h0 : pc.peekUnicodeChar = 0
  · rw [if_pos h0]; trivial
  · rw [if_neg h0]
    exact advance_length_lt pc (cur_ne_nil_of_peek pc h0)

theorem Result.Below.readUnicodeEscapeChar (pc : ParseCursor) :
    Result.Below pc.cur.length (ParseCursor.readUnicodeEscapeChar pc) := by
  unfold ParseCursor.readUnicodeEscapeChar
  refine Result.Below.bind (Result.Below.getUnicodeChar pc) (fun a ha => ?_)
  split
  · exact ha
  · split
    · exact ha
    · split
      · exact ha
      · trivial

theorem Result.Below.readUnicodeEscape (pc : ParseCursor) :
    Result.Below pc.cur.length (ParseCursor.readUnicodeEscape pc) := by
  unfold ParseCursor.readUnicodeEscape
  refine Result.Below.bind (Result.Below.readUnicodeEscapeChar pc) (fun r1 h1 => ?_)
  refine Result.Below.bind (Result.Below.readUnicodeEscapeChar r1.2) (fun r2 h2 => ?_)
  refine Result.Below.bind (Result.Below.readUnicodeEscapeChar r2.2) (fun r3 h3 => ?_)
  refine Result.Below.bind (Result.Below.readUnicodeEscapeChar r3.2) (fun r4 h4 => ?_)
  show r4.2.cur.length < pc.cur.length
  omega

theorem Result.Below.parseUnicodeEscape (pc : ParseCursor) :
    Result.Below pc.cur.length (ParseCursor.parseUnicodeEscape pc) := by
  unfold ParseCursor.parseUnicodeEscape
  refine Result.Below.bind (Result.Below.readUnicodeEscape pc) (fun u1 h1 => ?_)
  split
  · refine Result.Below.tryParse_bind _ (by decide) _ ?_ (fun pc1 hp => ?_)
    · exact h1
    · simp only [if_true]
      refine Result.Below.bind (Result.Below.readUnicodeEscape pc1) (fun u2 h2 => ?_)
      split
      · show u2.2.cur.length < pc.cur.length
        omega
      · show u2.2.cur.length < pc.cur.length
        omega
  · split
    · exact h1
    · exact h1

theorem Result.Below.parseEscape (pc : ParseCursor) :
    Result.Below pc.cur.length (ParseCursor.parseEscape pc) := by
  unfold ParseCursor.parseEscape
  refine Result.Below.bind (Result.Below.getUnicodeChar pc) (fun r hr => ?_)
  simp only
  repeat' split
  all_goals first
    | exact hr
    | exact (Result.Below.parseUnicodeEscape r.2).mono (Nat.le_of_lt hr)

theorem Result.Below.parseStringLoop : ∀ (fuel : Nat) (ret : List Nat) (pc : ParseCursor),
    pc.cur.length < fuel →
    Result.Below (pc.cur.length + 1) (ParseCursor.parseStringLoop [0x22] fuel ret pc) := by
  intro fuel
  induction fuel with
  | zero => intro ret pc h; omega
  | succ n ih =>
    intro ret pc h
    unfold ParseCursor.parseStringLoop
    refine Result.Below.tryParse_bind _ (by decide) _ ?_ (fun pc1 hp => ?_)
    · simp only [Bool.false_eq_true, if_false]
      refine Result.Below.bind (Result.Below.getUnicodeChar pc) (fun r hr => ?_)
      split
      · refine Result.Below.bind (Result.Below.parseEscape r.2) (fun e he => ?_)
        exact (ih _ e.2 (by omega)).mono (by omega)
      · exact (ih _ r.2 (by omega)).mono (by omega)
    · simp only [if_true]
      show pc1.cur.length < pc.cur.length + 1
      omega

theorem Result.Below.parseString (pc : ParseCursor) :
    Result.Below (pc.cur.length + 1) (ParseCursor.parseString [0x22] pc) :=
  Result.Below.parseStringLoop _ [] pc (Nat.lt_succ_self _)

theorem Result.Below.digitLoop : ∀ (fuel : Nat) (num : List Nat) (pc : ParseCursor),
    pc.cur.length < fuel →
    Result.Below (pc.cur.length + 1) (ParseCursor.digitLoop fuel num pc) := by
  intro fuel
  induction fuel with
  | zero => intro num pc h; omega
  | succ n ih =>
    intro num pc h
    unfold ParseCursor.digitLoop
    split
    · exact Nat.lt_succ_self _
    · split
      · refine Result.Below.bind (Result.Below.getUnicodeChar pc) (fun r hr => ?_)
        exact (ih _ r.2 (by omega)).mono (by omega)
      · exact Nat.lt_succ_self _

/-- In front of a digit the digit loop consumes it. -/
theorem Result.Below.digitLoop_digit (num : List Nat) (pc : ParseCursor)
    (hend : pc.atEnd = false) (hd : 0x30 ≤ pc.peekUnicodeChar ∧ pc.peekUnicodeChar ≤ 0x39) :
    Result.Below pc.cur.length (ParseCursor.digitLoop (pc.cur.length + 1) num pc) := by
  unfold ParseCursor.digitLoop
  simp only [hend, Bool.false_eq_true, if_false, hd, and_self, if_true]
  refine Result.Below.bind (Result.Below.getUnicodeChar pc) (fun r hr => ?_)
  exact (Result.Below.digitLoop _ _ r.2 (by omega)).mono (by omega)

/-- A one-byte token in front of the cursor is matched. -/
theorem tryParse_byte_hit (t : Nat) (h0 : t ≠ 0) (ht : t < 0x80) (pc : ParseCursor)
    (hend : pc.cur.headD 0 ≠ 0) (hp : pc.peekUnicodeChar = t) :
    ParseCursor.tryParse [t] pc
      = (ParseCursor.skipWhitespace pc.advance).map fun pc1 => (true, pc1) := by
  have hg : pc.getUnicodeChar = .ok (pc.peekUnicodeChar, pc.advance) := by
    rw [getUnicodeChar_eq, if_neg (by rw [hp]; exact h0)]
  have hc : ¬ (pc.cur.headD 0 = 0 ∨ pc.peekUnicodeChar ≠ (readUtf8Char [t]).1) := by
    rw [readUtf8Char_ascii ht]
    intro h
    rcases h with h | h
    · exact hend h
    · exact h hp
  have hh : ¬ ([t].headD 0 = 0) := by simpa using h0
  unfold ParseCursor.tryParse
  simp only [List.length_singleton]
  unfold ParseCursor.tryParseLoop
  rw [if_neg hh, if_neg hc, hg, Result.bind_ok]
  rw [readUtf8Char_ascii ht]
  unfold ParseCursor.tryParseLoop
  simp

theorem Result.Below.parseNumberInt (pc : ParseCursor) :
    Result.Below (pc.cur.length + 1) (ParseCursor.parseNumberInt pc) := by
  unfold ParseCursor.parseNumberInt
  refine Result.Below.bind (Result.Below.tryParse _ (by decide) pc) (fun neg hn => ?_)
  refine Result.Below.bind (Result.Below.tryParse _ (by decide) neg.2) (fun zero hz => ?_)
  split
  · show zero.2.cur.length < pc.cur.length + 1
    omega
  · exact (Result.Below.digitLoop _ _ zero.2 (Nat.lt_succ_self _)).mono (by omega)

/-- In front of a minus sign or a digit, the integer part consumes it. -/
theorem Result.Below.parseNumberInt_strict (pc : ParseCursor) (hend : pc.atEnd = false)
    (hd : pc.peekUnicodeChar = 0x2D ∨ (0x30 ≤ pc.peekUnicodeChar ∧ pc.peekUnicodeChar ≤ 0x39)) :
    Result.Below pc.cur.length (ParseCursor.parseNumberInt pc) := by
  have hhead : pc.cur.headD 0 ≠ 0 := by simpa [ParseCursor.atEnd] using hend
  unfold ParseCursor.parseNumberInt
  by_cases hm : pc.peekUnicodeChar = 0x2D
  · rw [tryParse_byte_hit 0x2D (by decide) (by decide) pc hhead hm]
    obtain ⟨pc1, e, h⟩ := skipWhitespace_le pc.advance
    have hl := advance_length_lt pc (cur_ne_nil_of_head _ hhead)
    rw [e]
    simp only [Result.map_ok, Result.bind_ok]
    refine Result.Below.bind (Result.Below.tryParse _ (by decide) pc1) (fun zero hz => ?_)
    split
    · show zero.2.cur.length < pc.cur.length
      omega
    · exact (Result.Below.digitLoop _ _ zero.2 (Nat.lt_succ_self _)).mono (by omega)
  · have hdig : 0x30 ≤ pc.peekUnicodeChar ∧ pc.peekUnicodeChar ≤ 0x39 := by
      rcases hd with h | h
      · exact absurd h hm
      · exact h
    refine Result.Below.tryParse_bind _ (by decide) pc ?_ (fun pc1 hp => ?_)
    · refine Result.Below.tryParse_bind _ (by decide) pc ?_ (fun pc2 hp2 => ?_)
      · simp only [Bool.false_eq_true, if_false]
        exact Result.Below.digitLoop_digit _ pc hend hdig
      · simp only [if_true]
        exact hp2
    · refine Result.Below.bind (Result.Below.tryParse _ (by decide) pc1) (fun zero hz => ?_)
      split
      · show zero.2.cur.length < pc.cur.length
        omega
      · exact (Result.Below.digitLoop _ _ zero.2 (Nat.lt_succ_self _)).mono (by omega)

theorem Result.Below.parseNumberFrac (num : List Nat) (pc : ParseCursor) :
    Result.Below (pc.cur.length + 1) (ParseCursor.parseNumberFrac num pc) := by
  unfold ParseCursor.parseNumberFrac
  refine Result.Below.bind (Result.Below.tryParse _ (by decide) pc) (fun dot hd => ?_)
  split
  · exact (Result.Below.digitLoop _ _ dot.2 (Nat.lt_succ_self _)).mono (by omega)
  · exact hd

theorem Result.Below.parseNumberExp (num : List Nat) (pc : ParseCursor) :
    Result.Below (pc.cur.length + 1) (ParseCursor.parseNumberExp num pc) := by
  unfold ParseCursor.parseNumberExp
  refine Result.Below.bind (Result.Below.tryParse _ (by decide) pc) (fun e1 h1 => ?_)
  have h2 : Result.Below (pc.cur.length + 1)
      (if e1.1 = true then Result.ok e1 else ParseCursor.tryParse [0x45] e1.2) := by
    split
    · exact h1
    · exact (Result.Below.tryParse _ (by decide) e1.2).mono (by omega)
  refine Result.Below.bind h2 (fun e he => ?_)
  split
  · refine Result.Below.bind (Result.Below.tryParse _ (by decide) e.2) (fun plus hpl => ?_)
    have h3 : Result.Below (pc.cur.length + 1)
        (if plus.1 = true then Result.ok (false, plus.2)
          else ParseCursor.tryParse [0x2D] plus.2) := by
      split
      · show plus.2.cur.length < pc.cur.length + 1
        omega
      · exact (Result.Below.tryParse _ (by decide) plus.2).mono (by omega)
    refine Result.Below.bind h3 (fun ne hne => ?_)
    exact (Result.Below.digitLoop _ _ ne.2 (Nat.lt_succ_self _)).mono (by omega)
  · exact he

theorem Result.Below.parseNumberText_of {n : Nat} (pc : ParseCursor)
    (h : Result.Below n (ParseCursor.parseNumberInt pc)) :
    Result.Below n (ParseCursor.parseNumberText pc) := by
  unfold ParseCursor.parseNumberText
  refine Result.Below.bind h (fun i hi => ?_)
  refine Result.Below.bind (Result.Below.parseNumberFrac i.1 i.2) (fun f hf => ?_)
  refine Result.Below.bind (Result.Below.parseNumberExp f.1 f.2) (fun e he => ?_)
  exact (Result.Below.skipWhitespace_map e.2 e.1).mono (by omega)

theorem Result.Below.numberValue {D : Type} (L : Libc D) (pc : ParseCursor)
    (hend : pc.atEnd = false)
    (hd : pc.peekUnicodeChar = 0x2D ∨ (0x30 ≤ pc.peekUnicodeChar ∧ pc.peekUnicodeChar ≤ 0x39)) :
    Result.Below pc.cur.length (parseNumber L pc) := by
  unfold parseNumber ParseCursor.parseNumber
  exact (Result.Below.parseNumberText_of pc
    (Result.Below.parseNumberInt_strict pc hend hd)).map (fun _ => rfl)

/-- With a counter of twice the bytes left (and one or two more), `parseValue`
and the loops of `parseObject` and `parseArray` end, and `parseValue`, when it
returns, has consumed a byte. -/
theorem parse_below {D : Type} (L : Libc D) : ∀ fuel : Nat,
    (∀ pc : ParseCursor, 2 * pc.cur.length + 1 ≤ fuel →
      Result.Below pc.cur.length (parseValue L fuel pc)) ∧
    (∀ (c : JSONObject D) (first : Bool) (pc : ParseCursor), 2 * pc.cur.length + 2 ≤ fuel →
      Result.Below (pc.cur.length + 1) (parseObjectLoop L fuel c first pc)) ∧
    (∀ (a : JSONArray D) (first : Bool) (pc : ParseCursor), 2 * pc.cur.length + 2 ≤ fuel →
      Result.Below (pc.cur.length + 1) (parseArrayLoop L fuel a first pc)) := by
  intro fuel
  induction fuel with
  | zero =>
    refine ⟨fun pc h => ?_, fun c first pc h => ?_, fun a first pc h => ?_⟩ <;> omega
  | succ n ih =>
    obtain ⟨ihv, iho, iha⟩ := ih
    refine ⟨fun pc h => ?_, fun c first pc h => ?_, fun a first pc h => ?_⟩
    · unfold parseValue
      refine Result.Below.tryParse_bind _ (by decide) pc ?_ (fun pc1 hp => ?_)
      · simp only [Bool.false_eq_true, if_false]
        refine Result.Below.tryParse_bind _ (by decide) pc ?_ (fun pc1 hp => ?_)
        · simp only [Bool.false_eq_true, if_false]
          refine Result.Below.tryParse_bind _ (by decide) pc ?_ (fun pc1 hp => ?_)
          · simp only [Bool.false_eq_true, if_false]
            refine Result.Below.tryParse_bind _ (by decide) pc ?_ (fun pc1 hp => ?_)
            · simp only [Bool.false_eq_true, if_false]
              refine Result.Below.tryParse_bind _ (by decide) pc ?_ (fun pc1 hp => ?_)
              · simp only [Bool.false_eq_true, if_false]
                refine Result.Below.tryParse_bind _ (by decide) pc ?_ (fun pc1 hp => ?_)
                · simp only [Bool.false_eq_true, if_false]
                  by_cases hend : pc.atEnd = true
                  · rw [if_pos hend]; trivial
                  · rw [if_neg hend]
                    split
                    · rename_i hd
                      exact (Result.Below.numberValue L pc (by simpa using hend) hd).map
                        (fun _ => rfl)
                    · trivial
                · simp only [if_true]; exact hp
              · simp only [if_true]; exact hp
            · simp only [if_true]; exact hp
          · simp only [if_true]
            exact ((iha [] true pc1 (by omega)).mono (by omega)).map (fun _ => rfl)
        · simp only [if_true]
          exact ((iho [] true pc1 (by omega)).mono (by omega)).map (fun _ => rfl)
      · simp only [if_true]
        unfold parseString
        exact ((Result.Below.parseString pc1).mono (by omega)).map (fun _ => rfl)
    · unfold parseObjectLoop
      refine Result.Below.tryParse_bind _ (by decide) pc ?_ (fun pc1 hp => ?_)
      · simp only [Bool.false_eq_true, if_false]
        have key : ∀ pc1 : ParseCursor, pc1.cur.length ≤ pc.cur.length →
            Result.Below (pc.cur.length + 1)
              ((ParseCursor.tryParse [0x22] pc1).bind fun t2 =>
                if ¬ t2.1 = true then t2.2.error "Expected '\"'"
                else (ParseCursor.parseString [0x22] t2.2).bind fun name =>
                (ParseCursor.tryParse [0x3A] name.2).bind fun t3 =>
                if ¬ t3.1 = true then t3.2.error "Expected ':'"
                else (parseValue L n t3.2).bind fun v =>
                parseObjectLoop L n (JSONObject.assign name.1 v.1 c) false v.2) := by
          intro pc1 hle
          refine Result.Below.tryParse_bind _ (by decide) pc1 ?_ (fun pc2 hp2 => ?_)
          · simp; trivial
          · simp only [not_true_eq_false, if_false]
            refine Result.Below.bind (Result.Below.parseString pc2) (fun name hname => ?_)
            refine Result.Below.tryParse_bind _ (by decide) name.2 ?_ (fun pc3 hp3 => ?_)
            · simp; trivial
            · simp only [not_true_eq_false, if_false]
              refine Result.Below.bind (ihv pc3 (by omega)) (fun v hv => ?_)
              exact (iho _ false v.2 (by omega)).mono (by omega)
        cases first with
        | true => simpa using key pc (le_refl _)
        | false =>
          simp only [Bool.false_eq_true, if_false]
          rcases tryParse_cases [0x2C] (by decide) pc with e | ⟨pc1, e, h1⟩
          · rw [e]; simp; trivial
          · rw [e]
            simpa using key pc1 (by omega)
      · simp only [if_true]
        show pc1.cur.length < pc.cur.length + 1
        omega
    · unfold parseArrayLoop
      refine Result.Below.tryParse_bind _ (by decide) pc ?_ (fun pc1 hp => ?_)
      · simp only [Bool.false_eq_true, if_false]
        have key : ∀ pc1 : ParseCursor, pc1.cur.length ≤ pc.cur.length →
            Result.Below (pc.cur.length + 1)
              ((parseValue L n pc1).bind fun v => parseArrayLoop L n (a ++ [v.1]) false v.2) := by
          intro pc1 hle
          refine Result.Below.bind (ihv pc1 (by omega)) (fun v hv => ?_)
          exact (iha _ false v.2 (by omega)).mono (by omega)
        cases first with
        | true => simpa using key pc (le_refl _)
        | false =>
          simp only [Bool.false_eq_true, if_false]
          rcases tryParse_cases [0x2C] (by decide) pc with e | ⟨pc1, e, h1⟩
          · rw [e]; simp; trivial
          · rw [e]
            simpa using key pc1 (by omega)
      · simp only [if_true]
        show pc1.cur.length < pc.cur.length + 1
        omega

theorem ParseCursor.new_le (text : List Nat) :
    ∃ pc, ParseCursor.new text = .ok pc ∧ pc.cur.length ≤ text.length := by
  unfold ParseCursor.new
  rcases tryParse_cases [0xEF, 0xBB, 0xBF] (by decide) ⟨text, 1, 1⟩ with e | ⟨pc1, e, h1⟩
  · rw [e]
    simp only [Result.bind_ok, Bool.false_eq_true, if_false]
    exact skipWhitespace_le _
  · rw [e]
    exact ⟨pc1, by simp, by simpa using Nat.le_of_lt h1⟩

/-- C19. On every input `parseJson` ends: it returns a value or throws an
error, the counter that bounds the depth of its calls by the length of the
input is never used up.  This is because, whenever at least twice the bytes
left plus one remain on the counter, `parseValue` ends and, if it returns,
leaves fewer bytes than it found; and the loops of `parseObject` and
`parseArray` (and, within them, of `parseString` and `parseNumber`) end
without moving the cursor back. -/
theorem C19_parsing_terminates {D : Type} (L : Libc D) (text : List Nat) :
    ((∃ v, parseJson L text = .ok v) ∨ (∃ e, parseJson L text = .error e)) ∧
    (∀ (fuel : Nat) (pc : ParseCursor), 2 * pc.cur.length + 1 ≤ fuel →
      parseValue L fuel pc ≠ .outOfFuel ∧
      ∀ v pc1, parseValue L fuel pc = .ok (v, pc1) → pc1.cur.length < pc.cur.length) := by
  constructor
  · obtain ⟨pc, e, hle⟩ := ParseCursor.new_le text
    have hb := (parse_below L (2 * text.length + 1)).1 pc (by omega)
    unfold parseJson
    rw [e, Result.bind_ok]
    cases hv : parseValue L (2 * text.length + 1) pc with
    | ok r => exact Or.inl ⟨r.1, rfl⟩
    | error err => exact Or.inr ⟨err, rfl⟩
    | outOfFuel => rw [hv] at hb; exact absurd hb id
  · intro fuel pc h
    have hb := (parse_below L fuel).1 pc h
    constructor
    · intro e
      rw [e] at hb
      exact hb
    · intro v pc1 e
      rw [e] at hb
      exact hb

/-! ## What the parser puts into a string -/

theorem Result.Sat.bind_sat {α β : Type} {P : α → Prop} {Q : β → Prop} {x : Result α}
    {f : α → Result β} (hx : Result.Sat P x) (hf : ∀ a, P a → Result.Sat Q (f a)) :
    Result.Sat Q (x.bind f) := by
  cases x with
  | ok a => exact hf a hx
  | error e => trivial
  | outOfFuel => trivial

theorem Result.Sat.bind_any {α β : Type} {Q : β → Prop} {x : Result α}
    {f : α → Result β} (hf : ∀ a, Result.Sat Q (f a)) : Result.Sat Q (x.bind f) := by
  cases x with
  | ok a => exact hf a
  | error e => trivial
  | outOfFuel => trivial

theorem Result.Sat.map_sat {α β : Type} {P : α → Prop} {Q : β → Prop} {x : Result α}
    {g : α → β} (hx : Result.Sat P x) (hg : ∀ a, P a → Q (g a)) :
    Result.Sat Q (x.map g) := by
  cases x with
  | ok a => exact hg a hx
  | error e => trivial
  | outOfFuel => trivial

theorem Result.Sat.ok_sat {α : Type} {P : α → Prop} {a : α} (h : P a) :
    Result.Sat P (Result.ok a) := h

theorem Result.Sat.of_eq {α : Type} {P : α → Prop} {x : Result α} {a : α}
    (hx : Result.Sat P x) (e : x = .ok a) : P a := by
  rw [e] at hx
  exact hx

theorem WellFormedUtf8.nil : WellFormedUtf8 [] := ⟨[], by simp, by simp⟩

theorem WellFormedUtf8.concat {s t : List Nat} (hs : WellFormedUtf8 s) (ht : WellFormedUtf8 t) :
    WellFormedUtf8 (s ++ t) := by
  obtain ⟨cs, h1, e1⟩ := hs
  obtain ⟨ct, h2, e2⟩ := ht
  refine ⟨cs ++ ct, ?_, by rw [e1, e2, List.flatMap_append]⟩
  intro c hc
  rcases List.mem_append.mp hc with h | h
  · exact h1 c h
  · exact h2 c h

theorem utf32CharToUtf8_replacement : utf32CharToUtf8 0xFFFD = replacementChar := by decide!

theorem WellFormedUtf8.encoded (c : Nat) : WellFormedUtf8 (utf32CharToUtf8 c) := by
  by_cases hc : c < 0x110000
  · exact ⟨[c], by simpa using hc, by simp [utf32CharToUtf8_eq_utf8Encode hc]⟩
  · refine ⟨[0xFFFD], by simp, ?_⟩
    rw [utf32CharToUtf8_large (by omega)]
    decide

theorem WellFormedUtf8.replacement : WellFormedUtf8 replacementChar := by
  rw [← utf32CharToUtf8_replacement]
  exact WellFormedUtf8.encoded _

theorem WellFormedUtf8.ascii (b : Nat) (h : b < 0x80) : WellFormedUtf8 [b] := by
  rw [← utf32CharToUtf8_one h]
  exact WellFormedUtf8.encoded _

theorem Result.Sat.parseUnicodeEscape_sat (pc : ParseCursor) :
    Result.Sat (fun r => WellFormedUtf8 r.1) (ParseCursor.parseUnicodeEscape pc) := by
  unfold ParseCursor.parseUnicodeEscape
  refine Result.Sat.bind_any (fun u1 => ?_)
  split
  · refine Result.Sat.bind_any (fun t => ?_)
    split
    · refine Result.Sat.bind_any (fun u2 => ?_)
      split
      · exact WellFormedUtf8.concat WellFormedUtf8.replacement WellFormedUtf8.replacement
      · simp only [Result.Sat]
        exact WellFormedUtf8.encoded _
    · exact WellFormedUtf8.replacement
  · split
    · exact WellFormedUtf8.replacement
    · exact WellFormedUtf8.encoded _

theorem Result.Sat.parseEscape_sat (pc : ParseCursor) :
    Result.Sat (fun r => WellFormedUtf8 r.1) (ParseCursor.parseEscape pc) := by
  unfold ParseCursor.parseEscape
  refine Result.Sat.bind_any (fun r => ?_)
  simp only
  repeat' split
  all_goals first
    | exact WellFormedUtf8.encoded _
    | exact WellFormedUtf8.ascii _ (by decide)
    | exact WellFormedUtf8.replacement
    | exact Result.Sat.parseUnicodeEscape_sat _

theorem Result.Sat.parseStringLoop_sat (terminator : List Nat) :
    ∀ (fuel : Nat) (ret : List Nat) (pc : ParseCursor), WellFormedUtf8 ret →
      Result.Sat (fun r => WellFormedUtf8 r.1)
        (ParseCursor.parseStringLoop terminator fuel ret pc) := by
  intro fuel
  induction fuel with
  | zero => intro ret pc _; trivial
  | succ n ih =>
    intro ret pc hret
    unfold ParseCursor.parseStringLoop
    refine Result.Sat.bind_any (fun t => ?_)
    split
    · exact hret
    · refine Result.Sat.bind_any (fun r => ?_)
      split
      · refine Result.Sat.bind_sat (Result.Sat.parseEscape_sat r.2) (fun e he => ?_)
        exact ih _ _ (WellFormedUtf8.concat hret he)
      · exact ih _ _ (WellFormedUtf8.concat hret (WellFormedUtf8.encoded _))

theorem Result.Sat.parseString_sat (terminator : List Nat) (pc : ParseCursor) :
    Result.Sat (fun r => WellFormedUtf8 r.1) (ParseCursor.parseString terminator pc) :=
  Result.Sat.parseStringLoop_sat terminator _ [] pc WellFormedUtf8.nil

theorem AllStringsMembers_assign {D : Type} (P : List Nat → Prop) (name : List Nat)
    (v : JSONValue D) (c : JSONObject D) (hc : JSONValue.AllStringsMembers P c) (hn : P name)
    (hv : JSONValue.AllStrings P v) : JSONValue.AllStringsMembers P (JSONObject.assign name v c) := by
  induction c with
  | nil => exact ⟨hn, hv, trivial⟩
  | cons kw rest ih =>
    obtain ⟨k, w⟩ := kw
    obtain ⟨hk, hw, hrest⟩ := hc
    simp only [JSONObject.assign]
    split
    · exact ⟨hn, hv, hk, hw, hrest⟩
    · split
      · exact ⟨hk, hw, ih hrest⟩
      · exact ⟨hk, hv, hrest⟩

theorem AllStringsElements_append {D : Type} (P : List Nat → Prop) (a : JSONArray D)
    (v : JSONValue D) (ha : JSONValue.AllStringsElements P a) (hv : JSONValue.AllStrings P v) :
    JSONValue.AllStringsElements P (a ++ [v]) := by
  induction a with
  | nil => exact ⟨hv, trivial⟩
  | cons x rest ih => exact ⟨ha.1, ih ha.2⟩

theorem parse_wellFormed {D : Type} (L : Libc D) : ∀ fuel : Nat,
    (∀ pc, Result.Sat (fun r => JSONValue.AllStrings WellFormedUtf8 r.1) (parseValue L fuel pc)) ∧
    (∀ c first pc, JSONValue.AllStringsMembers WellFormedUtf8 c →
      Result.Sat (fun r => JSONValue.AllStringsMembers WellFormedUtf8 r.1)
        (parseObjectLoop L fuel c first pc)) ∧
    (∀ a first pc, JSONValue.AllStringsElements WellFormedUtf8 a →
      Result.Sat (fun r => JSONValue.AllStringsElements WellFormedUtf8 r.1)
        (parseArrayLoop L fuel a first pc)) := by
  intro fuel
  induction fuel with
  | zero => exact ⟨fun _ => trivial, fun _ _ _ _ => trivial, fun _ _ _ _ => trivial⟩
  | succ n ih =>
    obtain ⟨ihv, iho, iha⟩ := ih
    refine ⟨fun pc => ?_, fun c first pc hc => ?_, fun a first pc ha => ?_⟩
    · unfold parseValue
      refine Result.Sat.bind_any (fun t1 => ?_)
      split
      · exact (Result.Sat.parseString_sat _ _).map_sat (fun r hr => hr)
      refine Result.Sat.bind_any (fun t2 => ?_)
      split
      · exact (iho [] true _ trivial).map_sat (fun r hr => hr)
      refine Result.Sat.bind_any (fun t3 => ?_)
      split
      · exact (iha [] true _ trivial).map_sat (fun r hr => hr)
      refine Result.Sat.bind_any (fun t4 => ?_)
      split
      · trivial
      refine Result.Sat.bind_any (fun t5 => ?_)
      split
      · trivial
      refine Result.Sat.bind_any (fun t6 => ?_)
      split
      · trivial
      split
      · trivial
      split
      · cases parseNumber L t6.2 <;> trivial
      · trivial
    · unfold parseObjectLoop
      refine Result.Sat.bind_any (fun t => ?_)
      split
      · exact hc
      refine Result.Sat.bind_any (fun pc1 => ?_)
      refine Result.Sat.bind_any (fun t2 => ?_)
      split
      · trivial
      refine Result.Sat.bind_sat (Result.Sat.parseString_sat _ _) (fun name hname => ?_)
      refine Result.Sat.bind_any (fun t3 => ?_)
      split
      · trivial
      refine Result.Sat.bind_sat (ihv _) (fun v hv => ?_)
      exact iho _ _ _ (AllStringsMembers_assign _ _ _ _ hc hname hv)
    · unfold parseArrayLoop
      refine Result.Sat.bind_any (fun t => ?_)
      split
      · exact ha
      refine Result.Sat.bind_any (fun pc1 => ?_)
      refine Result.Sat.bind_sat (ihv _) (fun v hv => ?_)
      exact iha _ _ _ (AllStringsElements_append _ _ _ ha hv)

theorem surrogate_not_valid : ¬ ValidUtf8 [0xED, 0xA0, 0x80] := by
  rintro ⟨cps, hc, e⟩
  cases cps with
  | nil => simp at e
  | cons c rest =>
    have h1 := hc c (by simp)
    rw [List.flatMap_cons] at e
    unfold utf8Encode at e
    split at e
    · simp at e; omega
    · split at e
      · simp at e; omega
      · split at e
        · simp only [List.cons_append, List.nil_append, List.cons.injEq] at e
          omega
        · simp at e

/-- C12, as stated, fails. The document quote, `ED A0 80`, quote holds the
surrogate code point U+D800 as a raw three-byte sequence; `parseJson` returns
the string `ED A0 80`, which is not valid UTF-8 for Unicode scalar values. -/
theorem C12_raw_surrogate_is_kept :
    parseJson Libc.text [0x22, 0xED, 0xA0, 0x80, 0x22] = .ok (.string [0xED, 0xA0, 0x80]) ∧
    ¬ ValidUtf8 [0xED, 0xA0, 0x80] :=
  ⟨parseJson_of_text Libc.text _ (.string [0xED, 0xA0, 0x80]) (by decide!), surrogate_not_valid⟩

/-- C12, amended. Whatever bytes the document holds and whatever the C
library, every `String` and every object key of a value that `parseJson`
returns is a sequence of standard encodings of codepoints below 0x110000: no
stray or missing continuation byte, nothing above 0x10FFFF (surrogate code
points are not excluded). -/
theorem C12_strings_are_well_formed {D : Type} (L : Libc D) (text : List Nat)
    (v : JSONValue D) (h : parseJson L text = .ok v) :
    JSONValue.AllStrings WellFormedUtf8 v := by
  unfold parseJson at h
  have hs : Result.Sat (JSONValue.AllStrings WellFormedUtf8)
      ((ParseCursor.new text).bind fun pc =>
        (parseValue L (2 * text.length + 1) pc).map fun r => r.1) :=
    Result.Sat.bind_any (fun pc => ((parse_wellFormed L _).1 pc).map_sat (fun r hr => hr))
  exact hs.of_eq h

/-- C12, amended, at the document quote, `80`, quote, whose string is one
U+FFFD. -/
theorem C12_strings_are_well_formed_witness :
    JSONValue.AllStrings WellFormedUtf8
      (JSONValue.string [0xEF, 0xBF, 0xBD] : JSONValue (List Nat)) :=
  C12_strings_are_well_formed Libc.text [0x22, 0x80, 0x22] _
    (parseJson_of_text Libc.text _ (.string [0xEF, 0xBF, 0xBD]) (by decide!))

/-! ## Encoded codepoints in front of the cursor -/

theorem utf8Encode_head {c : Nat} (hc : c < 0x110000) :
    ∃ b tl, utf8Encode c = b :: tl ∧ ¬ (0x80 ≤ b ∧ b < 0xC0) ∧ (c ≠ 0 → b ≠ 0) := by
  unfold utf8Encode
  split
  · exact ⟨c, [], rfl, by omega, fun h => h⟩
  · split
    · exact ⟨_, _, rfl, by omega, fun _ => by omega⟩
    · split
      · exact ⟨_, _, rfl, by omega, fun _ => by omega⟩
      · exact ⟨_, _, rfl, by omega, fun _ => by omega⟩

theorem notCont_cons {b : Nat} (tl : List Nat) (h : ¬ (0x80 ≤ b ∧ b < 0xC0)) :
    notCont (b :: tl) := by
  simpa [notCont] using h

theorem notCont_nil : notCont [] := by
  simp [notCont]

theorem notCont_flatMap_utf8Encode (cps : List Nat) (hc : ∀ c ∈ cps, c < 0x110000)
    (rest : List Nat) (hr : notCont rest) : notCont (cps.flatMap utf8Encode ++ rest) := by
  cases cps with
  | nil => simpa using hr
  | cons c tl =>
    obtain ⟨b, t, e, hb, _⟩ := utf8Encode_head (hc c (by simp))
    rw [List.flatMap_cons, e]
    exact notCont_cons _ hb

theorem readUtf8Char_utf8Encode {c : Nat} (hc : c < 0x110000) (rest : List Nat)
    (h : notCont rest) : readUtf8Char (utf8Encode c ++ rest) = (c, rest) := by
  rw [← utf32CharToUtf8_eq_utf8Encode hc]
  exact readUtf8Char_utf32CharToUtf8 hc rest h

theorem headD_utf8Encode {c : Nat} (hc : c < 0x110000) (h0 : c ≠ 0) (rest : List Nat) :
    (utf8Encode c ++ rest).headD 0 ≠ 0 := by
  obtain ⟨b, t, e, _, hb⟩ := utf8Encode_head hc
  rw [e]
  simpa using hb h0

/-! ## `encodeString` on the encoding of a sequence of codepoints -/

theorem encodeStringLoop_codepoints (cps : List Nat) : ∀ (fuel : Nat) (ss : List Nat),
    (∀ c ∈ cps, 0 < c ∧ c < 0x110000) → (cps.flatMap utf8Encode).length < fuel →
    encodeStringLoop fuel (cps.flatMap utf8Encode) ss = .ok (ss ++ cps.flatMap escapeOrRaw) := by
  induction cps with
  | nil =>
    intro fuel ss _ hf
    cases fuel with
    | zero => simp at hf
    | succ n => simp [encodeStringLoop]
  | cons c tl ih =>
    intro fuel ss hc hf
    cases fuel with
    | zero => simp at hf
    | succ n =>
      have h1 := hc c (by simp)
      have htl : ∀ c ∈ tl, 0 < c ∧ c < 0x110000 := fun x hx => hc x (by simp [hx])
      have hnc : notCont (tl.flatMap utf8Encode) := by
        have := notCont_flatMap_utf8Encode tl (fun x hx => (htl x hx).2) [] notCont_nil
        simpa using this
      have hr := readUtf8Char_utf8Encode h1.2 (tl.flatMap utf8Encode) hnc
      have hh := headD_utf8Encode h1.2 (by omega) (tl.flatMap utf8Encode)
      rw [List.flatMap_cons] at hf ⊢
      have hlen : (tl.flatMap utf8Encode).length < n := by
        obtain ⟨b, t, e, _, _⟩ := utf8Encode_head h1.2
        rw [e] at hf
        simp only [List.cons_append, List.length_cons, List.length_append] at hf
        omega
      unfold encodeStringLoop
      rw [if_neg hh]
      simp only [hr]
      rw [ih n _ htl hlen, List.flatMap_cons, List.append_assoc]
      congr 2
      unfold escapeOrRaw
      rw [utf32CharToUtf8_eq_utf8Encode h1.2]

theorem encodeString_codepoints (cps : List Nat) (hc : ∀ c ∈ cps, 0 < c ∧ c < 0x110000) :
    encodeString (cps.flatMap utf8Encode)
      = .ok ([0x22] ++ cps.flatMap escapeOrRaw ++ [0x22]) := by
  unfold encodeString
  rw [encodeStringLoop_codepoints cps _ [] hc (Nat.lt_succ_self _)]
  simp

/-! ## The parser on the text that `encodeString` writes -/

theorem advance_cur (pc : LineColCur) : pc.advance.cur = (readUtf8Char pc.cur).2 := by
  unfold LineColCur.advance
  split <;> rfl

theorem peek_advance_ascii (pc : LineColCur) (b : Nat) (tail : List Nat) (hb : b < 0x80)
    (h : pc.cur = b :: tail) : pc.peekUnicodeChar = b ∧ pc.advance.cur = tail := by
  rw [advance_cur, LineColCur.peekUnicodeChar, h, readUtf8Char_ascii hb]
  exact ⟨rfl, rfl⟩

theorem peek_advance_utf8 (pc : LineColCur) (c : Nat) (tail : List Nat) (hc : c < 0x110000)
    (h : pc.cur = utf8Encode c ++ tail) (hn : notCont tail) :
    pc.peekUnicodeChar = c ∧ pc.advance.cur = tail := by
  rw [advance_cur, LineColCur.peekUnicodeChar, h, readUtf8Char_utf8Encode hc tail hn]
  exact ⟨rfl, rfl⟩

theorem getUnicodeChar_of_peek (pc : LineColCur) (c : Nat) (h : pc.peekUnicodeChar = c)
    (h0 : c ≠ 0) : pc.getUnicodeChar = .ok (c, pc.advance) := by
  rw [getUnicodeChar_eq, if_neg (by rw [h]; exact h0), h]

/-- A one-byte token that heads the bytes at the cursor, with no whitespace
after it, is matched and the cursor moves just past it. -/
theorem tryParse_byte_hit_cur (t : Nat) (h0 : t ≠ 0) (ht : t < 0x80) (pc : ParseCursor)
    (rest : List Nat) (h : pc.cur = t :: rest) (hw : NoWs rest) :
    ∃ pc1, ParseCursor.tryParse [t] pc = .ok (true, pc1) ∧ pc1.cur = rest := by
  obtain ⟨hp, ha⟩ := peek_advance_ascii pc t rest ht h
  have hend : pc.cur.headD 0 ≠ 0 := by rw [h]; simpa using h0
  rw [tryParse_byte_hit t h0 ht pc hend hp]
  have hs : ParseCursor.skipWhitespace pc.advance = .ok pc.advance := by
    apply skipWhitespace_of_not_ws
    unfold NoWs at hw
    rw [LineColCur.peekUnicodeChar, ha]
    exact hw
  rw [hs]
  exact ⟨pc.advance, rfl, ha⟩

/-- A token of plain characters that heads the bytes at the cursor, with no
whitespace after it, is matched and the cursor moves just past it. -/
theorem tryParse_ascii_hit_cur (ts : List Nat) (hts : ∀ b ∈ ts, 0 < b ∧ b < 0x80 ∧ b ≠ 0x0A)
    (pc : ParseCursor) (rest : List Nat) (h : pc.cur = ts ++ rest) (hw : NoWs rest) :
    ∃ pc1, ParseCursor.tryParse ts pc = .ok (true, pc1) ∧ pc1.cur = rest := by
  obtain ⟨cur, l, c⟩ := pc
  simp only at h
  subst h
  rw [tryParse_ascii_hit ts rest l c hts]
  have hs : ParseCursor.skipWhitespace ⟨rest, l, c + ts.length⟩ = .ok ⟨rest, l, c + ts.length⟩ := by
    apply skipWhitespace_of_not_ws
    exact hw
  rw [hs]
  exact ⟨_, rfl, rfl⟩

/-- A token is not matched when the codepoint at the cursor is not its first. -/
theorem tryParse_miss_peek (str : List Nat) (pc : ParseCursor) (hs : str.headD 0 ≠ 0)
    (h : pc.peekUnicodeChar ≠ (readUtf8Char str).1) :
    ParseCursor.tryParse str pc = .ok (false, pc) :=
  tryParse_miss str pc hs (Or.inr h)

theorem NoWs_cons_ascii (b : Nat) (tail : List Nat) (hb : b < 0x80)
    (hw : isJsonWhitespace b = false) : NoWs (b :: tail) := by
  unfold NoWs
  rw [readUtf8Char_ascii hb]
  exact hw

theorem NoWs_nil : NoWs [] := by
  unfold NoWs
  rw [readUtf8Char_nil]
  rfl

theorem parseStringLoop_end (fuel : Nat) (ret : List Nat) (pc : ParseCursor) (rest : List Nat)
    (h : pc.cur = 0x22 :: rest) (hw : NoWs rest) :
    ∃ pc1, ParseCursor.parseStringLoop [0x22] (fuel + 1) ret pc = .ok (ret, pc1) ∧
      pc1.cur = rest := by
  obtain ⟨pc1, e, hc⟩ := tryParse_byte_hit_cur 0x22 (by decide) (by decide) pc rest h hw
  refine ⟨pc1, ?_, hc⟩
  unfold ParseCursor.parseStringLoop
  rw [e]
  rfl

theorem parseStringLoop_raw (fuel : Nat) (ret : List Nat) (pc : ParseCursor) (c : Nat)
    (tail : List Nat) (hc : c < 0x110000) (h0 : c ≠ 0) (hq : c ≠ 0x22) (hb : c ≠ 0x5C)
    (h : pc.cur = utf8Encode c ++ tail) (hn : notCont tail) :
    ParseCursor.parseStringLoop [0x22] (fuel + 1) ret pc
      = ParseCursor.parseStringLoop [0x22] fuel (ret ++ utf8Encode c) pc.advance ∧
    pc.advance.cur = tail := by
  obtain ⟨hp, ha⟩ := peek_advance_utf8 pc c tail hc h hn
  refine ⟨?_, ha⟩
  have hm : ParseCursor.tryParse [0x22] pc = .ok (false, pc) := by
    apply tryParse_miss_peek _ _ (by decide)
    rw [hp, readUtf8Char_ascii (by decide)]
    exact hq
  conv_lhs => unfold ParseCursor.parseStringLoop
  rw [hm]
  simp only [Result.bind_ok, Bool.false_eq_true, if_false]
  rw [getUnicodeChar_of_peek pc c hp h0]
  simp only [Result.bind_ok, hb, if_false, utf32CharToUtf8_eq_utf8Encode hc]

/-- The escape letter `e` and what `parseEscape` appends for it. -/
theorem parseEscape_letter (pc : ParseCursor) (e : Nat) (out : List Nat) (tail : List Nat)
    (h : pc.cur = e :: tail)
    (he : (e = 0x22 ∧ out = [0x22]) ∨ (e = 0x5C ∧ out = [0x5C]) ∨ (e = 0x62 ∧ out = [0x08]) ∨
      (e = 0x66 ∧ out = [0x0C]) ∨ (e = 0x6E ∧ out = [0x0A]) ∨ (e = 0x72 ∧ out = [0x0D]) ∨
      (e = 0x74 ∧ out = [0x09])) :
    ParseCursor.parseEscape pc = .ok (out, pc.advance) ∧ pc.advance.cur = tail := by
  have hlt : e < 0x80 := by omega
  obtain ⟨hp, ha⟩ := peek_advance_ascii pc e tail hlt h
  refine ⟨?_, ha⟩
  unfold ParseCursor.parseEscape
  rw [getUnicodeChar_of_peek pc e hp (by omega)]
  simp only [Result.bind_ok]
  rcases he with ⟨h1, h2⟩ | ⟨h1, h2⟩ | ⟨h1, h2⟩ | ⟨h1, h2⟩ | ⟨h1, h2⟩ | ⟨h1, h2⟩ | ⟨h1, h2⟩ <;>
    subst h1 <;> subst h2 <;> simp <;> decide!

theorem parseStringLoop_escape (fuel : Nat) (ret : List Nat) (pc : ParseCursor) (e : Nat)
    (out : List Nat) (tail : List Nat) (h : pc.cur = 0x5C :: e :: tail)
    (he : (e = 0x22 ∧ out = [0x22]) ∨ (e = 0x5C ∧ out = [0x5C]) ∨ (e = 0x62 ∧ out = [0x08]) ∨
      (e = 0x66 ∧ out = [0x0C]) ∨ (e = 0x6E ∧ out = [0x0A]) ∨ (e = 0x72 ∧ out = [0x0D]) ∨
      (e = 0x74 ∧ out = [0x09])) :
    ParseCursor.parseStringLoop [0x22] (fuel + 1) ret pc
      = ParseCursor.parseStringLoop [0x22] fuel (ret ++ out) pc.advance.advance ∧
    pc.advance.advance.cur = tail := by
  obtain ⟨hp, ha⟩ := peek_advance_ascii pc 0x5C (e :: tail) (by decide) h
  obtain ⟨hpe, hae⟩ := parseEscape_letter pc.advance e out tail ha he
  refine ⟨?_, hae⟩
  have hm : ParseCursor.tryParse [0x22] pc = .ok (false, pc) := by
    apply tryParse_miss_peek _ _ (by decide)
    rw [hp, readUtf8Char_ascii (by decide)]
    decide
  conv_lhs => unfold ParseCursor.parseStringLoop
  rw [hm]
  simp only [Result.bind_ok, Bool.false_eq_true, if_false]
  rw [getUnicodeChar_of_peek pc 0x5C hp (by decide)]
  simp only [Result.bind_ok, if_true, hpe]

theorem escapeOrRaw_cases (c : Nat) :
    (∃ e, escapeOrRaw c = [0x5C, e] ∧ c < 0x80 ∧
      ((e = 0x22 ∧ [c] = [0x22]) ∨ (e = 0x5C ∧ [c] = [0x5C]) ∨ (e = 0x62 ∧ [c] = [0x08]) ∨
       (e = 0x66 ∧ [c] = [0x0C]) ∨ (e = 0x6E ∧ [c] = [0x0A]) ∨ (e = 0x72 ∧ [c] = [0x0D]) ∨
       (e = 0x74 ∧ [c] = [0x09]))) ∨
    (escapeOrRaw c = utf8Encode c ∧ c ≠ 0x22 ∧ c ≠ 0x5C ∧ c ≠ 0x0A ∧ c ≠ 0x0D ∧ c ≠ 0x09) := by
  unfold escapeOrRaw
  by_cases h1 : c = 0x22
  · left; exact ⟨0x22, by simp [h1], by omega, by simp [h1]⟩
  by_cases h2 : c = 0x5C
  · left; exact ⟨0x5C, by simp [h2], by omega, by simp [h2]⟩
  by_cases h3 : c = 0x08
  · left; exact ⟨0x62, by simp [h3], by omega, by simp [h3]⟩
  by_cases h4 : c = 0x0C
  · left; exact ⟨0x66, by simp [h4], by omega, by simp [h4]⟩
  by_cases h5 : c = 0x0A
  · left; exact ⟨0x6E, by simp [h5], by omega, by simp [h5]⟩
  by_cases h6 : c = 0x0D
  · left; exact ⟨0x72, by simp [h6], by omega, by simp [h6]⟩
  by_cases h7 : c = 0x09
  · left; exact ⟨0x74, by simp [h7], by omega, by simp [h7]⟩
  right
  simp only [h1, h2, h3, h4, h5, h6, h7, if_false]
  exact ⟨trivial, h1, h2, h5, h6, h7⟩

theorem utf8Encode_ascii {c : Nat} (h : c < 0x80) : utf8Encode c = [c] := by
  unfold utf8Encode
  rw [if_pos h]

theorem notCont_body (cps : List Nat) (hc : ∀ c ∈ cps, 0 < c ∧ c < 0x110000) (rest : List Nat) :
    notCont (cps.flatMap escapeOrRaw ++ 0x22 :: rest) := by
  cases cps with
  | nil => exact notCont_cons _ (by omega)
  | cons c tl =>
    rw [List.flatMap_cons]
    rcases escapeOrRaw_cases c with ⟨e, he, _, _⟩ | ⟨he, _⟩
    · rw [he]; exact notCont_cons _ (by omega)
    · rw [he]
      obtain ⟨b, t, e, hb, _⟩ := utf8Encode_head (hc c (by simp)).2
      rw [e]
      exact notCont_cons _ hb

theorem NoWs_body (cps : List Nat) (hc : ∀ c ∈ cps, 0 < c ∧ c < 0x110000)
    (hs : cps.head? ≠ some 0x20) (rest : List Nat) :
    NoWs (cps.flatMap escapeOrRaw ++ 0x22 :: rest) := by
  cases cps with
  | nil => exact NoWs_cons_ascii _ _ (by decide) (by decide)
  | cons c tl =>
    rw [List.flatMap_cons]
    rcases escapeOrRaw_cases c with ⟨e, he, _, _⟩ | ⟨he, _, _, h5, h6, h7⟩
    · rw [he]; exact NoWs_cons_ascii _ _ (by decide) (by decide)
    · rw [he, List.append_assoc]
      unfold NoWs
      rw [readUtf8Char_utf8Encode (hc c (by simp)).2 _
        (notCont_body tl (fun x hx => hc x (by simp [hx])) rest)]
      have h20 : c ≠ 0x20 := by
        intro h
        apply hs
        simp [h]
      simp [isJsonWhitespace, h5, h6, h7, h20]

/-- The loop of `parseString` on the text that the serializer writes for the
codepoints `cps`, up to and including the closing quote. -/
theorem parseStringLoop_body (cps : List Nat) : ∀ (fuel : Nat) (ret : List Nat) (pc : ParseCursor)
    (rest : List Nat), (∀ c ∈ cps, 0 < c ∧ c < 0x110000) →
    pc.cur = cps.flatMap escapeOrRaw ++ 0x22 :: rest → pc.cur.length < fuel → NoWs rest →
    ∃ pc1, ParseCursor.parseStringLoop [0x22] fuel ret pc = .ok (ret ++ cps.flatMap utf8Encode, pc1) ∧
      pc1.cur = rest := by
  induction cps with
  | nil =>
    intro fuel ret pc rest _ h hf hw
    cases fuel with
    | zero => omega
    | succ n =>
      simp only [List.flatMap_nil, List.nil_append, List.append_nil] at h ⊢
      exact parseStringLoop_end n ret pc rest h hw
  | cons c tl ih =>
    intro fuel ret pc rest hc h hf hw
    cases fuel with
    | zero => omega
    | succ n =>
      have h1 := hc c (by simp)
      have htl : ∀ c ∈ tl, 0 < c ∧ c < 0x110000 := fun x hx => hc x (by simp [hx])
      rw [List.flatMap_cons, List.append_assoc] at h
      have hne : pc.cur ≠ [] := by
        rw [h]
        rcases escapeOrRaw_cases c with ⟨e, he, _, _⟩ | ⟨he, _⟩
        · rw [he]; simp
        · rw [he]
          obtain ⟨b, t, e, _, _⟩ := utf8Encode_head h1.2
          rw [e]; simp
      have hl1 := advance_length_lt pc hne
      rcases escapeOrRaw_cases c with ⟨e, he, hlt, htab⟩ | ⟨he, hq, hb, _⟩
      · rw [he] at h
        obtain ⟨e1, e2⟩ := parseStringLoop_escape n ret pc e [c] _ h htab
        have hl2 := advance_length_le pc.advance
        obtain ⟨pc1, e3, e4⟩ := ih n (ret ++ [c]) pc.advance.advance rest htl e2 (by omega) hw
        refine ⟨pc1, ?_, e4⟩
        rw [e1, e3, List.flatMap_cons, utf8Encode_ascii hlt, List.append_assoc]
      · rw [he] at h
        obtain ⟨e1, e2⟩ := parseStringLoop_raw n ret pc c _ h1.2 (by omega) hq hb h
          (notCont_body tl htl rest)
        obtain ⟨pc1, e3, e4⟩ := ih n (ret ++ utf8Encode c) pc.advance rest htl e2 (by omega) hw
        refine ⟨pc1, ?_, e4⟩
        rw [e1, e3, List.flatMap_cons, List.append_assoc]

/-- The parser on the text that `encodeString` writes for a plain string:
the opening quote is matched and `parseString` returns the string. -/
theorem parse_string_text (cps : List Nat) (s : List Nat) (hs : PlainStringOf cps s)
    (pc : ParseCursor) (rest : List Nat)
    (h : pc.cur = [0x22] ++ cps.flatMap escapeOrRaw ++ [0x22] ++ rest) (hw : NoWs rest) :
    ∃ pc1 pc2, ParseCursor.tryParse [0x22] pc = .ok (true, pc1) ∧
      pc1.cur.length < pc.cur.length ∧
      ParseCursor.parseString [0x22] pc1 = .ok (s, pc2) ∧ pc2.cur = rest := by
  obtain ⟨hc, hse, hh⟩ := hs
  have h1 : pc.cur = 0x22 :: (cps.flatMap escapeOrRaw ++ 0x22 :: rest) := by
    rw [h]; simp
  obtain ⟨pc1, e1, c1⟩ := tryParse_byte_hit_cur 0x22 (by decide) (by decide) pc _ h1
    (NoWs_body cps hc hh rest)
  obtain ⟨pc2, e2, c2⟩ := parseStringLoop_body cps (pc1.cur.length + 1) [] pc1 rest hc c1
    (Nat.lt_succ_self _) hw
  refine ⟨pc1, pc2, e1, ?_, ?_, c2⟩
  · rw [h1, c1]; simp
  · unfold ParseCursor.parseString
    rw [e2, hse]; simp

/-! ## The grammar on serialized text -/

theorem peek_of_cons (pc : LineColCur) (b : Nat) (tl : List Nat) (hb : b < 0x80)
    (h : pc.cur = b :: tl) : pc.peekUnicodeChar = b :=
  (peek_advance_ascii pc b tl hb h).1

theorem parseValue_quote {D : Type} (L : Libc D) (n : Nat) (pc pc1 : ParseCursor)
    (e : ParseCursor.tryParse [0x22] pc = .ok (true, pc1)) :
    parseValue L (n + 1) pc
      = (ParseCursor.parseString [0x22] pc1).map fun r => (JSONValue.string r.1, r.2) := by
  unfold parseValue
  rw [e]
  rfl

theorem parseValue_brace {D : Type} (L : Libc D) (n : Nat) (pc : ParseCursor) (tl : List Nat)
    (h : pc.cur = 0x7B :: tl) (hw : NoWs tl) :
    ∃ pc1, pc1.cur = tl ∧ parseValue L (n + 1) pc
      = (parseObjectLoop L n [] true pc1).map fun r => (JSONValue.object r.1, r.2) := by
  have hp := peek_of_cons pc _ tl (by decide) h
  have m1 : ParseCursor.tryParse [0x22] pc = .ok (false, pc) :=
    tryParse_miss_peek _ _ (by decide) (by rw [hp]; decide)
  obtain ⟨pc1, e, c1⟩ := tryParse_byte_hit_cur 0x7B (by decide) (by decide) pc tl h hw
  refine ⟨pc1, c1, ?_⟩
  unfold parseValue
  rw [m1]
  simp only [Result.bind_ok, Bool.false_eq_true, if_false]
  rw [e]
  rfl

theorem parseValue_bracket {D : Type} (L : Libc D) (n : Nat) (pc : ParseCursor) (tl : List Nat)
    (h : pc.cur = 0x5B :: tl) (hw : NoWs tl) :
    ∃ pc1, pc1.cur = tl ∧ parseValue L (n + 1) pc
      = (parseArrayLoop L n [] true pc1).map fun r => (JSONValue.array r.1, r.2) := by
  have hp := peek_of_cons pc _ tl (by decide) h
  have m1 : ParseCursor.tryParse [0x22] pc = .ok (false, pc) :=
    tryParse_miss_peek _ _ (by decide) (by rw [hp]; decide)
  have m2 : ParseCursor.tryParse [0x7B] pc = .ok (false, pc) :=
    tryParse_miss_peek _ _ (by decide) (by rw [hp]; decide)
  obtain ⟨pc1, e, c1⟩ := tryParse_byte_hit_cur 0x5B (by decide) (by decide) pc tl h hw
  refine ⟨pc1, c1, ?_⟩
  unfold parseValue
  rw [m1]
  simp only [Result.bind_ok, Bool.false_eq_true, if_false]
  rw [m2]
  simp only [Result.bind_ok, Bool.false_eq_true, if_false]
  rw [e]
  rfl

theorem parseValue_true {D : Type} (L : Libc D) (n : Nat) (pc : ParseCursor) (rest : List Nat)
    (h : pc.cur = [0x74, 0x72, 0x75, 0x65] ++ rest) (hw : NoWs rest) :
    ∃ pc1, parseValue L (n + 1) pc = .ok (JSONValue.boolean true, pc1) ∧ pc1.cur = rest := by
  have hp := peek_of_cons pc 0x74 _ (by decide) h
  have m1 : ParseCursor.tryParse [0x22] pc = .ok (false, pc) :=
    tryParse_miss_peek _ _ (by decide) (by rw [hp]; decide)
  have m2 : ParseCursor.tryParse [0x7B] pc = .ok (false, pc) :=
    tryParse_miss_peek _ _ (by decide) (by rw [hp]; decide)
  have m3 : ParseCursor.tryParse [0x5B] pc = .ok (false, pc) :=
    tryParse_miss_peek _ _ (by decide) (by rw [hp]; decide)
  obtain ⟨pc1, e, c1⟩ := tryParse_ascii_hit_cur [0x74, 0x72, 0x75, 0x65] (by decide) pc rest h hw
  refine ⟨pc1, ?_, c1⟩
  unfold parseValue
  rw [m1]
  simp only [Result.bind_ok, Bool.false_eq_true, if_false]
  rw [m2]
  simp only [Result.bind_ok, Bool.false_eq_true, if_false]
  rw [m3]
  simp only [Result.bind_ok, Bool.false_eq_true, if_false]
  rw [e]
  rfl

theorem parseValue_false {D : Type} (L : Libc D) (n : Nat) (pc : ParseCursor) (rest : List Nat)
    (h : pc.cur = [0x66, 0x61, 0x6C, 0x73, 0x65] ++ rest) (hw : NoWs rest) :
    ∃ pc1, parseValue L (n + 1) pc = .ok (JSONValue.boolean false, pc1) ∧ pc1.cur = rest := by
  have hp := peek_of_cons pc 0x66 _ (by decide) h
  have m1 : ParseCursor.tryParse [0x22] pc = .ok (false, pc) :=
    tryParse_miss_peek _ _ (by decide) (by rw [hp]; decide)
  have m2 : ParseCursor.tryParse [0x7B] pc = .ok (false, pc) :=
    tryParse_miss_peek _ _ (by decide) (by rw [hp]; decide)
  have m3 : ParseCursor.tryParse [0x5B] pc = .ok (false, pc) :=
    tryParse_miss_peek _ _ (by decide) (by rw [hp]; decide)
  have m4 : ParseCursor.tryParse [0x74, 0x72, 0x75, 0x65] pc = .ok (false, pc) :=
    tryParse_miss_peek _ _ (by decide) (by rw [hp]; decide)
  obtain ⟨pc1, e, c1⟩ :=
    tryParse_ascii_hit_cur [0x66, 0x61, 0x6C, 0x73, 0x65] (by decide) pc rest h hw
  refine ⟨pc1, ?_, c1⟩
  unfold parseValue
  rw [m1]
  simp only [Result.bind_ok, Bool.false_eq_true, if_false]
  rw [m2]
  simp only [Result.bind_ok, Bool.false_eq_true, if_false]
  rw [m3]
  simp only [Result.bind_ok, Bool.false_eq_true, if_false]
  rw [m4]
  simp only [Result.bind_ok, Bool.false_eq_true, if_false]
  rw [e]
  rfl

theorem parseValue_null {D : Type} (L : Libc D) (n : Nat) (pc : ParseCursor) (rest : List Nat)
    (h : pc.cur = [0x6E, 0x75, 0x6C, 0x6C] ++ rest) (hw : NoWs rest) :
    ∃ pc1, parseValue L (n + 1) pc = .ok (JSONValue.null, pc1) ∧ pc1.cur = rest := by
  have hp := peek_of_cons pc 0x6E _ (by decide) h
  have m1 : ParseCursor.tryParse [0x22] pc = .ok (false, pc) :=
    tryParse_miss_peek _ _ (by decide) (by rw [hp]; decide)
  have m2 : ParseCursor.tryParse [0x7B] pc = .ok (false, pc) :=
    tryParse_miss_peek _ _ (by decide) (by rw [hp]; decide)
  have m3 : ParseCursor.tryParse [0x5B] pc = .ok (false, pc) :=
    tryParse_miss_peek _ _ (by decide) (by rw [hp]; decide)
  have m4 : ParseCursor.tryParse [0x74, 0x72, 0x75, 0x65] pc = .ok (false, pc) :=
    tryParse_miss_peek _ _ (by decide) (by rw [hp]; decide)
  have m5 : ParseCursor.tryParse [0x66, 0x61, 0x6C, 0x73, 0x65] pc = .ok (false, pc) :=
    tryParse_miss_peek _ _ (by decide) (by rw [hp]; decide)
  obtain ⟨pc1, e, c1⟩ := tryParse_ascii_hit_cur [0x6E, 0x75, 0x6C, 0x6C] (by decide) pc rest h hw
  refine ⟨pc1, ?_, c1⟩
  unfold parseValue
  rw [m1]
  simp only [Result.bind_ok, Bool.false_eq_true, if_false]
  rw [m2]
  simp only [Result.bind_ok, Bool.false_eq_true, if_false]
  rw [m3]
  simp only [Result.bind_ok, Bool.false_eq_true, if_false]
  rw [m4]
  simp only [Result.bind_ok, Bool.false_eq_true, if_false]
  rw [m5]
  simp only [Result.bind_ok, Bool.false_eq_true, if_false]
  rw [e]
  rfl

theorem parseArrayLoop_end {D : Type} (L : Libc D) (n : Nat) (acc : JSONArray D) (first : Bool)
    (pc : ParseCursor) (rest : List Nat) (h : pc.cur = 0x5D :: rest) (hw : NoWs rest) :
    ∃ pc1, parseArrayLoop L (n + 1) acc first pc = .ok (acc, pc1) ∧ pc1.cur = rest := by
  obtain ⟨pc1, e, c1⟩ := tryParse_byte_hit_cur 0x5D (by decide) (by decide) pc rest h hw
  refine ⟨pc1, ?_, c1⟩
  unfold parseArrayLoop
  rw [e]
  rfl

theorem parseArrayLoop_first {D : Type} (L : Libc D) (n : Nat) (acc : JSONArray D)
    (pc : ParseCursor) (hp : pc.peekUnicodeChar ≠ 0x5D) :
    parseArrayLoop L (n + 1) acc true pc
      = (parseValue L n pc).bind fun v => parseArrayLoop L n (acc ++ [v.1]) false v.2 := by
  have m1 : ParseCursor.tryParse [0x5D] pc = .ok (false, pc) :=
    tryParse_miss_peek _ _ (by decide) (by rw [readUtf8Char_ascii (by decide)]; exact hp)
  conv_lhs => unfold parseArrayLoop
  rw [m1]
  rfl

theorem parseArrayLoop_next {D : Type} (L : Libc D) (n : Nat) (acc : JSONArray D)
    (pc : ParseCursor) (tl : List Nat) (h : pc.cur = 0x2C :: tl) (hw : NoWs tl) :
    ∃ pc1, pc1.cur = tl ∧ parseArrayLoop L (n + 1) acc false pc
      = (parseValue L n pc1).bind fun v => parseArrayLoop L n (acc ++ [v.1]) false v.2 := by
  have hp := peek_of_cons pc _ tl (by decide) h
  have m1 : ParseCursor.tryParse [0x5D] pc = .ok (false, pc) :=
    tryParse_miss_peek _ _ (by decide) (by rw [hp]; decide)
  obtain ⟨pc1, e, c1⟩ := tryParse_byte_hit_cur 0x2C (by decide) (by decide) pc tl h hw
  refine ⟨pc1, c1, ?_⟩
  conv_lhs => unfold parseArrayLoop
  rw [m1]
  simp only [Result.bind_ok, Bool.false_eq_true, if_false]
  rw [e]
  rfl

theorem parseObjectLoop_end {D : Type} (L : Libc D) (n : Nat) (acc : JSONObject D) (first : Bool)
    (pc : ParseCursor) (rest : List Nat) (h : pc.cur = 0x7D :: rest) (hw : NoWs rest) :
    ∃ pc1, parseObjectLoop L (n + 1) acc first pc = .ok (acc, pc1) ∧ pc1.cur = rest := by
  obtain ⟨pc1, e, c1⟩ := tryParse_byte_hit_cur 0x7D (by decide) (by decide) pc rest h hw
  refine ⟨pc1, ?_, c1⟩
  unfold parseObjectLoop
  rw [e]
  rfl

/-- From the quote of a key on: the key is read, the colon matched, and the
loop goes on with the value. -/
theorem parseObjectLoop_key {D : Type} (L : Libc D) (n : Nat) (acc : JSONObject D)
    (cps : List Nat) (k : List Nat) (hk : PlainStringOf cps k) (pc : ParseCursor)
    (tl : List Nat) (h : pc.cur = [0x22] ++ cps.flatMap escapeOrRaw ++ [0x22] ++ 0x3A :: tl)
    (hw : NoWs tl) :
    ∃ pc1, pc1.cur = tl ∧
      ((ParseCursor.tryParse [0x22] pc).bind fun t2 =>
        if ¬ t2.1 = true then t2.2.error "Expected '\"'"
        else (ParseCursor.parseString [0x22] t2.2).bind fun name =>
        (ParseCursor.tryParse [0x3A] name.2).bind fun t3 =>
        if ¬ t3.1 = true then t3.2.error "Expected ':'"
        else (parseValue L n t3.2).bind fun v =>
        parseObjectLoop L n (JSONObject.assign name.1 v.1 acc) false v.2)
      = (parseValue L n pc1).bind fun v =>
          parseObjectLoop L n (JSONObject.assign k v.1 acc) false v.2 := by
  obtain ⟨p1, p2, e1, _, e2, c2⟩ := parse_string_text cps k hk pc (0x3A :: tl) h
    (NoWs_cons_ascii _ _ (by decide) (by decide))
  obtain ⟨pc1, e3, c3⟩ := tryParse_byte_hit_cur 0x3A (by decide) (by decide) p2 tl c2 hw
  refine ⟨pc1, c3, ?_⟩
  rw [e1]
  simp only [Result.bind_ok, not_true_eq_false, if_false]
  rw [e2]
  simp only [Result.bind_ok]
  rw [e3]
  simp only [Result.bind_ok, not_true_eq_false, if_false]

theorem parseObjectLoop_first {D : Type} (L : Libc D) (n : Nat) (acc : JSONObject D)
    (cps : List Nat) (k : List Nat) (hk : PlainStringOf cps k) (pc : ParseCursor)
    (tl : List Nat) (h : pc.cur = [0x22] ++ cps.flatMap escapeOrRaw ++ [0x22] ++ 0x3A :: tl)
    (hw : NoWs tl) :
    ∃ pc1, pc1.cur = tl ∧ parseObjectLoop L (n + 1) acc true pc
      = (parseValue L n pc1).bind fun v =>
          parseObjectLoop L n (JSONObject.assign k v.1 acc) false v.2 := by
  have hp := peek_of_cons pc 0x22 _ (by decide) (by rw [h]; rfl)
  have m1 : ParseCursor.tryParse [0x7D] pc = .ok (false, pc) :=
    tryParse_miss_peek _ _ (by decide) (by rw [hp]; decide)
  obtain ⟨pc1, c1, e⟩ := parseObjectLoop_key L n acc cps k hk pc tl h hw
  refine ⟨pc1, c1, ?_⟩
  conv_lhs => unfold parseObjectLoop
  rw [m1]
  simp only [Result.bind_ok, Bool.false_eq_true, if_false, if_true]
  exact e

theorem parseObjectLoop_next {D : Type} (L : Libc D) (n : Nat) (acc : JSONObject D)
    (cps : List Nat) (k : List Nat) (hk : PlainStringOf cps k) (pc : ParseCursor)
    (tl : List Nat)
    (h : pc.cur = 0x2C :: ([0x22] ++ cps.flatMap escapeOrRaw ++ [0x22] ++ 0x3A :: tl))
    (hw : NoWs tl) :
    ∃ pc1, pc1.cur = tl ∧ parseObjectLoop L (n + 1) acc false pc
      = (parseValue L n pc1).bind fun v =>
          parseObjectLoop L n (JSONObject.assign k v.1 acc) false v.2 := by
  have hp := peek_of_cons pc 0x2C _ (by decide) h
  have m1 : ParseCursor.tryParse [0x7D] pc = .ok (false, pc) :=
    tryParse_miss_peek _ _ (by decide) (by rw [hp]; decide)
  obtain ⟨p1, e1, c1⟩ := tryParse_byte_hit_cur 0x2C (by decide) (by decide) pc _ h
    (NoWs_cons_ascii 0x22 _ (by decide) (by decide))
  obtain ⟨pc1, c2, e⟩ := parseObjectLoop_key L n acc cps k hk p1 tl c1 hw
  refine ⟨pc1, c2, ?_⟩
  conv_lhs => unfold parseObjectLoop
  rw [m1]
  simp only [Result.bind_ok, Bool.false_eq_true, if_false]
  rw [e1]
  simp only [Result.bind_ok, if_true]
  exact e

/-! ## The round trip of a number-free value -/

theorem stringLess_asymm : ∀ (a b : List Nat), stringLess a b = true → stringLess b a = false
  | [], [], h => by simp [stringLess] at h
  | [], _ :: _, _ => by simp [stringLess]
  | _ :: _, [], h => by simp [stringLess] at h
  | x :: xs, y :: ys, h => by
    simp only [stringLess] at h ⊢
    by_cases h1 : x < y
    · have h2 : ¬ y < x := by omega
      simp [h1, h2]
    · by_cases h2 : y < x
      · simp [h1, h2] at h
      · simp only [h1, h2, if_false] at h ⊢
        exact stringLess_asymm xs ys h

theorem assign_append_of_gt {D : Type} (k : List Nat) (v : JSONValue D) :
    ∀ (acc : JSONObject D), (∀ e ∈ acc, stringLess e.1 k = true) →
      JSONObject.assign k v acc = acc ++ [(k, v)]
  | [], _ => rfl
  | (k1, w) :: rest, h => by
    have h1 : stringLess k1 k = true := h (k1, w) (by simp)
    have h2 : stringLess k k1 = false := stringLess_asymm _ _ h1
    simp only [JSONObject.assign, h2, h1, Bool.false_eq_true, if_false, if_true, List.cons_append]
    rw [assign_append_of_gt k v rest (fun e he => h e (by simp [he]))]

theorem StartsValue.ne_nil {text : List Nat} (h : StartsValue text) : 0 < text.length := by
  obtain ⟨b, tl, e, _⟩ := h
  rw [e]; simp

theorem StartsValue.noWs {text : List Nat} (h : StartsValue text) (rest : List Nat) :
    NoWs (text ++ rest) := by
  obtain ⟨b, tl, e, hb⟩ := h
  rw [e]
  rcases hb with h | h | h | h | h | h <;> subst h <;>
    exact NoWs_cons_ascii _ _ (by decide) (by decide)

theorem StartsValue.peek {text : List Nat} (h : StartsValue text) (rest : List Nat)
    (pc : LineColCur) (hc : pc.cur = text ++ rest) :
    pc.peekUnicodeChar ≠ 0x5D ∧ pc.peekUnicodeChar ≠ 0xFEFF := by
  obtain ⟨b, tl, e, hb⟩ := h
  rw [e] at hc
  have hp := peek_of_cons pc b (tl ++ rest) (by omega) hc
  rw [hp]
  omega

mutual
theorem roundtrip_value {D : Type} (L : Libc D) : ∀ (v : JSONValue D),
    JSONValue.NumberFree v → JSONValue.AllStrings PlainString v → JSONValue.SortedKeys v →
    ∃ text, encodeJsonValue L v = .ok text ∧ StartsValue text ∧
      ∀ (fuel : Nat) (pc : ParseCursor) (rest : List Nat), pc.cur = text ++ rest →
        2 * pc.cur.length + 1 ≤ fuel → NoWs rest →
        ∃ pc1, parseValue L fuel pc = .ok (v, pc1) ∧ pc1.cur = rest
  | .null, _, _, _ => by
    refine ⟨[0x6E, 0x75, 0x6C, 0x6C], rfl, ⟨_, _, rfl, by simp⟩, ?_⟩
    intro fuel pc rest h hf hw
    cases fuel with
    | zero => omega
    | succ n => exact parseValue_null L n pc rest h hw
  | .boolean true, _, _, _ => by
    refine ⟨[0x74, 0x72, 0x75, 0x65], rfl, ⟨_, _, rfl, by simp⟩, ?_⟩
    intro fuel pc rest h hf hw
    cases fuel with
    | zero => omega
    | succ n => exact parseValue_true L n pc rest h hw
  | .boolean false, _, _, _ => by
    refine ⟨[0x66, 0x61, 0x6C, 0x73, 0x65], rfl, ⟨_, _, rfl, by simp⟩, ?_⟩
    intro fuel pc rest h hf hw
    cases fuel with
    | zero => omega
    | succ n => exact parseValue_false L n pc rest h hw
  | .number _, hn, _, _ => absurd hn (by simp [JSONValue.NumberFree])
  | .string s, _, hs, _ => by
    obtain ⟨cps, hcps⟩ : PlainString s := hs
    have henc : encodeJsonValue L (.string s)
        = .ok ([0x22] ++ cps.flatMap escapeOrRaw ++ [0x22]) := by
      simp only [encodeJsonValue]
      rw [hcps.2.1]
      exact encodeString_codepoints cps hcps.1
    refine ⟨_, henc, ⟨0x22, _, rfl, by simp⟩, ?_⟩
    intro fuel pc rest h hf hw
    cases fuel with
    | zero => omega
    | succ n =>
      obtain ⟨p1, p2, e1, _, e2, c2⟩ := parse_string_text cps s hcps pc rest h hw
      refine ⟨p2, ?_, c2⟩
      rw [parseValue_quote L n pc p1 e1, e2]
      rfl
  | .array a, hn, hs, hk => by
    obtain ⟨body, eb, hnw, hp⟩ := roundtrip_elements L a true hn hs hk
    have henc : encodeJsonValue L (.array a) = .ok ([0x5B] ++ body ++ [0x5D]) := by
      simp only [encodeJsonValue, eb, Result.map_ok]
    refine ⟨_, henc, ⟨0x5B, _, rfl, by simp⟩, ?_⟩
    intro fuel pc rest h hf hw
    cases fuel with
    | zero => omega
    | succ n =>
      have h1 : pc.cur = 0x5B :: (body ++ 0x5D :: rest) := by rw [h]; simp
      obtain ⟨pc1, c1, e1⟩ := parseValue_bracket L n pc _ h1 (hnw rest)
      have hl : pc.cur.length = pc1.cur.length + 1 := by rw [h1, c1]; simp
      obtain ⟨pc2, e2, c2⟩ := hp n [] pc1 rest c1 (by omega) hw
      refine ⟨pc2, ?_, c2⟩
      rw [e1, e2]
      rfl
  | .object o, hn, hs, hk => by
    obtain ⟨body, eb, hnw, hp⟩ := roundtrip_members L o true hn hs hk.2
    have henc : encodeJsonValue L (.object o) = .ok ([0x7B] ++ body ++ [0x7D]) := by
      simp only [encodeJsonValue, eb, Result.map_ok]
    refine ⟨_, henc, ⟨0x7B, _, rfl, by simp⟩, ?_⟩
    intro fuel pc rest h hf hw
    cases fuel with
    | zero => omega
    | succ n =>
      have h1 : pc.cur = 0x7B :: (body ++ 0x7D :: rest) := by rw [h]; simp
      obtain ⟨pc1, c1, e1⟩ := parseValue_brace L n pc _ h1 (hnw rest)
      have hl : pc.cur.length = pc1.cur.length + 1 := by rw [h1, c1]; simp
      obtain ⟨pc2, e2, c2⟩ := hp n [] pc1 rest c1 (by omega) hw (by simp) hk.1
      refine ⟨pc2, ?_, c2⟩
      rw [e1, e2]
      rfl
theorem roundtrip_elements {D : Type} (L : Libc D) : ∀ (a : List (JSONValue D)) (first : Bool),
    JSONValue.NumberFreeElements a → JSONValue.AllStringsElements PlainString a →
    JSONValue.SortedKeysElements a →
    ∃ body, encodeArrayLoop L first a = .ok body ∧
      (∀ tail : List Nat, NoWs (body ++ 0x5D :: tail)) ∧
      ∀ (fuel : Nat) (acc : JSONArray D) (pc : ParseCursor) (rest : List Nat),
        pc.cur = body ++ 0x5D :: rest → 2 * pc.cur.length + 2 ≤ fuel → NoWs rest →
        ∃ pc1, parseArrayLoop L fuel acc first pc = .ok (acc ++ a, pc1) ∧ pc1.cur = rest
  | [], first, _, _, _ => by
    refine ⟨[], by simp [encodeArrayLoop],
      fun tail => NoWs_cons_ascii _ _ (by decide) (by decide), ?_⟩
    intro fuel acc pc rest h hf hw
    cases fuel with
    | zero => omega
    | succ n =>
      obtain ⟨pc1, e, c⟩ := parseArrayLoop_end L n acc first pc rest (by simpa using h) hw
      exact ⟨pc1, by simpa using e, c⟩
  | v :: a1, first, hn, hs, hk => by
    obtain ⟨vs, ev, hsv, hpv⟩ := roundtrip_value L v hn.1 hs.1 hk.1
    obtain ⟨rs, er, hnr, hpr⟩ := roundtrip_elements L a1 false hn.2 hs.2 hk.2
    have hvl := hsv.ne_nil
    refine ⟨(if first then [] else [0x2C]) ++ vs ++ rs, ?_, ?_, ?_⟩
    · simp only [encodeArrayLoop, ev, er, Result.bind_ok, Result.map_ok]
    · intro tail
      cases first with
      | true =>
        simp only [if_true, List.nil_append, List.append_assoc]
        exact hsv.noWs _
      | false => exact NoWs_cons_ascii _ _ (by decide) (by decide)
    · intro fuel acc pc rest h hf hw
      cases fuel with
      | zero => omega
      | succ n =>
        have tailStep : ∀ p : ParseCursor, p.cur = vs ++ (rs ++ 0x5D :: rest) →
            p.cur.length ≤ pc.cur.length →
            ∃ pc1, ((parseValue L n p).bind fun w =>
                parseArrayLoop L n (acc ++ [w.1]) false w.2) = .ok (acc ++ v :: a1, pc1) ∧
              pc1.cur = rest := by
          intro p hpc hle
          obtain ⟨p1, e1, c1⟩ := hpv n p _ hpc (by omega) (hnr rest)
          have hl : p.cur.length = vs.length + p1.cur.length := by rw [hpc, c1]; simp
          obtain ⟨p2, e2, c2⟩ := hpr n (acc ++ [v]) p1 rest c1 (by omega) hw
          refine ⟨p2, ?_, c2⟩
          rw [e1]
          simp only [Result.bind_ok, e2, List.append_assoc, List.singleton_append]
        cases first with
        | true =>
          have h1 : pc.cur = vs ++ (rs ++ 0x5D :: rest) := by rw [h]; simp
          rw [parseArrayLoop_first L n acc pc (hsv.peek _ pc h1).1]
          exact tailStep pc h1 (le_refl _)
        | false =>
          have h1 : pc.cur = 0x2C :: (vs ++ (rs ++ 0x5D :: rest)) := by rw [h]; simp
          obtain ⟨p, c, e⟩ := parseArrayLoop_next L n acc pc _ h1 (hsv.noWs _)
          rw [e]
          exact tailStep p c (by rw [h1, c]; simp)
theorem roundtrip_members {D : Type} (L : Libc D) :
    ∀ (o : List (List Nat × JSONValue D)) (first : Bool),
    JSONValue.NumberFreeMembers o → JSONValue.AllStringsMembers PlainString o →
    JSONValue.SortedKeysMembers o →
    ∃ body, encodeObjectLoop L first o = .ok body ∧
      (∀ tail : List Nat, NoWs (body ++ 0x7D :: tail)) ∧
      ∀ (fuel : Nat) (acc : JSONObject D) (pc : ParseCursor) (rest : List Nat),
        pc.cur = body ++ 0x7D :: rest → 2 * pc.cur.length + 2 ≤ fuel → NoWs rest →
        (∀ e ∈ acc, ∀ e1 ∈ o, stringLess e.1 e1.1 = true) → JSONObject.Ascending o →
        ∃ pc1, parseObjectLoop L fuel acc first pc = .ok (acc ++ o, pc1) ∧ pc1.cur = rest
  | [], first, _, _, _ => by
    refine ⟨[], by simp [encodeObjectLoop],
      fun tail => NoWs_cons_ascii _ _ (by decide) (by decide), ?_⟩
    intro fuel acc pc rest h hf hw _ _
    cases fuel with
    | zero => omega
    | succ n =>
      obtain ⟨pc1, e, c⟩ := parseObjectLoop_end L n acc first pc rest (by simpa using h) hw
      exact ⟨pc1, by simpa using e, c⟩
  | (k, v) :: o1, first, hn, hs, hk => by
    obtain ⟨vs, ev, hsv, hpv⟩ := roundtrip_value L v hn.1 hs.2.1 hk.1
    obtain ⟨rs, er, hnr, hpr⟩ := roundtrip_members L o1 false hn.2 hs.2.2 hk.2
    obtain ⟨cps, hcps⟩ : PlainString k := hs.1
    have hvl := hsv.ne_nil
    have hks : encodeString k = .ok ([0x22] ++ cps.flatMap escapeOrRaw ++ [0x22]) := by
      rw [hcps.2.1]
      exact encodeString_codepoints cps hcps.1
    refine ⟨(if first then [] else [0x2C]) ++ ([0x22] ++ cps.flatMap escapeOrRaw ++ [0x22])
      ++ [0x3A] ++ vs ++ rs, ?_, ?_, ?_⟩
    · simp only [encodeObjectLoop, hks, ev, er, Result.bind_ok, Result.map_ok]
    · intro tail
      cases first with
      | true => exact NoWs_cons_ascii _ _ (by decide) (by decide)
      | false => exact NoWs_cons_ascii _ _ (by decide) (by decide)
    · intro fuel acc pc rest h hf hw hacc hasc
      cases fuel with
      | zero => omega
      | succ n =>
        have hassign : JSONObject.assign k v acc = acc ++ [(k, v)] :=
          assign_append_of_gt k v acc (fun e he => hacc e he (k, v) (by simp))
        have hasc1 : JSONObject.Ascending o1 := (List.pairwise_cons.mp hasc).2
        have hacc1 : ∀ e ∈ acc ++ [(k, v)], ∀ e1 ∈ o1, stringLess e.1 e1.1 = true := by
          intro e he e1 he1
          rcases List.mem_append.mp he with h1 | h1
          · exact hacc e h1 e1 (by simp [he1])
          · have : e = (k, v) := by simpa using h1
            rw [this]
            exact (List.pairwise_cons.mp hasc).1 e1 he1
        have tailStep : ∀ p : ParseCursor, p.cur = vs ++ (rs ++ 0x7D :: rest) →
            p.cur.length + 3 ≤ pc.cur.length →
            ∃ pc1, ((parseValue L n p).bind fun w =>
                parseObjectLoop L n (JSONObject.assign k w.1 acc) false w.2)
                  = .ok (acc ++ (k, v) :: o1, pc1) ∧
              pc1.cur = rest := by
          intro p hpc hle
          obtain ⟨p1, e1, c1⟩ := hpv n p _ hpc (by omega) (hnr rest)
          have hl : p.cur.length = vs.length + p1.cur.length := by rw [hpc, c1]; simp
          obtain ⟨p2, e2, c2⟩ := hpr n (acc ++ [(k, v)]) p1 rest c1 (by omega) hw hacc1 hasc1
          refine ⟨p2, ?_, c2⟩
          rw [e1]
          simp only [Result.bind_ok, hassign, e2, List.append_assoc, List.singleton_append]
        cases first with
        | true =>
          have h1 : pc.cur = [0x22] ++ cps.flatMap escapeOrRaw ++ [0x22]
              ++ 0x3A :: (vs ++ (rs ++ 0x7D :: rest)) := by rw [h]; simp
          obtain ⟨p, c, e⟩ := parseObjectLoop_first L n acc cps k hcps pc _ h1 (hsv.noWs _)
          rw [e]
          exact tailStep p c (by rw [h1, c]; simp)
        | false =>
          have h1 : pc.cur = 0x2C :: ([0x22] ++ cps.flatMap escapeOrRaw ++ [0x22]
              ++ 0x3A :: (vs ++ (rs ++ 0x7D :: rest))) := by rw [h]; simp
          obtain ⟨p, c, e⟩ := parseObjectLoop_next L n acc cps k hcps pc _ h1 (hsv.noWs _)
          rw [e]
          exact tailStep p c (by rw [h1, c]; simp; omega)
end

theorem ParseCursor.new_of_startsValue (text : List Nat) (h : StartsValue text) :
    ParseCursor.new text = .ok ⟨text, 1, 1⟩ := by
  have hp := (h.peek [] ⟨text, 1, 1⟩ (by simp)).2
  have m : ParseCursor.tryParse [0xEF, 0xBB, 0xBF] ⟨text, 1, 1⟩ = .ok (false, ⟨text, 1, 1⟩) :=
    tryParse_miss_peek _ _ (by decide) (by
      have e : (readUtf8Char [0xEF, 0xBB, 0xBF]).1 = 0xFEFF := by decide!
      rw [e]; exact hp)
  unfold ParseCursor.new
  rw [m]
  simp only [Result.bind_ok, Bool.false_eq_true, if_false]
  apply skipWhitespace_of_not_ws
  have := h.noWs []
  simpa [NoWs, LineColCur.peekUnicodeChar] using this

/-- A number-free value with plain strings and sorted objects is serialized to
a text that is parsed back to the value. -/
theorem roundtrip_json {D : Type} (L : Libc D) (v : JSONValue D) (hn : JSONValue.NumberFree v)
    (hs : JSONValue.AllStrings PlainString v) (hk : JSONValue.SortedKeys v) :
    ∃ text, encodeJson L v = .ok text ∧ parseJson L text = .ok v := by
  obtain ⟨text, e, hsv, hp⟩ := roundtrip_value L v hn hs hk
  refine ⟨text, e, ?_⟩
  obtain ⟨pc1, e1, _⟩ := hp (2 * text.length + 1) ⟨text, 1, 1⟩ [] (by simp) (by simp) NoWs_nil
  unfold parseJson
  rw [ParseCursor.new_of_startsValue text hsv]
  simp only [Result.bind_ok, e1, Result.map_ok]

/-- C20. For every value built only from Null, Boolean, String, Array and
Object, in which every string and every object key is the UTF-8 encoding of a
sequence of non-zero codepoints below 0x110000 and does not begin with a
space, and every object is a `std::map` (its entries listed with strictly
ascending keys), `encodeJson` returns a text and `parseJson` of that text
returns a value deeply equal to the value. -/
theorem C20_number_free_round_trip {D : Type} (L : Libc D) (v : JSONValue D)
    (hn : JSONValue.NumberFree v) (hs : JSONValue.AllStrings PlainString v)
    (hk : JSONValue.SortedKeys v) :
    ∃ text, encodeJson L v = .ok text ∧ parseJson L text = .ok v :=
  roundtrip_json L v hn hs hk

/-- C20 at the value `{"a":[true,null,"b c"]}`. -/
theorem C20_number_free_round_trip_witness :
    ∃ text,
      encodeJson Libc.text
        (.object [([0x61], .array [.boolean true, .null, .string [0x62, 0x20, 0x63]])]) = .ok text ∧
      parseJson Libc.text text
        = .ok (.object [([0x61], .array [.boolean true, .null, .string [0x62, 0x20, 0x63]])]) :=
  C20_number_free_round_trip Libc.text
    (.object [([0x61], .array [.boolean true, .null, .string [0x62, 0x20, 0x63]])])
    (by simp [JSONValue.NumberFree, JSONValue.NumberFreeMembers, JSONValue.NumberFreeElements])
    ⟨⟨[0x61], by simp, by decide, by simp⟩,
      ⟨trivial, trivial, ⟨[0x62, 0x20, 0x63], by simp, by decide, by simp⟩, trivial⟩, trivial⟩
    ⟨by simp [JSONObject.Ascending], ⟨trivial, trivial, trivial, trivial⟩, trivial⟩

/-! ## C9, C3, C10 -/

/-- C9. `parseJson` of two spaces, `{"a":1,"b":[true,false,null]}`, two spaces
returns the Object with exactly the keys `a` and `b`, where `a` maps to the
Number that `strtod` returns for the text `1` and `b` maps to
Array[Boolean(true), Boolean(false), Null]. -/
theorem C9_example_document {D : Type} (L : Libc D) :
    parseJson L [0x20, 0x20, 0x7B, 0x22, 0x61, 0x22, 0x3A, 0x31, 0x2C, 0x22, 0x62, 0x22, 0x3A,
        0x5B, 0x74, 0x72, 0x75, 0x65, 0x2C, 0x66, 0x61, 0x6C, 0x73, 0x65, 0x2C, 0x6E, 0x75, 0x6C,
        0x6C, 0x5D, 0x7D, 0x20, 0x20]
      = .ok (.object [([0x61], .number (L.strtod [0x31])),
                      ([0x62], .array [.boolean true, .boolean false, .null])]) :=
  parseJson_of_text L _
    (.object [([0x61], .number [0x31]), ([0x62], .array [.boolean true, .boolean false, .null])])
    (by decide!)

/-- C3 at its failing input. `parseJson` of the document quote, space, `a`,
quote returns the string `a`: the space that begins the string is dropped. -/
theorem C3_leading_space_is_dropped {D : Type} (L : Libc D) :
    parseJson L [0x22, 0x20, 0x61, 0x22] = .ok (.string [0x61]) :=
  parseJson_of_text L _ (.string [0x61]) (by decide!)

/-- C10, as stated, fails. For the string of the three scalar values `a`,
U+0000, `b`, `encodeJson` writes `"a"`: the loop of `encodeString` stops at the
zero byte, and the codepoints U+0000 and `b` are dropped. -/
theorem C10_zero_codepoint_ends_the_string :
    encodeJson Libc.text (.string ([0x61, 0x00, 0x62].flatMap utf8Encode))
      = .ok [0x22, 0x61, 0x22] ∧
    [0x22] ++ [0x61, 0x00, 0x62].flatMap escapeOrRaw ++ [0x22] = [0x22, 0x61, 0x00, 0x62, 0x22] := by
  constructor <;> decide!

/-- C10, amended. For every string that is the UTF-8 encoding of a sequence
`cps` of non-zero codepoints below 0x110000, `encodeJson` returns a quote, then
for each codepoint in order its two-character escape when it is a quote,
backslash, backspace, form feed, line feed, carriage return or tab and its raw
UTF-8 bytes otherwise, then a quote. -/
theorem C10_string_serialisation {D : Type} (L : Libc D) (cps : List Nat)
    (h : ∀ c ∈ cps, 0 < c ∧ c < 0x110000) :
    encodeJson L (.string (cps.flatMap utf8Encode))
      = .ok ([0x22] ++ cps.flatMap escapeOrRaw ++ [0x22]) := by
  simp only [encodeJson, encodeJsonValue]
  exact encodeString_codepoints cps h

/-- C10, amended, at the string `"é\n` (a quote, U+00E9, a line feed). -/
theorem C10_string_serialisation_witness :
    encodeJson Libc.text (.string ([0x22, 0xE9, 0x0A].flatMap utf8Encode))
      = .ok ([0x22] ++ [0x22, 0xE9, 0x0A].flatMap escapeOrRaw ++ [0x22]) :=
  C10_string_serialisation Libc.text [0x22, 0xE9, 0x0A] (by decide)

/-! ## `\u` escapes -/

theorem HexDigit.lt {d v : Nat} (h : HexDigit d v) : v < 16 ∧ 0 < d ∧ d < 0x80 ∧ d ≠ 0x0A := by
  rcases h with ⟨h1, h2, h3⟩ | ⟨h1, h2, h3⟩ | ⟨h1, h2, h3⟩ <;> omega

theorem shift_or_gen (i a b : Nat) (hb : b < 2 ^ i) : ((a <<< i) ||| b) = a * 2 ^ i + b := by
  rw [Nat.shiftLeft_eq, Nat.mul_comm a, Nat.mul_add_lt_is_or hb]

theorem hexUnit_bits (v1 v2 v3 v4 : Nat) (h1 : v1 < 16) (h2 : v2 < 16) (h3 : v3 < 16)
    (h4 : v4 < 16) :
    ((v1 <<< 12) ||| (v2 <<< 8) ||| (v3 <<< 4) ||| v4) % 65536 = hexUnit v1 v2 v3 v4 := by
  have e3 : ((v3 <<< 4) ||| v4) = v3 * 16 + v4 := shift_or_gen 4 v3 v4 (by simpa using h4)
  have e2 : ((v2 <<< 8) ||| (v3 * 16 + v4)) = v2 * 256 + (v3 * 16 + v4) :=
    shift_or_gen 8 v2 _ (by norm_num; omega)
  have e1 : ((v1 <<< 12) ||| (v2 * 256 + (v3 * 16 + v4))) = v1 * 4096 + (v2 * 256 + (v3 * 16 + v4)) :=
    shift_or_gen 12 v1 _ (by norm_num; omega)
  rw [Nat.lor_assoc, Nat.lor_assoc, e3, e2, e1]
  unfold hexUnit
  omega

theorem readUnicodeEscapeChar_hex (pc : ParseCursor) (d v : Nat) (tl : List Nat)
    (h : pc.cur = d :: tl) (hd : HexDigit d v) :
    ParseCursor.readUnicodeEscapeChar pc = .ok (v, pc.advance) ∧ pc.advance.cur = tl := by
  obtain ⟨_, h0, hlt, _⟩ := hd.lt
  obtain ⟨hp, ha⟩ := peek_advance_ascii pc d tl hlt h
  refine ⟨?_, ha⟩
  unfold ParseCursor.readUnicodeEscapeChar
  rw [getUnicodeChar_of_peek pc d hp (by omega)]
  simp only [Result.bind_ok]
  rcases hd with ⟨h1, h2, h3⟩ | ⟨h1, h2, h3⟩ | ⟨h1, h2, h3⟩
  · rw [if_pos ⟨h1, h2⟩, h3]
  · rw [if_neg (by omega), if_pos ⟨h1, h2⟩, h3]
  · rw [if_neg (by omega), if_neg (by omega), if_pos ⟨h1, h2⟩, h3]

theorem readUnicodeEscape_hex (pc : ParseCursor) (d1 d2 d3 d4 v1 v2 v3 v4 : Nat) (tl : List Nat)
    (h : pc.cur = d1 :: d2 :: d3 :: d4 :: tl) (h1 : HexDigit d1 v1) (h2 : HexDigit d2 v2)
    (h3 : HexDigit d3 v3) (h4 : HexDigit d4 v4) :
    ∃ pc1, ParseCursor.readUnicodeEscape pc = .ok (hexUnit v1 v2 v3 v4, pc1) ∧ pc1.cur = tl := by
  obtain ⟨e1, c1⟩ := readUnicodeEscapeChar_hex pc d1 v1 _ h h1
  obtain ⟨e2, c2⟩ := readUnicodeEscapeChar_hex _ d2 v2 _ c1 h2
  obtain ⟨e3, c3⟩ := readUnicodeEscapeChar_hex _ d3 v3 _ c2 h3
  obtain ⟨e4, c4⟩ := readUnicodeEscapeChar_hex _ d4 v4 _ c3 h4
  refine ⟨_, ?_, c4⟩
  unfold ParseCursor.readUnicodeEscape
  rw [e1]
  simp only [Result.bind_ok]
  rw [e2]
  simp only [Result.bind_ok]
  rw [e3]
  simp only [Result.bind_ok]
  rw [e4]
  simp only [Result.bind_ok]
  rw [hexUnit_bits v1 v2 v3 v4 h1.lt.1 h2.lt.1 h3.lt.1 h4.lt.1]

theorem NoWs_hex (d v : Nat) (tl : List Nat) (h : HexDigit d v) : NoWs (d :: tl) := by
  obtain ⟨_, h0, hlt, hn⟩ := h.lt
  apply NoWs_cons_ascii _ _ hlt
  rcases h with ⟨h1, h2, h3⟩ | ⟨h1, h2, h3⟩ | ⟨h1, h2, h3⟩ <;>
    simp [isJsonWhitespace] <;> omega

/-- The loop of `parseString` at a `\u` escape. -/
theorem parseStringLoop_unicode (fuel : Nat) (ret : List Nat) (pc : ParseCursor) (tail : List Nat)
    (h : pc.cur = 0x5C :: 0x75 :: tail) :
    ParseCursor.parseStringLoop [0x22] (fuel + 1) ret pc
      = ((ParseCursor.parseUnicodeEscape pc.advance.advance).bind fun e =>
          ParseCursor.parseStringLoop [0x22] fuel (ret ++ e.1) e.2) ∧
    pc.advance.advance.cur = tail := by
  obtain ⟨hp, ha⟩ := peek_advance_ascii pc 0x5C _ (by decide) h
  obtain ⟨hp2, ha2⟩ := peek_advance_ascii pc.advance 0x75 _ (by decide) ha
  refine ⟨?_, ha2⟩
  have hm : ParseCursor.tryParse [0x22] pc = .ok (false, pc) := by
    apply tryParse_miss_peek _ _ (by decide)
    rw [hp, readUtf8Char_ascii (by decide)]
    decide
  conv_lhs => unfold ParseCursor.parseStringLoop
  rw [hm]
  simp only [Result.bind_ok, Bool.false_eq_true, if_false]
  rw [getUnicodeChar_of_peek pc 0x5C hp (by decide)]
  simp only [Result.bind_ok, if_true]
  unfold ParseCursor.parseEscape
  rw [getUnicodeChar_of_peek pc.advance 0x75 hp2 (by decide)]
  simp

/-- The surrogate pair: two escapes, a high and a low unit. -/
theorem parseUnicodeEscape_pair (pc : ParseCursor) (d1 d2 d3 d4 d5 d6 d7 d8 : Nat)
    (v1 v2 v3 v4 v5 v6 v7 v8 : Nat) (tl : List Nat)
    (h : pc.cur = d1 :: d2 :: d3 :: d4 :: 0x5C :: 0x75 :: d5 :: d6 :: d7 :: d8 :: tl)
    (h1 : HexDigit d1 v1) (h2 : HexDigit d2 v2) (h3 : HexDigit d3 v3) (h4 : HexDigit d4 v4)
    (h5 : HexDigit d5 v5) (h6 : HexDigit d6 v6) (h7 : HexDigit d7 v7) (h8 : HexDigit d8 v8)
    (hh : 0xD800 ≤ hexUnit v1 v2 v3 v4 ∧ hexUnit v1 v2 v3 v4 ≤ 0xDBFF) :
    ∃ pc1, ParseCursor.parseUnicodeEscape pc
      = .ok ((if ¬ (0xDC00 ≤ hexUnit v5 v6 v7 v8 ∧ hexUnit v5 v6 v7 v8 ≤ 0xDFFF) then
              replacementChar ++ replacementChar
            else utf32CharToUtf8 ((((hexUnit v1 v2 v3 v4 &&& 0x3FF) <<< 10)
              ||| (hexUnit v5 v6 v7 v8 &&& 0x3FF)) + 0x10000)), pc1) ∧ pc1.cur = tl := by
  obtain ⟨p1, e1, c1⟩ := readUnicodeEscape_hex pc d1 d2 d3 d4 v1 v2 v3 v4 _ h h1 h2 h3 h4
  obtain ⟨p2, e2, c2⟩ := tryParse_ascii_hit_cur [0x5C, 0x75] (by decide) p1
    (d5 :: d6 :: d7 :: d8 :: tl) (by rw [c1]; rfl) (NoWs_hex d5 v5 _ h5)
  obtain ⟨p3, e3, c3⟩ := readUnicodeEscape_hex p2 d5 d6 d7 d8 v5 v6 v7 v8 _ c2 h5 h6 h7 h8
  refine ⟨p3, ?_, c3⟩
  unfold ParseCursor.parseUnicodeEscape
  rw [e1]
  simp only [Result.bind_ok, hh, and_self, if_true]
  rw [e2]
  simp only [Result.bind_ok, if_true]
  rw [e3]
  simp only [Result.bind_ok]
  split <;> rfl

/-- A single escape whose unit is a surrogate, with no `\u` after it. -/
theorem parseUnicodeEscape_lone (pc : ParseCursor) (d1 d2 d3 d4 v1 v2 v3 v4 : Nat) (tl : List Nat)
    (h : pc.cur = d1 :: d2 :: d3 :: d4 :: 0x22 :: tl)
    (h1 : HexDigit d1 v1) (h2 : HexDigit d2 v2) (h3 : HexDigit d3 v3) (h4 : HexDigit d4 v4)
    (hu : 0xD800 ≤ hexUnit v1 v2 v3 v4 ∧ hexUnit v1 v2 v3 v4 ≤ 0xDFFF) :
    ∃ pc1, ParseCursor.parseUnicodeEscape pc = .ok (replacementChar, pc1) ∧
      pc1.cur = 0x22 :: tl := by
  obtain ⟨p1, e1, c1⟩ := readUnicodeEscape_hex pc d1 d2 d3 d4 v1 v2 v3 v4 _ h h1 h2 h3 h4
  have hp := peek_of_cons p1 0x22 tl (by decide) c1
  have m : ParseCursor.tryParse [0x5C, 0x75] p1 = .ok (false, p1) :=
    tryParse_miss_peek _ _ (by decide) (by rw [hp]; decide)
  refine ⟨p1, ?_, c1⟩
  unfold ParseCursor.parseUnicodeEscape
  rw [e1]
  simp only [Result.bind_ok]
  by_cases hh : hexUnit v1 v2 v3 v4 ≤ 0xDBFF
  · rw [if_pos ⟨hu.1, hh⟩, m]
    rfl
  · rw [if_neg (by omega), if_pos (by omega)]

/-- The document that is one string literal with the content `body`, when the
loop of `parseString` reads `out` from `body` and stops in front of the
closing quote. -/
theorem parseJson_string_literal {D : Type} (L : Libc D) (body out : List Nat)
    (hb : NoWs (body ++ [0x22]))
    (hloop : ∀ (fuel : Nat) (pc : ParseCursor), pc.cur = body ++ [0x22] → pc.cur.length < fuel →
      ∃ pc1, ParseCursor.parseStringLoop [0x22] fuel [] pc = .ok (out, pc1)) :
    parseJson L (0x22 :: (body ++ [0x22])) = .ok (.string out) := by
  have hsv : StartsValue (0x22 :: (body ++ [0x22])) := ⟨0x22, _, rfl, by simp⟩
  unfold parseJson
  rw [ParseCursor.new_of_startsValue _ hsv]
  simp only [Result.bind_ok]
  obtain ⟨p1, e1, c1⟩ := tryParse_byte_hit_cur 0x22 (by decide) (by decide)
    ⟨0x22 :: (body ++ [0x22]), 1, 1⟩ _ rfl hb
  obtain ⟨p2, e2⟩ := hloop (p1.cur.length + 1) p1 c1 (Nat.lt_succ_self _)
  rw [parseValue_quote L _ _ p1 e1]
  unfold ParseCursor.parseString
  rw [e2]
  rfl

/-! ## Surrogate escapes -/

theorem surrogate_formula (h l : Nat) (hh : 0xD800 ≤ h ∧ h ≤ 0xDBFF) (hl : 0xDC00 ≤ l ∧ l ≤ 0xDFFF) :
    (((h &&& 0x3FF) <<< 10) ||| (l &&& 0x3FF)) + 0x10000
      = 0x10000 + ((h - 0xD800) <<< 10) + (l - 0xDC00) := by
  have e1 : h &&& 0x3FF = h % 1024 := Nat.and_pow_two_sub_one_eq_mod h 10
  have e2 : l &&& 0x3FF = l % 1024 := Nat.and_pow_two_sub_one_eq_mod l 10
  have e3 := shift_or_gen 10 (h % 1024) (l % 1024) (Nat.mod_lt _ (by norm_num))
  rw [e1, e2, e3, Nat.shiftLeft_eq]
  norm_num
  omega

theorem parseStringLoop_pair (d1 d2 d3 d4 d5 d6 d7 d8 v1 v2 v3 v4 v5 v6 v7 v8 : Nat)
    (h1 : HexDigit d1 v1) (h2 : HexDigit d2 v2) (h3 : HexDigit d3 v3) (h4 : HexDigit d4 v4)
    (h5 : HexDigit d5 v5) (h6 : HexDigit d6 v6) (h7 : HexDigit d7 v7) (h8 : HexDigit d8 v8)
    (hh : 0xD800 ≤ hexUnit v1 v2 v3 v4 ∧ hexUnit v1 v2 v3 v4 ≤ 0xDBFF)
    (fuel : Nat) (pc : ParseCursor)
    (h : pc.cur = [0x5C, 0x75, d1, d2, d3, d4, 0x5C, 0x75, d5, d6, d7, d8] ++ [0x22])
    (hf : pc.cur.length < fuel) :
    ∃ pc1, ParseCursor.parseStringLoop [0x22] fuel [] pc
      = .ok ((if ¬ (0xDC00 ≤ hexUnit v5 v6 v7 v8 ∧ hexUnit v5 v6 v7 v8 ≤ 0xDFFF) then
              replacementChar ++ replacementChar
            else utf32CharToUtf8 ((((hexUnit v1 v2 v3 v4 &&& 0x3FF) <<< 10)
              ||| (hexUnit v5 v6 v7 v8 &&& 0x3FF)) + 0x10000)), pc1) := by
  have hlen : pc.cur.length = 13 := by rw [h]; rfl
  obtain ⟨n, rfl⟩ : ∃ n, fuel = n + 2 := ⟨fuel - 2, by omega⟩
  obtain ⟨e1, c1⟩ := parseStringLoop_unicode (n + 1) [] pc _ (by rw [h]; rfl)
  obtain ⟨p1, e2, c2⟩ := parseUnicodeEscape_pair pc.advance.advance d1 d2 d3 d4 d5 d6 d7 d8
    v1 v2 v3 v4 v5 v6 v7 v8 [0x22] c1 h1 h2 h3 h4 h5 h6 h7 h8 hh
  obtain ⟨p2, e3, _⟩ := parseStringLoop_end n
    ([] ++ (if ¬ (0xDC00 ≤ hexUnit v5 v6 v7 v8 ∧ hexUnit v5 v6 v7 v8 ≤ 0xDFFF) then
              replacementChar ++ replacementChar
            else utf32CharToUtf8 ((((hexUnit v1 v2 v3 v4 &&& 0x3FF) <<< 10)
              ||| (hexUnit v5 v6 v7 v8 &&& 0x3FF)) + 0x10000))) p1 [] c2 NoWs_nil
  refine ⟨p2, ?_⟩
  rw [e1, e2]
  simp only [Result.bind_ok]
  rw [e3]
  simp

theorem parseStringLoop_lone (d1 d2 d3 d4 v1 v2 v3 v4 : Nat)
    (h1 : HexDigit d1 v1) (h2 : HexDigit d2 v2) (h3 : HexDigit d3 v3) (h4 : HexDigit d4 v4)
    (hu : 0xD800 ≤ hexUnit v1 v2 v3 v4 ∧ hexUnit v1 v2 v3 v4 ≤ 0xDFFF)
    (fuel : Nat) (pc : ParseCursor) (h : pc.cur = [0x5C, 0x75, d1, d2, d3, d4] ++ [0x22])
    (hf : pc.cur.length < fuel) :
    ∃ pc1, ParseCursor.parseStringLoop [0x22] fuel [] pc = .ok (replacementChar, pc1) := by
  have hlen : pc.cur.length = 7 := by rw [h]; rfl
  obtain ⟨n, rfl⟩ : ∃ n, fuel = n + 2 := ⟨fuel - 2, by omega⟩
  obtain ⟨e1, c1⟩ := parseStringLoop_unicode (n + 1) [] pc _ (by rw [h]; rfl)
  obtain ⟨p1, e2, c2⟩ := parseUnicodeEscape_lone pc.advance.advance d1 d2 d3 d4
    v1 v2 v3 v4 [] c1 h1 h2 h3 h4 hu
  obtain ⟨p2, e3, _⟩ := parseStringLoop_end n ([] ++ replacementChar) p1 [] c2 NoWs_nil
  refine ⟨p2, ?_⟩
  rw [e1, e2]
  simp only [Result.bind_ok]
  rw [e3]
  simp

/-- C7. For every high surrogate `h` of 0xD800..0xDBFF and low surrogate `l` of
0xDC00..0xDFFF, each written as four hex digits of either case, `parseJson` of
the string literal `"\uHHHH\uLLLL"` returns the String that holds the UTF-8
encoding of the single codepoint `0x10000 + ((h - 0xD800) << 10) + (l - 0xDC00)`. -/
theorem C7_surrogate_pair_reassembly {D : Type} (L : Libc D)
    (d1 d2 d3 d4 d5 d6 d7 d8 v1 v2 v3 v4 v5 v6 v7 v8 : Nat)
    (h1 : HexDigit d1 v1) (h2 : HexDigit d2 v2) (h3 : HexDigit d3 v3) (h4 : HexDigit d4 v4)
    (h5 : HexDigit d5 v5) (h6 : HexDigit d6 v6) (h7 : HexDigit d7 v7) (h8 : HexDigit d8 v8)
    (hh : 0xD800 ≤ hexUnit v1 v2 v3 v4 ∧ hexUnit v1 v2 v3 v4 ≤ 0xDBFF)
    (hl : 0xDC00 ≤ hexUnit v5 v6 v7 v8 ∧ hexUnit v5 v6 v7 v8 ≤ 0xDFFF) :
    parseJson L
        (0x22 :: ([0x5C, 0x75, d1, d2, d3, d4, 0x5C, 0x75, d5, d6, d7, d8] ++ [0x22]))
      = .ok (.string (utf8Encode
          (0x10000 + ((hexUnit v1 v2 v3 v4 - 0xD800) <<< 10) + (hexUnit v5 v6 v7 v8 - 0xDC00)))) := by
  have hlt : 0x10000 + ((hexUnit v1 v2 v3 v4 - 0xD800) <<< 10) + (hexUnit v5 v6 v7 v8 - 0xDC00)
      < 0x110000 := by
    rw [Nat.shiftLeft_eq]
    norm_num
    omega
  rw [← utf32CharToUtf8_eq_utf8Encode hlt, ← surrogate_formula _ _ hh hl]
  apply parseJson_string_literal L _ _ (NoWs_cons_ascii 0x5C _ (by decide) (by decide))
  intro fuel pc hc hf
  obtain ⟨p, e⟩ := parseStringLoop_pair d1 d2 d3 d4 d5 d6 d7 d8 v1 v2 v3 v4 v5 v6 v7 v8
    h1 h2 h3 h4 h5 h6 h7 h8 hh fuel pc hc hf
  refine ⟨p, ?_⟩
  rw [e, if_neg (by simpa using hl)]

/-- C7 at `"😀"`: the string is `F0 9F 98 80`, the encoding of U+1F600. -/
theorem C7_surrogate_pair_reassembly_witness :
    parseJson Libc.text
        [0x22, 0x5C, 0x75, 0x44, 0x38, 0x33, 0x44, 0x5C, 0x75, 0x44, 0x45, 0x30, 0x30, 0x22]
      = .ok (.string [0xF0, 0x9F, 0x98, 0x80]) := by
  have h := C7_surrogate_pair_reassembly Libc.text 0x44 0x38 0x33 0x44 0x44 0x45 0x30 0x30
    13 8 3 13 13 14 0 0
    (by simp [HexDigit]) (by simp [HexDigit]) (by simp [HexDigit]) (by simp [HexDigit])
    (by simp [HexDigit]) (by simp [HexDigit]) (by simp [HexDigit]) (by simp [HexDigit])
    (by decide) (by decide)
  have e : utf8Encode (0x10000 + ((hexUnit 13 8 3 13 - 0xD800) <<< 10) + (hexUnit 13 14 0 0 - 0xDC00))
      = [0xF0, 0x9F, 0x98, 0x80] := by decide!
  rw [e] at h
  exact h

/-- C8. For every 16-bit unit of 0xD800..0xDFFF written as four hex digits,
`parseJson` of the string literal whose whole content is that one `\u` escape
returns the string that is exactly one U+FFFD (`EF BF BD`); and for every high
surrogate followed by a second `\u` escape whose unit is not in
0xDC00..0xDFFF, `parseJson` of the string literal with the two escapes returns
the string that is exactly two U+FFFD. -/
theorem C8_unresolved_surrogates_replaced {D : Type} (L : Libc D) :
    (∀ d1 d2 d3 d4 v1 v2 v3 v4 : Nat,
      HexDigit d1 v1 → HexDigit d2 v2 → HexDigit d3 v3 → HexDigit d4 v4 →
      0xD800 ≤ hexUnit v1 v2 v3 v4 ∧ hexUnit v1 v2 v3 v4 ≤ 0xDFFF →
      parseJson L (0x22 :: ([0x5C, 0x75, d1, d2, d3, d4] ++ [0x22]))
        = .ok (.string [0xEF, 0xBF, 0xBD])) ∧
    (∀ d1 d2 d3 d4 d5 d6 d7 d8 v1 v2 v3 v4 v5 v6 v7 v8 : Nat,
      HexDigit d1 v1 → HexDigit d2 v2 → HexDigit d3 v3 → HexDigit d4 v4 →
      HexDigit d5 v5 → HexDigit d6 v6 → HexDigit d7 v7 → HexDigit d8 v8 →
      0xD800 ≤ hexUnit v1 v2 v3 v4 ∧ hexUnit v1 v2 v3 v4 ≤ 0xDBFF →
      ¬ (0xDC00 ≤ hexUnit v5 v6 v7 v8 ∧ hexUnit v5 v6 v7 v8 ≤ 0xDFFF) →
      parseJson L
          (0x22 :: ([0x5C, 0x75, d1, d2, d3, d4, 0x5C, 0x75, d5, d6, d7, d8] ++ [0x22]))
        = .ok (.string [0xEF, 0xBF, 0xBD, 0xEF, 0xBF, 0xBD])) := by
  constructor
  · intro d1 d2 d3 d4 v1 v2 v3 v4 h1 h2 h3 h4 hu
    apply parseJson_string_literal L _ _ (NoWs_cons_ascii 0x5C _ (by decide) (by decide))
    intro fuel pc hc hf
    exact parseStringLoop_lone d1 d2 d3 d4 v1 v2 v3 v4 h1 h2 h3 h4 hu fuel pc hc hf
  · intro d1 d2 d3 d4 d5 d6 d7 d8 v1 v2 v3 v4 v5 v6 v7 v8 h1 h2 h3 h4 h5 h6 h7 h8 hh hl
    apply parseJson_string_literal L _ _ (NoWs_cons_ascii 0x5C _ (by decide) (by decide))
    intro fuel pc hc hf
    obtain ⟨p, e⟩ := parseStringLoop_pair d1 d2 d3 d4 d5 d6 d7 d8 v1 v2 v3 v4 v5 v6 v7 v8
      h1 h2 h3 h4 h5 h6 h7 h8 hh fuel pc hc hf
    refine ⟨p, ?_⟩
    rw [e, if_pos hl]
    rfl

/-- C8 at `"\uD800"` and at `"\uD800A"`. -/
theorem C8_unresolved_surrogates_replaced_witness :
    parseJson Libc.text [0x22, 0x5C, 0x75, 0x44, 0x38, 0x30, 0x30, 0x22]
      = .ok (.string [0xEF, 0xBF, 0xBD]) ∧
    parseJson Libc.text
        [0x22, 0x5C, 0x75, 0x44, 0x38, 0x30, 0x30, 0x5C, 0x75, 0x30, 0x30, 0x34, 0x31, 0x22]
      = .ok (.string [0xEF, 0xBF, 0xBD, 0xEF, 0xBF, 0xBD]) :=
  ⟨(C8_unresolved_surrogates_replaced Libc.text).1 0x44 0x38 0x30 0x30 13 8 0 0
      (by simp [HexDigit]) (by simp [HexDigit]) (by simp [HexDigit]) (by simp [HexDigit])
      (by decide),
   (C8_unresolved_surrogates_replaced Libc.text).2 0x44 0x38 0x30 0x30 0x30 0x30 0x34 0x31
      13 8 0 0 0 0 4 1
      (by simp [HexDigit]) (by simp [HexDigit]) (by simp [HexDigit]) (by simp [HexDigit])
      (by simp [HexDigit]) (by simp [HexDigit]) (by simp [HexDigit]) (by simp [HexDigit])
      (by decide) (by decide)⟩

/-! ## String content that is not UTF-8 -/

/-- The continuation loop consumes some `k` bytes of `s` when a byte that is
not a continuation byte follows `s`. -/
theorem readUtf8Cont_append (s post : List Nat) (hp : notCont post) : ∀ ret n : Nat,
    ∃ c k, k ≤ s.length ∧ readUtf8Cont ret n (s ++ post) = (c, s.drop k ++ post) := by
  induction s with
  | nil =>
    intro ret n
    cases post with
    | nil =>
      by_cases h : n ≠ 0 ∨ ret ≥ 0x110000
      · exact ⟨0xFFFD, 0, by simp, by simp [readUtf8Cont, h]⟩
      · exact ⟨ret, 0, by simp, by simp [readUtf8Cont, h]⟩
    | cons p post =>
      have hp1 : ¬ (0x80 ≤ p ∧ p < 0xC0) := by simpa [notCont] using hp
      by_cases h : n ≠ 0 ∨ ret ≥ 0x110000
      · exact ⟨0xFFFD, 0, by simp, by simp [readUtf8Cont, hp1, h]⟩
      · exact ⟨ret, 0, by simp, by simp [readUtf8Cont, hp1, h]⟩
  | cons b s ih =>
    intro ret n
    by_cases hb : 0x80 ≤ b ∧ b < 0xC0
    · by_cases hn : n = 0
      · exact ⟨0xFFFD, 0, by simp, by simp [readUtf8Cont, hb, hn]⟩
      · obtain ⟨c, k, hk, h1⟩ := ih ((ret <<< 6) ||| (b &&& 0x3F)) (n - 1)
        refine ⟨c, k + 1, by simpa using hk, ?_⟩
        simpa [readUtf8Cont, hb, hn] using h1
    · by_cases h : n ≠ 0 ∨ ret ≥ 0x110000
      · exact ⟨0xFFFD, 0, by simp, by simp [readUtf8Cont, hb, h]⟩
      · exact ⟨ret, 0, by simp, by simp [readUtf8Cont, hb, h]⟩

/-- On bytes `s`, not empty, followed by a byte that is not a continuation
byte, `readUtf8Char` consumes `k` bytes of `s`, at least one. -/
theorem readUtf8Char_append (s post : List Nat) (hs : s ≠ []) (hp : notCont post) :
    ∃ c k, 0 < k ∧ k ≤ s.length ∧ readUtf8Char (s ++ post) = (c, s.drop k ++ post) := by
  cases s with
  | nil => exact absurd rfl hs
  | cons b s =>
    have frame : ∀ ret n, ∃ c k, 0 < k ∧ k ≤ (b :: s).length ∧
        readUtf8Cont ret n (s ++ post) = (c, (b :: s).drop k ++ post) := by
      intro ret n
      obtain ⟨c, k, hk, h1⟩ := readUtf8Cont_append s post hp ret n
      exact ⟨c, k + 1, by omega, by simpa using hk, by simpa using h1⟩
    have one : ∀ c : Nat, ∃ c1 k, 0 < k ∧ k ≤ (b :: s).length ∧
        (c, s ++ post) = (c1, (b :: s).drop k ++ post) :=
      fun c => ⟨c, 1, by omega, by simp, by simp⟩
    simp only [readUtf8Char, List.headD_cons, List.tail_cons, List.cons_append]
    split
    · exact one _
    · split
      · exact one _
      · split
        · exact frame _ _
        · split
          · exact frame _ _
          · split
            · exact frame _ _
            · exact one _

/-- The decoder reads the quote that follows bytes none of which is zero. -/
theorem quote_mem_codepoints : ∀ (n : Nat) (content : List Nat), content.length ≤ n →
    (∀ b ∈ content, b ≠ 0) → 0x22 ∈ codepoints (content ++ [0x22]) := by
  intro n
  induction n with
  | zero =>
    intro content hl _
    have : content = [] := List.length_eq_zero.mp (by omega)
    subst this
    decide
  | succ n ih =>
    intro content hl hz
    cases content with
    | nil => decide
    | cons b t =>
      have hb : b ≠ 0 := hz b (by simp)
      obtain ⟨c, k, hk, hk2, e⟩ := readUtf8Char_append (b :: t) [0x22] (by simp)
        (by simp [notCont])
      rw [codepoints_of_head _ (by simpa using hb), e]
      apply List.mem_cons_of_mem
      apply ih
      · simp only [List.length_drop, List.length_cons] at hl hk2 ⊢
        omega
      · intro x hx
        exact hz x (List.mem_of_mem_drop hx)

theorem peek_of_head_zero (c : LineColCur) (h : c.cur.headD 0 = 0) : c.peekUnicodeChar = 0 := by
  unfold LineColCur.peekUnicodeChar readUtf8Char
  simp only [h]
  rfl

/-- The codepoints that `getUnicodeChar` returns are those of the buffer. -/
theorem Reads.codepoints {c c1 : LineColCur} {cps : List Nat} (h : Reads c cps c1) :
    codepoints c.cur = cps ++ codepoints c1.cur := by
  induction h with
  | done c => rfl
  | @step c c1 c2 cp cps hg _ ih =>
    rw [getUnicodeChar_eq] at hg
    by_cases h0 : c.peekUnicodeChar = 0
    · rw [if_pos h0] at hg
      simp [LineColCur.error] at hg
    · rw [if_neg h0] at hg
      simp only [Result.ok.injEq, Prod.mk.injEq] at hg
      obtain ⟨e1, e2⟩ := hg
      have hh : c.cur.headD 0 ≠ 0 := fun hz => h0 (peek_of_head_zero c hz)
      rw [codepoints_of_head _ hh, ← advance_cur, e2, ih]
      unfold LineColCur.peekUnicodeChar at e1
      rw [e1]
      rfl

/-- The loop of `parseString` returns when the decoder reads a quote from the
bytes at the cursor, and reads neither U+0000 nor a backslash. -/
theorem parseStringLoop_lenient : ∀ (fuel : Nat) (ret : List Nat) (pc : ParseCursor),
    pc.cur.length < fuel → 0x22 ∈ codepoints pc.cur → 0 ∉ codepoints pc.cur →
    0x5C ∉ codepoints pc.cur →
    ∃ out pc1, ParseCursor.parseStringLoop [0x22] fuel ret pc = .ok (out, pc1) := by
  intro fuel
  induction fuel with
  | zero => intro ret pc h; omega
  | succ n ih =>
    intro ret pc hl hq h0 hb
    have hh : pc.cur.headD 0 ≠ 0 := by
      intro hz
      rw [codepoints_of_head_zero _ hz] at hq
      simp at hq
    rw [codepoints_of_head _ hh] at hq h0 hb
    have hne := cur_ne_nil_of_head _ hh
    by_cases hp : pc.peekUnicodeChar = 0x22
    · obtain ⟨ws, pc1, e, _⟩ := skipWhitespace_spec pc.advance
      refine ⟨ret, pc1, ?_⟩
      unfold ParseCursor.parseStringLoop
      rw [tryParse_byte_hit 0x22 (by decide) (by decide) pc hh hp, e]
      rfl
    · have m : ParseCursor.tryParse [0x22] pc = .ok (false, pc) :=
        tryParse_miss_peek _ _ (by decide) (by
          rw [readUtf8Char_ascii (by decide)]; exact hp)
      have hp0 : pc.peekUnicodeChar ≠ 0 := fun e => h0 (by
        unfold LineColCur.peekUnicodeChar at e; rw [e]; simp)
      have hp5 : pc.peekUnicodeChar ≠ 0x5C := fun e => hb (by
        unfold LineColCur.peekUnicodeChar at e; rw [e]; simp)
      have hq1 : 0x22 ∈ codepoints pc.advance.cur := by
        rw [advance_cur]
        rcases List.mem_cons.mp hq with e | e
        · exact absurd e.symm hp
        · exact e
      have h01 : 0 ∉ codepoints pc.advance.cur := by
        rw [advance_cur]
        exact fun e => h0 (List.mem_cons_of_mem _ e)
      have hb1 : 0x5C ∉ codepoints pc.advance.cur := by
        rw [advance_cur]
        exact fun e => hb (List.mem_cons_of_mem _ e)
      have hl1 := advance_length_lt pc hne
      obtain ⟨out, pc1, e⟩ := ih (ret ++ utf32CharToUtf8 pc.peekUnicodeChar) pc.advance
        (by omega) hq1 h01 hb1
      refine ⟨out, pc1, ?_⟩
      unfold ParseCursor.parseStringLoop
      rw [m]
      simp only [Result.bind_ok, Bool.false_eq_true, if_false]
      rw [getUnicodeChar_of_peek pc _ rfl hp0]
      simp only [Result.bind_ok, if_neg hp5]
      exact e

/-- C2, as stated, fails. The bytes `C0 80` are non-zero and neither is 0x22
or 0x5C, but on the document quote, `C0 80`, quote `parseJson` throws
`Unexpected end of file (row 1, column 2)`: the decoder reads `C0 80` as the
codepoint U+0000, which `getUnicodeChar` takes for the end of the text. -/
theorem C2_overlong_zero_aborts :
    (∀ b ∈ [0xC0, 0x80], b ≠ 0 ∧ b ≠ 0x22 ∧ b ≠ 0x5C) ∧
    parseJson Libc.text (0x22 :: ([0xC0, 0x80] ++ [0x22]))
      = .error (.atPosition "Unexpected end of file" 1 2) := by
  constructor
  · decide
  · exact parseJson_error_of_text Libc.text _ _ (by decide!)

/-- C2, amended. For every document made of an opening quote, a sequence of
non-zero bytes (well-formed UTF-8 or not) from which, followed by the closing
quote, `readUtf8Char` reads neither the codepoint U+0000 nor the codepoint
U+005C, and a closing quote, `parseJson` returns a String. -/
theorem C2_malformed_bytes_do_not_abort {D : Type} (L : Libc D) (content : List Nat)
    (hz : ∀ b ∈ content, b ≠ 0)
    (h0 : 0 ∉ codepoints (content ++ [0x22]))
    (hb : 0x5C ∉ codepoints (content ++ [0x22])) :
    ∃ s, parseJson L (0x22 :: (content ++ [0x22])) = .ok (.string s) := by
  have hsv : StartsValue (0x22 :: (content ++ [0x22])) := ⟨0x22, _, rfl, by simp⟩
  have hq := quote_mem_codepoints content.length content (le_refl _) hz
  obtain ⟨hp, ha⟩ := peek_advance_ascii ⟨0x22 :: (content ++ [0x22]), 1, 1⟩ 0x22
    (content ++ [0x22]) (by decide) rfl
  obtain ⟨ws, pc1, e, r, hws, _⟩ :=
    skipWhitespace_spec (LineColCur.advance ⟨0x22 :: (content ++ [0x22]), 1, 1⟩)
  have hc := r.codepoints
  rw [ha] at hc
  rw [hc] at hq h0 hb
  have hq1 : 0x22 ∈ codepoints pc1.cur := by
    rcases List.mem_append.mp hq with m | m
    · have := hws _ m
      simp [isJsonWhitespace] at this
    · exact m
  obtain ⟨out, pc2, e2⟩ := parseStringLoop_lenient (pc1.cur.length + 1) [] pc1
    (Nat.lt_succ_self _) hq1 (fun m => h0 (List.mem_append_right _ m))
    (fun m => hb (List.mem_append_right _ m))
  have e1 : ParseCursor.tryParse [0x22] ⟨0x22 :: (content ++ [0x22]), 1, 1⟩ = .ok (true, pc1) := by
    rw [tryParse_byte_hit 0x22 (by decide) (by decide) _ (by simp) hp, e]
    rfl
  refine ⟨out, ?_⟩
  unfold parseJson
  rw [ParseCursor.new_of_startsValue _ hsv]
  simp only [Result.bind_ok]
  rw [parseValue_quote L _ _ pc1 e1]
  unfold ParseCursor.parseString
  rw [e2]
  rfl

/-- C2, amended, at the content `FF 80 41 C3`: an invalid byte, a stray
continuation byte, `A`, and a leading byte with no continuation byte. -/
theorem C2_malformed_bytes_do_not_abort_witness :
    ∃ s, parseJson Libc.text (0x22 :: ([0xFF, 0x80, 0x41, 0xC3] ++ [0x22])) = .ok (.string s) :=
  C2_malformed_bytes_do_not_abort Libc.text [0xFF, 0x80, 0x41, 0xC3] (by decide) (by decide!)
    (by decide!)

/-! ## The order of the keys and the assignment to a map -/

theorem stringLess_irrefl : ∀ a : List Nat, stringLess a a = false
  | [] => rfl
  | a :: as => by
    simp only [stringLess, lt_self_iff_false, if_false]
    exact stringLess_irrefl as

theorem stringLess_trans : ∀ a b c : List Nat,
    stringLess a b = true → stringLess b c = true → stringLess a c = true
  | [], [], _, h, _ => by simp [stringLess] at h
  | [], _ :: _, [], _, h => by simp [stringLess] at h
  | [], _ :: _, _ :: _, _, _ => rfl
  | _ :: _, [], _, h, _ => by simp [stringLess] at h
  | _ :: _, _ :: _, [], _, h => by simp [stringLess] at h
  | x :: xs, y :: ys, z :: zs, h1, h2 => by
    simp only [stringLess] at h1 h2 ⊢
    by_cases hxy : x < y
    · by_cases hyz : y < z
      · rw [if_pos (by omega)]
      · rw [if_neg hyz] at h2
        by_cases hzy : z < y
        · rw [if_pos hzy] at h2; simp at h2
        · rw [if_pos (by omega)]
    · rw [if_neg hxy] at h1
      by_cases hyx : y < x
      · rw [if_pos hyx] at h1; simp at h1
      · rw [if_neg hyx] at h1
        have e : x = y := by omega
        subst e
        by_cases hyz : x < z
        · rw [if_pos hyz]
        · rw [if_neg hyz] at h2 ⊢
          by_cases hzy : z < x
          · rw [if_pos hzy] at h2; simp at h2
          · rw [if_neg hzy] at h2 ⊢
            exact stringLess_trans xs ys zs h1 h2

theorem stringLess_total : ∀ a b : List Nat,
    stringLess a b = false → stringLess b a = false → a = b
  | [], [], _, _ => rfl
  | [], _ :: _, h, _ => by simp [stringLess] at h
  | _ :: _, [], _, h => by simp [stringLess] at h
  | x :: xs, y :: ys, h1, h2 => by
    simp only [stringLess] at h1 h2
    by_cases hxy : x < y
    · rw [if_pos hxy] at h1; simp at h1
    · rw [if_neg hxy] at h1
      by_cases hyx : y < x
      · rw [if_pos hyx] at h2; simp at h2
      · rw [if_neg hyx] at h1 h2
        rw [if_neg hxy] at h2
        have e : x = y := by omega
        rw [e, stringLess_total xs ys h1 h2]

/-- The order of the map is the lexicographic order of the bytes. -/
theorem stringLess_iff_lex : ∀ a b : List Nat,
    stringLess a b = true ↔ List.Lex (fun x y : Nat => x < y) a b
  | [], [] => by simp [stringLess]
  | [], _ :: _ => by
    simp only [stringLess, true_iff]
    exact List.Lex.nil
  | _ :: _, [] => by simp [stringLess]
  | x :: xs, y :: ys => by
    simp only [stringLess]
    by_cases hxy : x < y
    · rw [if_pos hxy]
      simp only [true_iff]
      exact List.Lex.rel hxy
    · rw [if_neg hxy]
      by_cases hyx : y < x
      · rw [if_pos hyx]
        simp only [Bool.false_eq_true, false_iff]
        intro h
        cases h with
        | cons h => omega
        | rel h => omega
      · rw [if_neg hyx]
        have e : x = y := by omega
        subst e
        rw [stringLess_iff_lex xs ys]
        constructor
        · intro h; exact List.Lex.cons h
        · intro h
          cases h with
          | cons h => exact h
          | rel h => omega

theorem assign_keys {D : Type} (k : List Nat) (v : JSONValue D) (x : List Nat) :
    ∀ o : JSONObject D, x ∈ (JSONObject.assign k v o).map Prod.fst ↔ x = k ∨ x ∈ o.map Prod.fst
  | [] => by simp [JSONObject.assign]
  | (k1, w) :: rest => by
    unfold JSONObject.assign
    by_cases h1 : stringLess k k1 = true
    · rw [if_pos h1]; simp
    · rw [if_neg h1]
      by_cases h2 : stringLess k1 k = true
      · rw [if_pos h2]
        simp only [List.map_cons, List.mem_cons, assign_keys k v x rest]
        tauto
      · rw [if_neg h2]
        have e : k = k1 := stringLess_total k k1 (by simpa using h1) (by simpa using h2)
        subst e
        simp

theorem mem_assign_self {D : Type} (k : List Nat) (v : JSONValue D) :
    ∀ o : JSONObject D, (k, v) ∈ JSONObject.assign k v o
  | [] => by simp [JSONObject.assign]
  | (k1, w) :: rest => by
    unfold JSONObject.assign
    by_cases h1 : stringLess k k1 = true
    · rw [if_pos h1]; simp
    · rw [if_neg h1]
      by_cases h2 : stringLess k1 k = true
      · rw [if_pos h2]
        exact List.mem_cons_of_mem _ (mem_assign_self k v rest)
      · rw [if_neg h2]
        have e : k = k1 := stringLess_total k k1 (by simpa using h1) (by simpa using h2)
        subst e
        simp

theorem mem_assign_of_ne {D : Type} (k : List Nat) (v : JSONValue D) (p : List Nat × JSONValue D)
    (hne : p.1 ≠ k) : ∀ o : JSONObject D, p ∈ JSONObject.assign k v o ↔ p ∈ o
  | [] => by
    simp only [JSONObject.assign, List.mem_singleton, List.not_mem_nil, iff_false]
    intro e; exact hne (by rw [e])
  | (k1, w) :: rest => by
    unfold JSONObject.assign
    by_cases h1 : stringLess k k1 = true
    · rw [if_pos h1]
      simp only [List.mem_cons]
      constructor
      · rintro (e | e)
        · exact absurd (by rw [e]) hne
        · exact e
      · intro e; exact Or.inr e
    · rw [if_neg h1]
      by_cases h2 : stringLess k1 k = true
      · rw [if_pos h2]
        simp only [List.mem_cons, mem_assign_of_ne k v p hne rest]
      · rw [if_neg h2]
        have e : k = k1 := stringLess_total k k1 (by simpa using h1) (by simpa using h2)
        subst e
        simp only [List.mem_cons]
        constructor
        · rintro (e | e)
          · exact absurd (by rw [e]) hne
          · exact Or.inr e
        · rintro (e | e)
          · exact absurd (by rw [e]) hne
          · exact Or.inr e

theorem assign_ascending {D : Type} (k : List Nat) (v : JSONValue D) :
    ∀ o : JSONObject D, JSONObject.Ascending o → JSONObject.Ascending (JSONObject.assign k v o)
  | [], _ => by simp [JSONObject.assign, JSONObject.Ascending]
  | (k1, w) :: rest, h => by
    unfold JSONObject.Ascending at h ⊢
    rw [List.pairwise_cons] at h
    obtain ⟨ha, hr⟩ := h
    unfold JSONObject.assign
    by_cases h1 : stringLess k k1 = true
    · rw [if_pos h1, List.pairwise_cons]
      refine ⟨?_, List.pairwise_cons.mpr ⟨ha, hr⟩⟩
      intro y hy
      rcases List.mem_cons.mp hy with e | e
      · rw [e]; exact h1
      · exact stringLess_trans _ _ _ h1 (ha y e)
    · rw [if_neg h1]
      by_cases h2 : stringLess k1 k = true
      · rw [if_pos h2, List.pairwise_cons]
        refine ⟨?_, assign_ascending k v rest hr⟩
        intro y hy
        have hk : y.1 ∈ (JSONObject.assign k v rest).map Prod.fst := List.mem_map_of_mem _ hy
        rcases (assign_keys k v y.1 rest).mp hk with e | e
        · rw [e]; exact h2
        · obtain ⟨z, hz, ez⟩ := List.mem_map.mp e
          rw [← ez]; exact ha z hz
      · rw [if_neg h2, List.pairwise_cons]
        exact ⟨ha, hr⟩

theorem ascending_nodup {D : Type} (o : JSONObject D) (h : JSONObject.Ascending o) :
    (o.map Prod.fst).Nodup := by
  unfold JSONObject.Ascending at h
  rw [List.Nodup, List.pairwise_map]
  refine h.imp ?_
  intro a b hab e
  rw [e, stringLess_irrefl] at hab
  simp at hab

theorem assignAll_append {D : Type} (c : JSONObject D) (ms : List (List Nat × JSONValue D))
    (k : List Nat) (v : JSONValue D) :
    JSONObject.assignAll c (ms ++ [(k, v)]) = JSONObject.assign k v (JSONObject.assignAll c ms) := by
  simp [JSONObject.assignAll, List.foldl_append]

theorem assignAll_ascending {D : Type} : ∀ (ms : List (List Nat × JSONValue D)) (c : JSONObject D),
    JSONObject.Ascending c → JSONObject.Ascending (JSONObject.assignAll c ms)
  | [], _, h => h
  | p :: ms, c, h => assignAll_ascending ms _ (assign_ascending p.1 p.2 c h)

theorem assignAll_keys {D : Type} (x : List Nat) : ∀ (ms : List (List Nat × JSONValue D))
    (c : JSONObject D),
    x ∈ (JSONObject.assignAll c ms).map Prod.fst ↔ x ∈ c.map Prod.fst ∨ x ∈ ms.map Prod.fst
  | [], c => by simp [JSONObject.assignAll]
  | p :: ms, c => by
    have h := assignAll_keys x ms (JSONObject.assign p.1 p.2 c)
    simp only [JSONObject.assignAll, List.foldl_cons] at h ⊢
    rw [h, assign_keys]
    simp only [List.map_cons, List.mem_cons]
    tauto

theorem mem_assignAll_of_mem {D : Type} (p : List Nat × JSONValue D) :
    ∀ (ms : List (List Nat × JSONValue D)) (c : JSONObject D),
    p ∈ c → p.1 ∉ ms.map Prod.fst → p ∈ JSONObject.assignAll c ms
  | [], _, h, _ => h
  | q :: ms, c, h, hn => by
    simp only [List.map_cons, List.mem_cons, not_or] at hn
    exact mem_assignAll_of_mem p ms _ ((mem_assign_of_ne q.1 q.2 p hn.1 c).mpr h) hn.2

/-- The map holds, for a key, the value of the last assignment to it. -/
theorem assignAll_last {D : Type} (c : JSONObject D) (pre post : List (List Nat × JSONValue D))
    (k : List Nat) (v : JSONValue D) (hn : k ∉ post.map Prod.fst) :
    (k, v) ∈ JSONObject.assignAll c (pre ++ (k, v) :: post) := by
  have e : JSONObject.assignAll c (pre ++ (k, v) :: post)
      = JSONObject.assignAll (JSONObject.assign k v (JSONObject.assignAll c pre)) post := by
    simp [JSONObject.assignAll, List.foldl_append]
  rw [e]
  exact mem_assignAll_of_mem (k, v) post _ (mem_assign_self k v _) hn

/-- Entries of a map that is filled with pairs of distinct keys: the pairs. -/
theorem mem_assignAll_nodup {D : Type} (ms : List (List Nat × JSONValue D))
    (hd : (ms.map Prod.fst).Nodup) (p : List Nat × JSONValue D) :
    p ∈ JSONObject.assignAll [] ms ↔ p ∈ ms := by
  constructor
  · intro h
    have hk : p.1 ∈ (JSONObject.assignAll [] ms).map Prod.fst := List.mem_map_of_mem _ h
    rw [assignAll_keys] at hk
    simp only [List.map_nil, List.not_mem_nil, false_or] at hk
    obtain ⟨q, hq, eq⟩ := List.mem_map.mp hk
    obtain ⟨pre, post, rfl⟩ := List.append_of_mem hq
    have hn : q.1 ∉ post.map Prod.fst := by
      rw [List.map_append, List.map_cons] at hd
      have := (List.nodup_append.mp hd).2.1
      exact (List.nodup_cons.mp this).1
    have hq2 := assignAll_last ([] : JSONObject D) pre post q.1 q.2 hn
    have hnd := ascending_nodup _ (assignAll_ascending (pre ++ q :: post) ([] : JSONObject D)
      (by simp [JSONObject.Ascending]))
    have : p = q := by
      have inj := List.inj_on_of_nodup_map hnd h hq2
      exact inj eq.symm
    rw [this]; exact hq
  · intro h
    obtain ⟨pre, post, rfl⟩ := List.append_of_mem h
    have hn : p.1 ∉ post.map Prod.fst := by
      rw [List.map_append, List.map_cons] at hd
      have := (List.nodup_append.mp hd).2.1
      exact (List.nodup_cons.mp this).1
    exact assignAll_last ([] : JSONObject D) pre post p.1 p.2 hn

/-- A map does not depend on the order in which pairs of distinct keys are
assigned to it. -/
theorem assignAll_perm {D : Type} (ms1 ms2 : List (List Nat × JSONValue D))
    (hd : (ms1.map Prod.fst).Nodup) (hp : ms1.Perm ms2) :
    JSONObject.assignAll [] ms1 = JSONObject.assignAll [] ms2 := by
  have hd2 : (ms2.map Prod.fst).Nodup := (hp.map Prod.fst).nodup_iff.mp hd
  have a1 := assignAll_ascending ms1 ([] : JSONObject D) (by simp [JSONObject.Ascending])
  have a2 := assignAll_ascending ms2 ([] : JSONObject D) (by simp [JSONObject.Ascending])
  have n1 := (ascending_nodup _ a1).of_map
  have n2 := (ascending_nodup _ a2).of_map
  have pm : (JSONObject.assignAll [] ms1).Perm (JSONObject.assignAll [] ms2) := by
    rw [List.perm_ext_iff_of_nodup n1 n2]
    intro p
    rw [mem_assignAll_nodup ms1 hd, mem_assignAll_nodup ms2 hd2]
    exact hp.mem_iff
  unfold JSONObject.Ascending at a1 a2
  have asymm : ∀ x y : List Nat × JSONValue D,
      stringLess x.1 y.1 = true → stringLess y.1 x.1 = true → x = y := by
    intro x y h1 h2
    rw [stringLess_asymm _ _ h1] at h2
    simp at h2
  haveI : IsAntisymm (List Nat × JSONValue D) (fun x y => stringLess x.1 y.1 = true) := ⟨asymm⟩
  exact List.eq_of_perm_of_sorted pm a1 a2

/-! ## Keys of an object document -/

/-- C4 at its failing input. The members of the object document
`{" a":1,"a":2}` have the two distinct keys ` a` (a space, then `a`) and `a`,
but `parseJson` returns the Object with the one key `a`, mapped to the Number
that `strtod` returns for the text `2`: the space that begins the first key is
dropped, so the second member overwrites the first.  `parseJson` of
`{"a":1,"a":2}` returns the same Object. -/
theorem C4_key_with_leading_space_is_merged {D : Type} (L : Libc D) :
    parseJson L
        [0x7B, 0x22, 0x20, 0x61, 0x22, 0x3A, 0x31, 0x2C, 0x22, 0x61, 0x22, 0x3A, 0x32, 0x7D]
      = .ok (.object [([0x61], .number (L.strtod [0x32]))]) ∧
    parseJson L [0x7B, 0x22, 0x61, 0x22, 0x3A, 0x31, 0x2C, 0x22, 0x61, 0x22, 0x3A, 0x32, 0x7D]
      = .ok (.object [([0x61], .number (L.strtod [0x32]))]) :=
  ⟨parseJson_of_text L _ (.object [([0x61], .number [0x32])]) (by decide!),
   parseJson_of_text L _ (.object [([0x61], .number [0x32])]) (by decide!)⟩

/-! ## The text of a number -/

/-- C14 at its failing input. For a `double` `x` that is neither infinite nor
NaN and for which `snprintf` writes the text `-0` (negative zero),
`encodeJson` returns `-0`, and `parseJson` of `-0` returns the Number that
`strtod` returns for the text `-`: `parseNumber` matches the digit `0` with
`tryParse` and does not append it to `num`. -/
theorem C14_negative_zero_is_read_from_a_minus {D : Type} (L : Libc D) (x : D)
    (hi : L.isinf x = false) (hn : L.isnan x = false) (hx : L.snprintf17g x = [0x2D, 0x30]) :
    encodeJson L (.number x) = .ok [0x2D, 0x30] ∧
    parseJson L [0x2D, 0x30] = .ok (.number (L.strtod [0x2D])) := by
  constructor
  · simp [encodeJson, encodeJsonValue, encodeNumber, hi, hn, hx]
  · exact parseJson_of_text L _ (.number [0x2D]) (by decide!)

/-- C14 at the stand-in C library whose `double` is its text: the Number `-0`
is written as `-0` and read back as the Number `-`. -/
theorem C14_negative_zero_is_read_from_a_minus_witness :
    encodeJson Libc.text (.number [0x2D, 0x30]) = .ok [0x2D, 0x30] ∧
    parseJson Libc.text [0x2D, 0x30] = .ok (.number [0x2D]) :=
  C14_negative_zero_is_read_from_a_minus Libc.text [0x2D, 0x30] rfl rfl rfl

/-! ## Every object that the parser returns is a map; the serializer follows its order -/

theorem SortedKeysMembers_assign {D : Type} (name : List Nat) (v : JSONValue D)
    (c : JSONObject D) (hc : JSONValue.SortedKeysMembers c) (hv : JSONValue.SortedKeys v) :
    JSONValue.SortedKeysMembers (JSONObject.assign name v c) := by
  induction c with
  | nil => exact ⟨hv, trivial⟩
  | cons kw rest ih =>
    obtain ⟨k, w⟩ := kw
    obtain ⟨hw, hrest⟩ := hc
    simp only [JSONObject.assign]
    split
    · exact ⟨hv, hw, hrest⟩
    · split
      · exact ⟨hw, ih hrest⟩
      · exact ⟨hv, hrest⟩

theorem SortedKeysElements_append {D : Type} (a : JSONArray D) (v : JSONValue D)
    (ha : JSONValue.SortedKeysElements a) (hv : JSONValue.SortedKeys v) :
    JSONValue.SortedKeysElements (a ++ [v]) := by
  induction a with
  | nil => exact ⟨hv, trivial⟩
  | cons x rest ih => exact ⟨ha.1, ih ha.2⟩

theorem parse_sorted {D : Type} (L : Libc D) : ∀ fuel : Nat,
    (∀ pc, Result.Sat (fun r => JSONValue.SortedKeys r.1) (parseValue L fuel pc)) ∧
    (∀ c first pc, JSONObject.Ascending c → JSONValue.SortedKeysMembers c →
      Result.Sat (fun r => JSONObject.Ascending r.1 ∧ JSONValue.SortedKeysMembers r.1)
        (parseObjectLoop L fuel c first pc)) ∧
    (∀ a first pc, JSONValue.SortedKeysElements a →
      Result.Sat (fun r => JSONValue.SortedKeysElements r.1)
        (parseArrayLoop L fuel a first pc)) := by
  intro fuel
  induction fuel with
  | zero => exact ⟨fun _ => trivial, fun _ _ _ _ _ => trivial, fun _ _ _ _ => trivial⟩
  | succ n ih =>
    obtain ⟨ihv, iho, iha⟩ := ih
    refine ⟨fun pc => ?_, fun c first pc hc hs => ?_, fun a first pc ha => ?_⟩
    · unfold parseValue
      refine Result.Sat.bind_any (fun t1 => ?_)
      split
      · cases parseString t1.2 <;> trivial
      refine Result.Sat.bind_any (fun t2 => ?_)
      split
      · exact (iho [] true _ (by simp [JSONObject.Ascending]) trivial).map_sat (fun r hr => hr)
      refine Result.Sat.bind_any (fun t3 => ?_)
      split
      · exact (iha [] true _ trivial).map_sat (fun r hr => hr)
      refine Result.Sat.bind_any (fun t4 => ?_)
      split
      · trivial
      refine Result.Sat.bind_any (fun t5 => ?_)
      split
      · trivial
      refine Result.Sat.bind_any (fun t6 => ?_)
      split
      · trivial
      split
      · trivial
      split
      · cases parseNumber L t6.2 <;> trivial
      · trivial
    · unfold parseObjectLoop
      refine Result.Sat.bind_any (fun t => ?_)
      split
      · exact ⟨hc, hs⟩
      refine Result.Sat.bind_any (fun pc1 => ?_)
      refine Result.Sat.bind_any (fun t2 => ?_)
      split
      · trivial
      refine Result.Sat.bind_any (fun name => ?_)
      refine Result.Sat.bind_any (fun t3 => ?_)
      split
      · trivial
      refine Result.Sat.bind_sat (ihv _) (fun v hv => ?_)
      exact iho _ _ _ (assign_ascending _ _ _ hc) (SortedKeysMembers_assign _ _ _ hs hv)
    · unfold parseArrayLoop
      refine Result.Sat.bind_any (fun t => ?_)
      split
      · exact ha
      refine Result.Sat.bind_any (fun pc1 => ?_)
      refine Result.Sat.bind_sat (ihv _) (fun v hv => ?_)
      exact iha _ _ _ (SortedKeysElements_append _ _ ha hv)

theorem parseJson_sorted {D : Type} (L : Libc D) (text : List Nat) (v : JSONValue D)
    (h : parseJson L text = .ok v) : JSONValue.SortedKeys v := by
  unfold parseJson at h
  cases hn : ParseCursor.new text with
  | error e => rw [hn] at h; cases h
  | outOfFuel => rw [hn] at h; cases h
  | ok pc =>
    rw [hn] at h
    simp only [Result.bind_ok] at h
    have hs := (parse_sorted L (2 * text.length + 1)).1 pc
    cases hv : parseValue L (2 * text.length + 1) pc with
    | error e => rw [hv] at h; cases h
    | outOfFuel => rw [hv] at h; cases h
    | ok r =>
      rw [hv] at h hs
      simp only [Result.map_ok, Result.ok.injEq] at h
      rw [← h]
      exact hs

theorem intercalate_cons (sep x : List Nat) (xs : List (List Nat)) :
    List.intercalate sep (x :: xs) = x ++ xs.flatMap (fun y => sep ++ y) := by
  induction xs generalizing x with
  | nil => simp [List.intercalate, List.intersperse]
  | cons y ys ih =>
    have e := ih y
    simp only [List.intercalate, List.intersperse, List.flatten_cons, List.flatMap_cons] at e ⊢
    rw [e]
    simp

/-- The loop of `encodeObject` writes the entries in the order of the list,
each as the key, a colon and the value, a comma before each but the first. -/
theorem encodeObjectLoop_order {D : Type} (L : Libc D) :
    ∀ (o : List (List Nat × JSONValue D)) (first : Bool) (rs : List Nat),
    encodeObjectLoop L first o = .ok rs →
    ∃ pieces : List (List Nat),
      List.Forall₂ (fun p piece => ∃ ks vs, encodeString p.1 = .ok ks ∧
        encodeJsonValue L p.2 = .ok vs ∧ piece = ks ++ [0x3A] ++ vs) o pieces ∧
      rs = if first then List.intercalate [0x2C] pieces
           else pieces.flatMap (fun y => [0x2C] ++ y)
  | [], first, rs, h => by
    simp only [encodeObjectLoop, Result.ok.injEq] at h
    refine ⟨[], List.Forall₂.nil, ?_⟩
    rw [← h]
    cases first <;> simp [List.intercalate, List.intersperse]
  | (k, v) :: rest, first, rs, h => by
    simp only [encodeObjectLoop] at h
    cases hk : encodeString k with
    | error e => rw [hk] at h; cases h
    | outOfFuel => rw [hk] at h; cases h
    | ok ks =>
      rw [hk] at h
      simp only [Result.bind_ok] at h
      cases hv : encodeJsonValue L v with
      | error e => rw [hv] at h; cases h
      | outOfFuel => rw [hv] at h; cases h
      | ok vs =>
        rw [hv] at h
        simp only [Result.bind_ok] at h
        cases hr : encodeObjectLoop L false rest with
        | error e => rw [hr] at h; cases h
        | outOfFuel => rw [hr] at h; cases h
        | ok rrs =>
          rw [hr] at h
          simp only [Result.map_ok, Result.ok.injEq] at h
          obtain ⟨pieces, hf, e⟩ := encodeObjectLoop_order L rest false rrs hr
          simp only [Bool.false_eq_true, if_false] at e
          refine ⟨(ks ++ [0x3A] ++ vs) :: pieces, List.Forall₂.cons ⟨ks, vs, hk, hv, rfl⟩ hf, ?_⟩
          rw [← h, e]
          cases first
          · simp
          · simp [intercalate_cons]

theorem encodeStringLoop_returns : ∀ (fuel : Nat) (cur ss : List Nat), cur.length < fuel →
    ∃ out, encodeStringLoop fuel cur ss = .ok out := by
  intro fuel
  induction fuel with
  | zero => intro cur ss h; omega
  | succ n ih =>
    intro cur ss h
    unfold encodeStringLoop
    by_cases h0 : cur.headD 0 = 0
    · rw [if_pos h0]; exact ⟨ss, rfl⟩
    · rw [if_neg h0]
      have hl := readUtf8Char_length_lt cur (cur_ne_nil_of_head cur h0)
      exact ih _ _ (by omega)

theorem encodeString_returns (str : List Nat) : ∃ out, encodeString str = .ok out := by
  obtain ⟨ss, e⟩ := encodeStringLoop_returns (str.length + 1) str [] (Nat.lt_succ_self _)
  unfold encodeString
  rw [e]
  exact ⟨_, rfl⟩

mutual
/-- The serializer writes a text or throws: no loop of it runs on. -/
theorem encodeJsonValue_ends {D : Type} (L : Libc D) :
    ∀ v : JSONValue D, encodeJsonValue L v ≠ .outOfFuel
  | .null => by simp [encodeJsonValue]
  | .string s => by
      obtain ⟨out, e⟩ := encodeString_returns s
      simp [encodeJsonValue, e]
  | .number d => by
      simp only [encodeJsonValue, encodeNumber]
      split
      · simp
      · split <;> simp
  | .object o => by
      have h := encodeObjectLoop_ends L true o
      simp only [encodeJsonValue]
      cases hr : encodeObjectLoop L true o with
      | ok a => simp
      | error e => simp
      | outOfFuel => exact absurd hr h
  | .array a => by
      have h := encodeArrayLoop_ends L true a
      simp only [encodeJsonValue]
      cases hr : encodeArrayLoop L true a with
      | ok a => simp
      | error e => simp
      | outOfFuel => exact absurd hr h
  | .boolean b => by simp [encodeJsonValue]
theorem encodeObjectLoop_ends {D : Type} (L : Libc D) :
    ∀ (first : Bool) (o : List (List Nat × JSONValue D)), encodeObjectLoop L first o ≠ .outOfFuel
  | _, [] => by simp [encodeObjectLoop]
  | first, (k, v) :: rest => by
      obtain ⟨ks, e⟩ := encodeString_returns k
      have hv := encodeJsonValue_ends L v
      have hr := encodeObjectLoop_ends L false rest
      simp only [encodeObjectLoop, e, Result.bind_ok]
      cases h1 : encodeJsonValue L v with
      | ok vs =>
        simp only [Result.bind_ok]
        cases h2 : encodeObjectLoop L false rest with
        | ok rs => simp
        | error e => simp
        | outOfFuel => exact absurd h2 hr
      | error e => simp [Result.bind]
      | outOfFuel => exact absurd h1 hv
theorem encodeArrayLoop_ends {D : Type} (L : Libc D) :
    ∀ (first : Bool) (a : List (JSONValue D)), encodeArrayLoop L first a ≠ .outOfFuel
  | _, [] => by simp [encodeArrayLoop]
  | first, v :: rest => by
      have hv := encodeJsonValue_ends L v
      have hr := encodeArrayLoop_ends L false rest
      simp only [encodeArrayLoop]
      cases h1 : encodeJsonValue L v with
      | ok vs =>
        simp only [Result.bind_ok]
        cases h2 : encodeArrayLoop L false rest with
        | ok rs => simp
        | error e => simp
        | outOfFuel => exact absurd h2 hr
      | error e => simp [Result.bind]
      | outOfFuel => exact absurd h1 hv
end

/-- C5. An Object value is a `std::map`: whatever pairs are assigned to it, in
whatever order, its entries are kept in strictly ascending order of the keys
(so each key is there once), the order is the lexicographic order of the bytes,
and the map does not depend on the order of the assignments when the keys are
distinct; every Object in a value that `parseJson` returns is such a map;
`encodeJson` of an Object writes, between the braces, the entries in the order
of the map, each as its key, a colon and its value, separated by commas; and
`encodeJson` writes a text or throws, whatever the value. -/
theorem C5_canonical_key_order {D : Type} (L : Libc D) :
    (∀ ms : List (List Nat × JSONValue D),
      JSONObject.Ascending (JSONObject.assignAll [] ms) ∧
      ((JSONObject.assignAll [] ms).map Prod.fst).Nodup) ∧
    (∀ a b : List Nat, stringLess a b = true ↔ List.Lex (fun x y : Nat => x < y) a b) ∧
    (∀ ms1 ms2 : List (List Nat × JSONValue D), (ms1.map Prod.fst).Nodup → ms1.Perm ms2 →
      JSONObject.assignAll [] ms1 = JSONObject.assignAll [] ms2) ∧
    (∀ (text : List Nat) (v : JSONValue D), parseJson L text = .ok v → JSONValue.SortedKeys v) ∧
    (∀ (o : JSONObject D) (text : List Nat), encodeJson L (.object o) = .ok text →
      ∃ pieces : List (List Nat),
        List.Forall₂ (fun p piece => ∃ ks vs, encodeString p.1 = .ok ks ∧
          encodeJsonValue L p.2 = .ok vs ∧ piece = ks ++ [0x3A] ++ vs) o pieces ∧
        text = [0x7B] ++ List.intercalate [0x2C] pieces ++ [0x7D]) ∧
    (∀ v : JSONValue D, encodeJson L v ≠ .outOfFuel) := by
  refine ⟨fun ms => ?_, stringLess_iff_lex, assignAll_perm, parseJson_sorted L,
    fun o text h => ?_, encodeJsonValue_ends L⟩
  · have ha := assignAll_ascending ms ([] : JSONObject D) (by simp [JSONObject.Ascending])
    exact ⟨ha, ascending_nodup _ ha⟩
  · simp only [encodeJson, encodeJsonValue] at h
    cases hr : encodeObjectLoop L true o with
    | error e => rw [hr] at h; cases h
    | outOfFuel => rw [hr] at h; cases h
    | ok rs =>
      rw [hr] at h
      simp only [Result.map_ok, Result.ok.injEq] at h
      obtain ⟨pieces, hf, e⟩ := encodeObjectLoop_order L o true rs hr
      simp only [if_true] at e
      exact ⟨pieces, hf, by rw [← h, e]⟩

/-- C5 at `{"b":1,"a":2}`: the parsed Object lists `a` before `b`, and
`encodeJson` writes `{"a":2,"b":1}`. -/
theorem C5_canonical_key_order_witness :
    JSONValue.SortedKeys
      (JSONValue.object [(([0x61] : List Nat), JSONValue.number [0x32]),
        ([0x62], .number [0x31])]) ∧
    parseJson Libc.text
        [0x7B, 0x22, 0x62, 0x22, 0x3A, 0x31, 0x2C, 0x22, 0x61, 0x22, 0x3A, 0x32, 0x7D]
      = .ok (.object [([0x61], .number [0x32]), ([0x62], .number [0x31])]) ∧
    encodeJson Libc.text (.object [([0x61], .number [0x32]), ([0x62], .number [0x31])])
      = .ok [0x7B, 0x22, 0x61, 0x22, 0x3A, 0x32, 0x2C, 0x22, 0x62, 0x22, 0x3A, 0x31, 0x7D] :=
  ⟨(C5_canonical_key_order Libc.text).2.2.2.1
      [0x7B, 0x22, 0x62, 0x22, 0x3A, 0x31, 0x2C, 0x22, 0x61, 0x22, 0x3A, 0x32, 0x7D] _
      (parseJson_of_text Libc.text _
        (.object [([0x61], .number [0x32]), ([0x62], .number [0x31])]) (by decide!)),
    parseJson_of_text Libc.text _
      (.object [([0x61], .number [0x32]), ([0x62], .number [0x31])]) (by decide!),
    by decide!⟩

/-! ## One round trip of a parsed document -/

mutual
theorem AllStrings_and {D : Type} (P Q R : List Nat → Prop) (hr : ∀ s, P s → Q s → R s) :
    ∀ v : JSONValue D, JSONValue.AllStrings P v → JSONValue.AllStrings Q v →
      JSONValue.AllStrings R v
  | .null, _, _ => trivial
  | .string s, hp, hq => hr s hp hq
  | .number _, _, _ => trivial
  | .object o, hp, hq => by
      simp only [JSONValue.AllStrings] at hp hq ⊢
      exact AllStringsMembers_and P Q R hr o hp hq
  | .array a, hp, hq => by
      simp only [JSONValue.AllStrings] at hp hq ⊢
      exact AllStringsElements_and P Q R hr a hp hq
  | .boolean _, _, _ => trivial
theorem AllStringsMembers_and {D : Type} (P Q R : List Nat → Prop) (hr : ∀ s, P s → Q s → R s) :
    ∀ o : List (List Nat × JSONValue D), JSONValue.AllStringsMembers P o →
      JSONValue.AllStringsMembers Q o → JSONValue.AllStringsMembers R o
  | [], _, _ => trivial
  | (k, v) :: rest, hp, hq => by
      simp only [JSONValue.AllStringsMembers] at hp hq ⊢
      exact ⟨hr k hp.1 hq.1, AllStrings_and P Q R hr v hp.2.1 hq.2.1,
        AllStringsMembers_and P Q R hr rest hp.2.2 hq.2.2⟩
theorem AllStringsElements_and {D : Type} (P Q R : List Nat → Prop) (hr : ∀ s, P s → Q s → R s) :
    ∀ a : List (JSONValue D), JSONValue.AllStringsElements P a →
      JSONValue.AllStringsElements Q a → JSONValue.AllStringsElements R a
  | [], _, _ => trivial
  | v :: rest, hp, hq => by
      simp only [JSONValue.AllStringsElements] at hp hq ⊢
      exact ⟨AllStrings_and P Q R hr v hp.1 hq.1, AllStringsElements_and P Q R hr rest hp.2 hq.2⟩
end

theorem plainString_of_wellFormed (s : List Nat) (hw : WellFormedUtf8 s)
    (hz : NoZeroNoLeadingSpace s) : PlainString s := by
  obtain ⟨cps, hc, e⟩ := hw
  obtain ⟨h0, hsp⟩ := hz
  refine ⟨cps, ?_, e, ?_⟩
  · intro c hcm
    refine ⟨?_, hc c hcm⟩
    rcases Nat.eq_zero_or_pos c with c0 | c0
    · exfalso
      apply h0
      rw [e, List.mem_flatMap]
      exact ⟨c, hcm, by rw [c0]; decide⟩
    · exact c0
  · intro hh
    apply hsp
    cases cps with
    | nil => simp at hh
    | cons c rest =>
      simp only [List.head?_cons, Option.some.injEq] at hh
      rw [e, hh]
      rfl

theorem parseJson_wellFormed {D : Type} (L : Libc D) (text : List Nat) (v : JSONValue D)
    (h : parseJson L text = .ok v) : JSONValue.AllStrings WellFormedUtf8 v := by
  unfold parseJson at h
  have hs : Result.Sat (JSONValue.AllStrings WellFormedUtf8)
      ((ParseCursor.new text).bind fun pc =>
        (parseValue L (2 * text.length + 1) pc).map fun r => r.1) :=
    Result.Sat.bind_any (fun pc => ((parse_wellFormed L _).1 pc).map_sat (fun r hr => hr))
  exact hs.of_eq h

/-- C1, as stated, fails. `parseJson` of the document `"\u0000"` returns the
String of the one byte 00; `encodeJson` of that String writes `""`, because the
loop of `encodeString` ends at the zero byte; and `parseJson` of `""` returns
the empty String, which is not the String of the byte 00. -/
theorem C1_zero_codepoint_is_lost :
    parseJson Libc.text [0x22, 0x5C, 0x75, 0x30, 0x30, 0x30, 0x30, 0x22] = .ok (.string [0x00]) ∧
    encodeJson Libc.text (.string [0x00]) = .ok [0x22, 0x22] ∧
    parseJson Libc.text [0x22, 0x22] = .ok (.string []) ∧
    (JSONValue.string [] : JSONValue (List Nat)) ≠ .string [0x00] := by
  refine ⟨parseJson_of_text Libc.text _ (.string [0x00]) (by decide!), by decide!,
    parseJson_of_text Libc.text _ (.string []) (by decide!), ?_⟩
  intro h
  cases h

/-! ## The position that an error carries -/

theorem lastSolid_concat (cps : List Nat) (x : Nat) :
    lastSolid (cps ++ [x]) = if isJsonWhitespace x = true then lastSolid cps else some x := by
  unfold lastSolid
  rw [List.reverse_append]
  simp only [List.reverse_cons, List.reverse_nil, List.nil_append, List.singleton_append,
    List.find?_cons]
  cases isJsonWhitespace x <;> simp

theorem lastSolid_append_ws (cps : List Nat) : ∀ ws : List Nat,
    (∀ w ∈ ws, isJsonWhitespace w = true) → lastSolid (cps ++ ws) = lastSolid cps := by
  intro ws
  induction ws using List.reverseRecOn with
  | nil => intro _; simp
  | append_singleton ws w ih =>
    intro h
    rw [← List.append_assoc, lastSolid_concat, if_pos (h w (by simp))]
    exact ih (fun x hx => h x (by simp [hx]))

theorem lastSolid_append_some (xs ys : List Nat) (x : Nat) (h : lastSolid ys = some x) :
    lastSolid (xs ++ ys) = some x := by
  unfold lastSolid at h ⊢
  rw [List.reverse_append, List.find?_append, h]
  rfl

theorem lastSolid_of_ws (ws : List Nat) (h : ∀ w ∈ ws, isJsonWhitespace w = true) :
    lastSolid ws = none := by
  have := lastSolid_append_ws [] ws h
  simpa [lastSolid] using this

theorem Result.FailsOr.bind_fails {α β : Type} {s : LineColCur} {P : α → Prop} {Q : β → Prop}
    {x : Result α} {f : α → Result β} (hx : Result.FailsOr s P x)
    (hf : ∀ a, P a → Result.FailsOr s Q (f a)) : Result.FailsOr s Q (x.bind f) := by
  cases x with
  | ok a => exact hf a hx
  | error e => exact hx
  | outOfFuel => trivial

theorem Result.FailsOr.map_fails {α β : Type} {s : LineColCur} {P : α → Prop} {Q : β → Prop}
    {x : Result α} {g : α → β} (hx : Result.FailsOr s P x) (hg : ∀ a, P a → Q (g a)) :
    Result.FailsOr s Q (x.map g) := by
  cases x with
  | ok a => exact hg a hx
  | error e => exact hx
  | outOfFuel => trivial

theorem Result.FailsOr.error_fails {α : Type} {s c : LineColCur} {cps : List Nat}
    (Q : α → Prop) (hr : Reads s cps c) (msg : String) (hf : FailsAt msg cps c) :
    Result.FailsOr s Q (c.error msg : Result α) :=
  ⟨msg, cps, c, hr, rfl, hf⟩

theorem getUnicodeChar_fails {s pc : LineColCur} {cps : List Nat} (hr : Reads s cps pc) :
    Result.FailsOr s
      (fun r : Nat × LineColCur => r.1 = pc.peekUnicodeChar ∧ Reads s (cps ++ [r.1]) r.2)
      pc.getUnicodeChar := by
  rw [getUnicodeChar_eq]
  by_cases h0 : pc.peekUnicodeChar = 0
  · rw [if_pos h0]
    exact Result.FailsOr.error_fails _ hr _ (Or.inl ⟨rfl, h0⟩)
  · rw [if_neg h0]
    exact ⟨rfl, hr.append (Reads.step (getUnicodeChar_of_peek pc _ rfl h0) (Reads.done _))⟩

theorem tryParse_fails {s pc : LineColCur} (str : List Nat) (hstr : str ∈ tokens)
    (h : ∃ cps, Reads s cps pc) :
    Result.FailsOr s (fun r : Bool × ParseCursor => ∃ cps, Reads s cps r.2)
      (ParseCursor.tryParse str pc) := by
  obtain ⟨cps, hr⟩ := h
  rcases tryParse_spec str (tokens_codepoints str hstr).1 pc with e | ⟨mid, ws, pc1, e, r, r1, _, _⟩
  · rw [e]; exact ⟨cps, hr⟩
  · rw [e]; exact ⟨cps ++ (codepoints str ++ ws), hr.append (r.append r1)⟩

/-- The two outcomes of `tryParse` on a token whose last codepoint is `x`:
the token is not matched and the cursor is the same, or the cursor stands
after the token and a run of whitespace. -/
theorem tryParse_bind_fails {β : Type} {s pc : LineColCur} {Q : β → Prop} (str : List Nat)
    (hstr : str ∈ tokens) (x : Nat) (hx : lastSolid (codepoints str) = some x)
    (h : ∃ cps, Reads s cps pc) {f : Bool × ParseCursor → Result β}
    (hhit : ∀ pc1 : ParseCursor, After s (fun o => o = some x) pc1 →
      Result.FailsOr s Q (f (true, pc1)))
    (hmiss : ParseCursor.tryParse str pc = .ok (false, pc) → Result.FailsOr s Q (f (false, pc))) :
    Result.FailsOr s Q ((ParseCursor.tryParse str pc).bind f) := by
  obtain ⟨cps, hr⟩ := h
  rcases tryParse_spec str (tokens_codepoints str hstr).1 pc with e | ⟨mid, ws, pc1, e, r, r1, a, b⟩
  · rw [e]; exact hmiss e
  · rw [e]
    refine hhit pc1 ⟨cps ++ (codepoints str ++ ws), hr.append (r.append r1), b, ?_⟩
    rw [← List.append_assoc, lastSolid_append_ws _ ws a]
    exact lastSolid_append_some _ _ x hx

/-- A one-byte token that is not matched is not the codepoint at the cursor. -/
theorem peek_ne_of_miss (t : Nat) (h0 : t ≠ 0) (ht : t < 0x80) (pc : ParseCursor)
    (m : ParseCursor.tryParse [t] pc = .ok (false, pc)) : pc.peekUnicodeChar ≠ t := by
  intro hp
  have hend : pc.cur.headD 0 ≠ 0 := by
    intro hz
    rw [peek_of_head_zero pc hz] at hp
    exact h0 hp.symm
  rw [tryParse_byte_hit t h0 ht pc hend hp] at m
  obtain ⟨ws, pc1, e, _⟩ := skipWhitespace_spec pc.advance
  rw [e] at m
  simp at m

/-- A token of plain characters that is not matched does not head the bytes at
the cursor. -/
theorem not_prefix_of_miss (ts : List Nat) (hts : ∀ b ∈ ts, 0 < b ∧ b < 0x80 ∧ b ≠ 0x0A)
    (pc : ParseCursor) (m : ParseCursor.tryParse ts pc = .ok (false, pc)) :
    ¬ ∃ rest, pc.cur = ts ++ rest := by
  rintro ⟨rest, h⟩
  obtain ⟨cur, l, c⟩ := pc
  simp only at h
  subst h
  rw [tryParse_ascii_hit ts rest l c hts] at m
  obtain ⟨ws, pc1, e, _⟩ := skipWhitespace_spec ⟨rest, l, c + ts.length⟩
  rw [e] at m
  simp at m

theorem readUnicodeEscapeChar_fails {s pc : LineColCur} (h : ∃ cps, Reads s cps pc) :
    Result.FailsOr s (fun r : Nat × ParseCursor => ∃ cps, Reads s cps r.2)
      (ParseCursor.readUnicodeEscapeChar pc) := by
  obtain ⟨cps, hr⟩ := h
  unfold ParseCursor.readUnicodeEscapeChar
  refine Result.FailsOr.bind_fails (getUnicodeChar_fails hr) (fun r hr2 => ?_)
  have hr1 := hr2.2
  by_cases h1 : 0x30 ≤ r.1 ∧ r.1 ≤ 0x39
  · rw [if_pos h1]; exact ⟨_, hr1⟩
  rw [if_neg h1]
  by_cases h2 : 0x61 ≤ r.1 ∧ r.1 ≤ 0x66
  · rw [if_pos h2]; exact ⟨_, hr1⟩
  rw [if_neg h2]
  by_cases h3 : 0x41 ≤ r.1 ∧ r.1 ≤ 0x46
  · rw [if_pos h3]; exact ⟨_, hr1⟩
  rw [if_neg h3]
  refine Result.FailsOr.error_fails _ hr1 _ (Or.inr (Or.inl ⟨rfl, cps, r.1, rfl, ?_⟩))
  intro v hv
  rcases hv with ⟨a, b, _⟩ | ⟨a, b, _⟩ | ⟨a, b, _⟩
  · exact h1 ⟨a, b⟩
  · exact h2 ⟨a, b⟩
  · exact h3 ⟨a, b⟩

theorem readUnicodeEscape_fails {s pc : LineColCur} (h : ∃ cps, Reads s cps pc) :
    Result.FailsOr s (fun r : Nat × ParseCursor => ∃ cps, Reads s cps r.2)
      (ParseCursor.readUnicodeEscape pc) := by
  unfold ParseCursor.readUnicodeEscape
  refine Result.FailsOr.bind_fails (readUnicodeEscapeChar_fails h) (fun r1 h1 => ?_)
  refine Result.FailsOr.bind_fails (readUnicodeEscapeChar_fails h1) (fun r2 h2 => ?_)
  refine Result.FailsOr.bind_fails (readUnicodeEscapeChar_fails h2) (fun r3 h3 => ?_)
  refine Result.FailsOr.bind_fails (readUnicodeEscapeChar_fails h3) (fun r4 h4 => ?_)
  exact h4

theorem parseUnicodeEscape_fails {s pc : LineColCur} (h : ∃ cps, Reads s cps pc) :
    Result.FailsOr s (fun r : List Nat × ParseCursor => ∃ cps, Reads s cps r.2)
      (ParseCursor.parseUnicodeEscape pc) := by
  unfold ParseCursor.parseUnicodeEscape
  refine Result.FailsOr.bind_fails (readUnicodeEscape_fails h) (fun u1 h1 => ?_)
  split
  · refine Result.FailsOr.bind_fails (tryParse_fails _ (by decide) h1) (fun t ht => ?_)
    split
    · refine Result.FailsOr.bind_fails (readUnicodeEscape_fails ht) (fun u2 h2 => ?_)
      split
      · exact h2
      · exact h2
    · exact ht
  split
  · exact h1
  · exact h1

theorem parseEscape_fails {s pc : LineColCur} (h : ∃ cps, Reads s cps pc) :
    Result.FailsOr s (fun r : List Nat × ParseCursor => ∃ cps, Reads s cps r.2)
      (ParseCursor.parseEscape pc) := by
  obtain ⟨cps, hr0⟩ := h
  unfold ParseCursor.parseEscape
  refine Result.FailsOr.bind_fails (getUnicodeChar_fails hr0) (fun r hr1 => ?_)
  have hr : ∃ cps, Reads s cps r.2 := ⟨_, hr1.2⟩
  simp only
  split
  · exact hr
  split
  · exact hr
  split
  · exact hr
  split
  · exact hr
  split
  · exact hr
  split
  · exact hr
  split
  · exact parseUnicodeEscape_fails hr
  · exact hr

/-- The loop of `parseString` returns after the terminator and a run of
whitespace. -/
theorem parseStringLoop_fails {s : LineColCur} : ∀ (fuel : Nat) (ret : List Nat)
    (pc : ParseCursor), (∃ cps, Reads s cps pc) →
    Result.FailsOr s (fun r : List Nat × ParseCursor => After s (fun o => o = some 0x22) r.2)
      (ParseCursor.parseStringLoop [0x22] fuel ret pc) := by
  intro fuel
  induction fuel with
  | zero => intro ret pc h; trivial
  | succ n ih =>
    intro ret pc h
    unfold ParseCursor.parseStringLoop
    refine tryParse_bind_fails [0x22] (by decide) 0x22 (by decide) h (fun pc1 h1 => h1)
      (fun _ => ?_)
    simp only [Bool.false_eq_true, if_false]
    obtain ⟨cps, hr0⟩ := h
    refine Result.FailsOr.bind_fails (getUnicodeChar_fails hr0) (fun r hr => ?_)
    split
    · refine Result.FailsOr.bind_fails (parseEscape_fails ⟨_, hr.2⟩) (fun e he => ?_)
      exact ih _ _ he
    · exact ih _ _ ⟨_, hr.2⟩

theorem After.weaken {s c : LineColCur} {P Q : Option Nat → Prop} (h : After s P c)
    (hpq : ∀ o, P o → Q o) : After s Q c := by
  obtain ⟨cps, hr, hw, hp⟩ := h
  exact ⟨cps, hr, hw, hpq _ hp⟩

theorem After.reads {s c : LineColCur} {P : Option Nat → Prop} (h : After s P c) :
    ∃ cps, Reads s cps c := by
  obtain ⟨cps, hr, _, _⟩ := h
  exact ⟨cps, hr⟩

theorem digit_not_ws {d : Nat} (h : 0x30 ≤ d ∧ d ≤ 0x39) : isJsonWhitespace d = false := by
  simp [isJsonWhitespace]
  omega

/-- The digit loop inside a number: the codepoint read last, whitespace apart,
stays a character of the number. -/
theorem digitLoop_fails {s : LineColCur} : ∀ (fuel : Nat) (num : List Nat) (pc : ParseCursor),
    (∃ cps, Reads s cps pc ∧ ∃ x, lastSolid cps = some x ∧ NumberChar x) →
    Result.FailsOr s
      (fun r : List Nat × ParseCursor =>
        ∃ cps, Reads s cps r.2 ∧ ∃ x, lastSolid cps = some x ∧ NumberChar x)
      (ParseCursor.digitLoop fuel num pc) := by
  intro fuel
  induction fuel with
  | zero => intro num pc h; trivial
  | succ n ih =>
    intro num pc h
    unfold ParseCursor.digitLoop
    split
    · exact h
    split
    · rename_i hd
      obtain ⟨cps, hr, _⟩ := h
      refine Result.FailsOr.bind_fails (getUnicodeChar_fails hr) (fun r hr1 => ?_)
      refine ih _ _ ⟨_, hr1.2, r.1, ?_, Or.inl (by rw [hr1.1]; exact hd)⟩
      rw [lastSolid_concat, if_neg (by rw [hr1.1, digit_not_ws hd]; simp)]
    · exact h

/-- The digit loop entered at a digit. -/
theorem digitLoop_first_fails {s : LineColCur} (n : Nat) (num : List Nat) (pc : ParseCursor)
    (h : ∃ cps, Reads s cps pc) (hend : pc.atEnd = false)
    (hd : 0x30 ≤ pc.peekUnicodeChar ∧ pc.peekUnicodeChar ≤ 0x39) :
    Result.FailsOr s
      (fun r : List Nat × ParseCursor =>
        ∃ cps, Reads s cps r.2 ∧ ∃ x, lastSolid cps = some x ∧ NumberChar x)
      (ParseCursor.digitLoop (n + 1) num pc) := by
  obtain ⟨cps, hr⟩ := h
  unfold ParseCursor.digitLoop
  rw [if_neg (by rw [hend]; simp), if_pos hd]
  refine Result.FailsOr.bind_fails (getUnicodeChar_fails hr) (fun r hr1 => ?_)
  refine digitLoop_fails _ _ _ ⟨_, hr1.2, r.1, ?_, Or.inl (by rw [hr1.1]; exact hd)⟩
  rw [lastSolid_concat, if_neg (by rw [hr1.1, digit_not_ws hd]; simp)]

/-- A token of a number, matched or not, inside a number. -/
theorem tryParse_number_fails {β : Type} {s pc : LineColCur} {Q : β → Prop} (str : List Nat)
    (hstr : str ∈ tokens) (x : Nat) (hx : lastSolid (codepoints str) = some x)
    (hn : NumberChar x)
    (h : ∃ cps, Reads s cps pc ∧ ∃ x, lastSolid cps = some x ∧ NumberChar x)
    {f : Bool × ParseCursor → Result β}
    (hf : ∀ t : Bool × ParseCursor,
      (∃ cps, Reads s cps t.2 ∧ ∃ x, lastSolid cps = some x ∧ NumberChar x) →
      Result.FailsOr s Q (f t)) :
    Result.FailsOr s Q ((ParseCursor.tryParse str pc).bind f) := by
  obtain ⟨cps, hr, hl⟩ := h
  refine tryParse_bind_fails str hstr x hx ⟨cps, hr⟩ (fun pc1 h1 => ?_) (fun _ => ?_)
  · obtain ⟨c1, r1, _, l1⟩ := h1
    exact hf (true, pc1) ⟨c1, r1, x, l1, hn⟩
  · exact hf (false, pc) ⟨cps, hr, hl⟩

theorem parseNumberInt_fails {s : LineColCur} (pc : ParseCursor) (h : ∃ cps, Reads s cps pc)
    (hend : pc.atEnd = false)
    (hd : pc.peekUnicodeChar = 0x2D ∨ (0x30 ≤ pc.peekUnicodeChar ∧ pc.peekUnicodeChar ≤ 0x39)) :
    Result.FailsOr s
      (fun r : List Nat × ParseCursor =>
        ∃ cps, Reads s cps r.2 ∧ ∃ x, lastSolid cps = some x ∧ NumberChar x)
      (ParseCursor.parseNumberInt pc) := by
  unfold ParseCursor.parseNumberInt
  refine tryParse_bind_fails [0x2D] (by decide) 0x2D (by decide) h (fun pc1 h1 => ?_)
    (fun m1 => ?_)
  · obtain ⟨c1, r1, _, l1⟩ := h1
    refine tryParse_number_fails [0x30] (by decide) 0x30 (by decide) (Or.inl (by decide))
      ⟨c1, r1, 0x2D, l1, Or.inr (Or.inl rfl)⟩ (fun zero hz => ?_)
    split
    · exact hz
    · exact digitLoop_fails _ _ _ hz
  · have hdig : 0x30 ≤ pc.peekUnicodeChar ∧ pc.peekUnicodeChar ≤ 0x39 := by
      rcases hd with e | e
      · exact absurd e (peek_ne_of_miss 0x2D (by decide) (by decide) pc m1)
      · exact e
    refine tryParse_bind_fails [0x30] (by decide) 0x30 (by decide) h (fun pc1 h1 => ?_)
      (fun _ => ?_)
    · obtain ⟨c1, r1, _, l1⟩ := h1
      exact ⟨c1, r1, 0x30, l1, Or.inl (by decide)⟩
    · simp only [Bool.false_eq_true, if_false]
      exact digitLoop_first_fails _ _ pc h hend hdig

theorem parseNumberFrac_fails {s : LineColCur} (num : List Nat) (pc : ParseCursor)
    (h : ∃ cps, Reads s cps pc ∧ ∃ x, lastSolid cps = some x ∧ NumberChar x) :
    Result.FailsOr s
      (fun r : List Nat × ParseCursor =>
        ∃ cps, Reads s cps r.2 ∧ ∃ x, lastSolid cps = some x ∧ NumberChar x)
      (ParseCursor.parseNumberFrac num pc) := by
  unfold ParseCursor.parseNumberFrac
  refine tryParse_number_fails [0x2E] (by decide) 0x2E (by decide) (Or.inr (Or.inr (Or.inl rfl)))
    h (fun dot hdot => ?_)
  split
  · exact digitLoop_fails _ _ _ hdot
  · exact hdot

theorem parseNumberExp_fails {s : LineColCur} (num : List Nat) (pc : ParseCursor)
    (h : ∃ cps, Reads s cps pc ∧ ∃ x, lastSolid cps = some x ∧ NumberChar x) :
    Result.FailsOr s
      (fun r : List Nat × ParseCursor =>
        ∃ cps, Reads s cps r.2 ∧ ∃ x, lastSolid cps = some x ∧ NumberChar x)
      (ParseCursor.parseNumberExp num pc) := by
  unfold ParseCursor.parseNumberExp
  refine tryParse_number_fails [0x65] (by decide) 0x65 (by decide)
    (Or.inr (Or.inr (Or.inr (Or.inl rfl)))) h (fun e1 h1 => ?_)
  have key : ∀ e : Bool × ParseCursor,
      (∃ cps, Reads s cps e.2 ∧ ∃ x, lastSolid cps = some x ∧ NumberChar x) →
      Result.FailsOr s
        (fun r : List Nat × ParseCursor =>
          ∃ cps, Reads s cps r.2 ∧ ∃ x, lastSolid cps = some x ∧ NumberChar x)
        (if e.1 = true then
          (ParseCursor.tryParse [0x2B] e.2).bind fun plus =>
          (if plus.1 = true then Result.ok (false, plus.2)
           else ParseCursor.tryParse [0x2D] plus.2).bind fun negativeExp =>
          ParseCursor.digitLoop (negativeExp.2.cur.length + 1)
            (num ++ [0x65] ++ (if negativeExp.1 = true then [0x2D] else [])) negativeExp.2
        else Result.ok (num, e.2)) := by
    intro e he
    split
    · refine tryParse_number_fails [0x2B] (by decide) 0x2B (by decide)
        (Or.inr (Or.inr (Or.inr (Or.inr (Or.inr rfl))))) he (fun plus hp => ?_)
      by_cases hb : plus.1 = true
      · rw [if_pos hb]
        exact digitLoop_fails _ _ _ hp
      · rw [if_neg hb]
        refine tryParse_number_fails [0x2D] (by decide) 0x2D (by decide) (Or.inr (Or.inl rfl))
          hp (fun negativeExp hn => ?_)
        exact digitLoop_fails _ _ _ hn
    · exact he
  by_cases hb : e1.1 = true
  · rw [if_pos hb]
    exact key e1 h1
  · rw [if_neg hb]
    refine tryParse_number_fails [0x45] (by decide) 0x45 (by decide)
      (Or.inr (Or.inr (Or.inr (Or.inr (Or.inl rfl))))) h1 (fun e he => ?_)
    exact key e he

/-- `parseNumber`, entered at a minus sign or a digit, returns after characters
of a number and a run of whitespace. -/
theorem parseNumberText_fails {s : LineColCur} (pc : ParseCursor) (h : ∃ cps, Reads s cps pc)
    (hend : pc.atEnd = false)
    (hd : pc.peekUnicodeChar = 0x2D ∨ (0x30 ≤ pc.peekUnicodeChar ∧ pc.peekUnicodeChar ≤ 0x39)) :
    Result.FailsOr s
      (fun r : List Nat × ParseCursor => After s (fun o => ∃ x, o = some x ∧ ValueEnd x) r.2)
      (ParseCursor.parseNumberText pc) := by
  unfold ParseCursor.parseNumberText
  refine Result.FailsOr.bind_fails (parseNumberInt_fails pc h hend hd) (fun intPart hi => ?_)
  refine Result.FailsOr.bind_fails (parseNumberFrac_fails _ _ hi) (fun fracPart hf => ?_)
  refine Result.FailsOr.bind_fails (parseNumberExp_fails _ _ hf) (fun expPart he => ?_)
  obtain ⟨cps, hr, x, hl, hn⟩ := he
  obtain ⟨ws, pc1, e, r, a, b⟩ := skipWhitespace_spec expPart.2
  rw [e]
  refine ⟨cps ++ ws, hr.append r, b, x, ?_, Or.inr (Or.inr (Or.inr (Or.inr (Or.inr hn))))⟩
  rw [lastSolid_append_ws _ ws a]
  exact hl

theorem atEnd_false_head (pc : ParseCursor) (h : ¬ pc.atEnd = true) : pc.cur.headD 0 ≠ 0 := by
  intro hz
  apply h
  show decide (pc.cur.headD 0 = 0) = true
  exact decide_eq_true hz

theorem Result.bind_assoc {α β γ : Type} (x : Result α) (f : α → Result β)
    (g : β → Result γ) : (x.bind f).bind g = x.bind (fun a => (f a).bind g) := by
  cases x <;> rfl

theorem parse_fails {D : Type} (L : Libc D) (s : LineColCur) : ∀ fuel : Nat,
    (∀ pc : ParseCursor, After s ValueSlot pc →
      Result.FailsOr s
        (fun r : JSONValue D × ParseCursor => After s (fun o => ∃ x, o = some x ∧ ValueEnd x) r.2)
        (parseValue L fuel pc)) ∧
    (∀ (c : JSONObject D) (first : Bool) (pc : ParseCursor),
      After s (fun o => (first = true ∧ o = some 0x7B) ∨
        (first = false ∧ ∃ x, o = some x ∧ ValueEnd x)) pc →
      Result.FailsOr s
        (fun r : JSONObject D × ParseCursor => After s (fun o => o = some 0x7D) r.2)
        (parseObjectLoop L fuel c first pc)) ∧
    (∀ (a : JSONArray D) (first : Bool) (pc : ParseCursor),
      After s (fun o => (first = true ∧ o = some 0x5B) ∨
        (first = false ∧ ∃ x, o = some x ∧ ValueEnd x)) pc →
      Result.FailsOr s
        (fun r : JSONArray D × ParseCursor => After s (fun o => o = some 0x5D) r.2)
        (parseArrayLoop L fuel a first pc)) := by
  intro fuel
  induction fuel with
  | zero => exact ⟨fun _ _ => trivial, fun _ _ _ _ => trivial, fun _ _ _ _ => trivial⟩
  | succ n ih =>
    obtain ⟨ihv, iho, iha⟩ := ih
    refine ⟨fun pc h => ?_, fun c first pc h => ?_, fun a first pc h => ?_⟩
    · obtain ⟨cps, hr, hw, hs⟩ := h
      have hreach : ∃ cps, Reads s cps pc := ⟨cps, hr⟩
      unfold parseValue
      refine tryParse_bind_fails [0x22] (by decide) 0x22 (by decide) hreach
        (fun pc1 h1 => ?_) (fun m1 => ?_)
      · simp only [if_true]
        unfold parseString ParseCursor.parseString
        exact (parseStringLoop_fails _ _ _ h1.reads).map_fails
          (fun r hq => hq.weaken (fun o ho => ⟨0x22, ho, Or.inl rfl⟩))
      simp only [Bool.false_eq_true, if_false]
      refine tryParse_bind_fails [0x7B] (by decide) 0x7B (by decide) hreach
        (fun pc1 h1 => ?_) (fun m2 => ?_)
      · simp only [if_true]
        exact (iho [] true pc1 (h1.weaken (fun o ho => Or.inl ⟨rfl, ho⟩))).map_fails
          (fun r hq => hq.weaken (fun o ho => ⟨0x7D, ho, Or.inr (Or.inl rfl)⟩))
      simp only [Bool.false_eq_true, if_false]
      refine tryParse_bind_fails [0x5B] (by decide) 0x5B (by decide) hreach
        (fun pc1 h1 => ?_) (fun m3 => ?_)
      · simp only [if_true]
        exact (iha [] true pc1 (h1.weaken (fun o ho => Or.inl ⟨rfl, ho⟩))).map_fails
          (fun r hq => hq.weaken (fun o ho => ⟨0x5D, ho, Or.inr (Or.inr (Or.inl rfl))⟩))
      simp only [Bool.false_eq_true, if_false]
      refine tryParse_bind_fails [0x74, 0x72, 0x75, 0x65] (by decide) 0x65 (by decide) hreach
        (fun pc1 h1 => ?_) (fun m4 => ?_)
      · simp only [if_true]
        show After s (fun o => ∃ x, o = some x ∧ ValueEnd x) pc1
        exact h1.weaken (fun o ho => ⟨0x65, ho, Or.inr (Or.inr (Or.inr (Or.inl rfl)))⟩)
      simp only [Bool.false_eq_true, if_false]
      refine tryParse_bind_fails [0x66, 0x61, 0x6C, 0x73, 0x65] (by decide) 0x65 (by decide)
        hreach (fun pc1 h1 => ?_) (fun m5 => ?_)
      · simp only [if_true]
        show After s (fun o => ∃ x, o = some x ∧ ValueEnd x) pc1
        exact h1.weaken (fun o ho => ⟨0x65, ho, Or.inr (Or.inr (Or.inr (Or.inl rfl)))⟩)
      simp only [Bool.false_eq_true, if_false]
      refine tryParse_bind_fails [0x6E, 0x75, 0x6C, 0x6C] (by decide) 0x6C (by decide) hreach
        (fun pc1 h1 => ?_) (fun m6 => ?_)
      · simp only [if_true]
        show After s (fun o => ∃ x, o = some x ∧ ValueEnd x) pc1
        exact h1.weaken (fun o ho => ⟨0x6C, ho, Or.inr (Or.inr (Or.inr (Or.inr (Or.inl rfl))))⟩)
      simp only [Bool.false_eq_true, if_false]
      by_cases hend : pc.atEnd = true
      · rw [if_pos hend]
        refine Result.FailsOr.error_fails _ hr _ (Or.inl ⟨rfl, peek_of_head_zero pc ?_⟩)
        simpa [ParseCursor.atEnd] using hend
      rw [if_neg hend]
      by_cases hd : pc.peekUnicodeChar = 0x2D
          ∨ (0x30 ≤ pc.peekUnicodeChar ∧ pc.peekUnicodeChar ≤ 0x39)
      · rw [if_pos hd]
        unfold parseNumber ParseCursor.parseNumber
        have hn := parseNumberText_fails pc hreach (by simpa using hend) hd
        have hn1 : Result.FailsOr s
            (fun r : D × ParseCursor => After s (fun o => ∃ x, o = some x ∧ ValueEnd x) r.2)
            ((ParseCursor.parseNumberText pc).map fun r => (L.strtod r.1, r.2)) :=
          hn.map_fails (fun r hq => hq)
        exact hn1.map_fails (fun r hq => hq)
      · rw [if_neg hd]
        refine Result.FailsOr.error_fails _ hr _
          (Or.inr (Or.inr (Or.inr (Or.inr (Or.inr ⟨rfl, hw, atEnd_false_head pc hend, hs,
            peek_ne_of_miss 0x22 (by decide) (by decide) pc m1,
            peek_ne_of_miss 0x7B (by decide) (by decide) pc m2,
            peek_ne_of_miss 0x5B (by decide) (by decide) pc m3,
            fun e => hd (Or.inl e), fun e => hd (Or.inr e),
            not_prefix_of_miss _ (by decide) pc m4,
            not_prefix_of_miss _ (by decide) pc m5,
            not_prefix_of_miss _ (by decide) pc m6⟩)))))
    · obtain ⟨cps, hr, hw, hs⟩ := h
      have hreach : ∃ cps, Reads s cps pc := ⟨cps, hr⟩
      unfold parseObjectLoop
      refine tryParse_bind_fails [0x7D] (by decide) 0x7D (by decide) hreach
        (fun pc1 h1 => ?_) (fun m1 => ?_)
      · simp only [if_true]
        exact h1
      simp only [Bool.false_eq_true, if_false]
      have key : ∀ pc1 : ParseCursor, After s (fun o => o = some 0x7B ∨ o = some 0x2C) pc1 →
          Result.FailsOr s
            (fun r : JSONObject D × ParseCursor => After s (fun o => o = some 0x7D) r.2)
            ((ParseCursor.tryParse [0x22] pc1).bind fun t2 =>
              if ¬ t2.1 = true then t2.2.error "Expected '\"'"
              else (ParseCursor.parseString [0x22] t2.2).bind fun name =>
              (ParseCursor.tryParse [0x3A] name.2).bind fun t3 =>
              if ¬ t3.1 = true then t3.2.error "Expected ':'"
              else (parseValue L n t3.2).bind fun v =>
              parseObjectLoop L n (JSONObject.assign name.1 v.1 c) false v.2) := by
        intro pc1 hp1
        obtain ⟨c1, r1, w1, s1⟩ := hp1
        refine tryParse_bind_fails [0x22] (by decide) 0x22 (by decide) ⟨c1, r1⟩
          (fun p2 h2 => ?_) (fun m => ?_)
        · simp only [not_true_eq_false, if_false]
          unfold ParseCursor.parseString
          refine Result.FailsOr.bind_fails (parseStringLoop_fails _ _ _ h2.reads)
            (fun name hname => ?_)
          obtain ⟨cn, rn, wn, sn⟩ := hname
          refine tryParse_bind_fails [0x3A] (by decide) 0x3A (by decide) ⟨cn, rn⟩
            (fun p3 h3 => ?_) (fun m3 => ?_)
          · simp only [not_true_eq_false, if_false]
            refine Result.FailsOr.bind_fails
              (ihv p3 (h3.weaken (fun o ho => Or.inr (Or.inr (Or.inr (Or.inr ho))))))
              (fun v hv => ?_)
            exact iho _ false v.2 (hv.weaken (fun o ho => Or.inr ⟨rfl, ho⟩))
          · simp only [Bool.false_eq_true, not_false_eq_true, if_true]
            exact Result.FailsOr.error_fails _ rn _
              (Or.inr (Or.inr (Or.inr (Or.inr (Or.inl ⟨rfl, wn,
                peek_ne_of_miss 0x3A (by decide) (by decide) _ m3, sn⟩)))))
        · simp only [Bool.false_eq_true, not_false_eq_true, if_true]
          exact Result.FailsOr.error_fails _ r1 _
            (Or.inr (Or.inr (Or.inr (Or.inl ⟨rfl, w1,
              peek_ne_of_miss 0x22 (by decide) (by decide) _ m, s1⟩))))
      cases first with
      | true =>
        have hs1 : lastSolid cps = some 0x7B := by simpa using hs
        simpa using key pc ⟨cps, hr, hw, Or.inl hs1⟩
      | false =>
        have hs1 : ∃ x, lastSolid cps = some x ∧ ValueEnd x := by simpa using hs
        simp only [Bool.false_eq_true, if_false]
        rw [Result.bind_assoc]
        refine tryParse_bind_fails [0x2C] (by decide) 0x2C (by decide) hreach
          (fun p1 h1 => ?_) (fun m => ?_)
        · simpa using key p1 (h1.weaken (fun o ho => Or.inr ho))
        · simp only [Bool.false_eq_true, if_false, LineColCur.error_bind]
          exact Result.FailsOr.error_fails _ hr _
            (Or.inr (Or.inr (Or.inl ⟨rfl, hw,
              peek_ne_of_miss 0x2C (by decide) (by decide) _ m, hs1⟩)))
    · obtain ⟨cps, hr, hw, hs⟩ := h
      have hreach : ∃ cps, Reads s cps pc := ⟨cps, hr⟩
      unfold parseArrayLoop
      refine tryParse_bind_fails [0x5D] (by decide) 0x5D (by decide) hreach
        (fun pc1 h1 => ?_) (fun m1 => ?_)
      · simp only [if_true]
        exact h1
      simp only [Bool.false_eq_true, if_false]
      have key : ∀ pc1 : ParseCursor, After s (fun o => o = some 0x5B ∨ o = some 0x2C) pc1 →
          Result.FailsOr s
            (fun r : JSONArray D × ParseCursor => After s (fun o => o = some 0x5D) r.2)
            ((parseValue L n pc1).bind fun v => parseArrayLoop L n (a ++ [v.1]) false v.2) := by
        intro pc1 hp1
        refine Result.FailsOr.bind_fails
          (ihv pc1 (hp1.weaken (fun o ho => by
            rcases ho with e | e
            · exact Or.inr (Or.inr (Or.inl e))
            · exact Or.inr (Or.inr (Or.inr (Or.inl e))))))
          (fun v hv => ?_)
        exact iha _ false v.2 (hv.weaken (fun o ho => Or.inr ⟨rfl, ho⟩))
      cases first with
      | true =>
        have hs1 : lastSolid cps = some 0x5B := by simpa using hs
        simpa using key pc ⟨cps, hr, hw, Or.inl hs1⟩
      | false =>
        have hs1 : ∃ x, lastSolid cps = some x ∧ ValueEnd x := by simpa using hs
        simp only [Bool.false_eq_true, if_false]
        rw [Result.bind_assoc]
        refine tryParse_bind_fails [0x2C] (by decide) 0x2C (by decide) hreach
          (fun p1 h1 => ?_) (fun m => ?_)
        · simpa using key p1 (h1.weaken (fun o ho => Or.inr ho))
        · simp only [Bool.false_eq_true, if_false, LineColCur.error_bind]
          exact Result.FailsOr.error_fails _ hr _
            (Or.inr (Or.inr (Or.inl ⟨rfl, hw,
              peek_ne_of_miss 0x2C (by decide) (by decide) _ m, hs1⟩)))

theorem parseJson_fails {D : Type} (L : Libc D) (text : List Nat) :
    Result.FailsOr ⟨text, 1, 1⟩ (fun _ : JSONValue D => True) (parseJson L text) := by
  unfold parseJson
  have h0 : ∃ cps, Reads (⟨text, 1, 1⟩ : LineColCur) cps ⟨text, 1, 1⟩ := ⟨[], Reads.done _⟩
  have hnew : Result.FailsOr ⟨text, 1, 1⟩ (fun pc : ParseCursor => After ⟨text, 1, 1⟩ ValueSlot pc)
      (ParseCursor.new text) := by
    unfold ParseCursor.new
    refine tryParse_bind_fails [0xEF, 0xBB, 0xBF] (by decide) 0xFEFF (by decide!) h0
      (fun pc1 h1 => ?_) (fun _ => ?_)
    · simp only [if_true]
      exact h1.weaken (fun o ho => Or.inr (Or.inl ho))
    · simp only [Bool.false_eq_true, if_false]
      obtain ⟨ws, pc1, e, r, a, b⟩ := skipWhitespace_spec ⟨text, 1, 1⟩
      rw [e]
      exact ⟨ws, r, b, Or.inl (lastSolid_of_ws ws a)⟩
  refine Result.FailsOr.bind_fails hnew (fun pc hp => ?_)
  exact ((parse_fails L ⟨text, 1, 1⟩ (2 * text.length + 1)).1 pc hp).map_fails (fun _ _ => trivial)

theorem Reads.split {s c1 : LineColCur} {a : List Nat} (h1 : Reads s a c1) :
    ∀ {b : List Nat} {c2 : LineColCur}, Reads s b c2 → a.length ≤ b.length →
      ∃ d, b = a ++ d ∧ Reads c1 d c2 := by
  induction h1 with
  | done c => intro b c2 h2 _; exact ⟨b, rfl, h2⟩
  | @step c c1 c2 cp cps hg _ ih =>
    intro b c3 h2 hl
    cases h2 with
    | done => simp at hl
    | @step _ c1' _ cp' cps' hg' h2' =>
      rw [hg] at hg'
      simp only [Result.ok.injEq, Prod.mk.injEq] at hg'
      obtain ⟨e1, e2⟩ := hg'
      subst e1
      subst e2
      obtain ⟨d, e, hr⟩ := ih h2' (by simpa using hl)
      exact ⟨d, by rw [e]; rfl, hr⟩

theorem advancePos_append (p : Nat × Nat) : ∀ xs ys : List Nat,
    advancePos p (xs ++ ys) = advancePos (advancePos p xs) ys := by
  intro xs
  induction xs generalizing p with
  | nil => intro ys; rfl
  | cons x xs ih => intro ys; simp only [List.cons_append, advancePos]; exact ih _ ys

/-- A codepoint more moves the position on. -/
theorem advancePos_moves : ∀ (d : List Nat) (q : Nat × Nat),
    q.1 < (advancePos q d).1 ∨ (q.1 = (advancePos q d).1 ∧ q.2 + d.length = (advancePos q d).2)
  | [], q => Or.inr ⟨rfl, rfl⟩
  | x :: d, q => by
    simp only [advancePos, List.length_cons]
    by_cases hx : x = 0x0A
    · rw [if_pos hx]
      rcases advancePos_moves d (q.1 + 1, 1) with h | h
      · left; simp only at h; omega
      · left; have := h.1; simp only at this; omega
    · rw [if_neg hx]
      rcases advancePos_moves d (q.1, q.2 + 1) with h | h
      · left; exact h
      · right; obtain ⟨h1, h2⟩ := h; simp only at h1 h2; exact ⟨h1, by omega⟩

/-- The line and column of a cursor determine what was read to reach it. -/
theorem Reads.unique_of_pos {s c1 c2 : LineColCur} {a b : List Nat} (h1 : Reads s a c1)
    (h2 : Reads s b c2) (hl : c2.line = c1.line) (hc : c2.col = c1.col) : b = a ∧ c2 = c1 := by
  have key : ∀ {s c1 c2 : LineColCur} {a b : List Nat}, Reads s a c1 → Reads s b c2 →
      c2.line = c1.line → c2.col = c1.col → a.length ≤ b.length → b = a ∧ c2 = c1 := by
    intro s c1 c2 a b h1 h2 hl hc hle
    obtain ⟨d, e, hr⟩ := h1.split h2 hle
    have hp := hr.pos
    have hp1 : c2.line = (advancePos (c1.line, c1.col) d).1 := congrArg Prod.fst hp
    have hp2 : c2.col = (advancePos (c1.line, c1.col) d).2 := congrArg Prod.snd hp
    have hd : d = [] := by
      rcases advancePos_moves d (c1.line, c1.col) with h | h
      · simp only at h; omega
      · obtain ⟨_, h⟩ := h
        simp only at h
        have : d.length = 0 := by omega
        exact List.length_eq_zero.mp this
    subst hd
    cases hr
    exact ⟨by simpa using e, rfl⟩
  rcases Nat.le_total a.length b.length with h | h
  · exact key h1 h2 hl hc h
  · obtain ⟨e1, e2⟩ := key h2 h1 hl.symm hc.symm h
    exact ⟨e1.symm, e2.symm⟩

theorem advancePos_concat : ∀ (cps : List Nat) (p : Nat × Nat) (c : Nat),
    advancePos p (cps ++ [c])
      = if c = 0x0A then ((advancePos p cps).1 + 1, 1)
        else ((advancePos p cps).1, (advancePos p cps).2 + 1)
  | [], p, c => rfl
  | x :: xs, p, c => by
    simp only [List.cons_append, advancePos]
    exact advancePos_concat xs _ c

/-- The line is 1 plus the number of line feeds read, the column 1 plus the
number of codepoints read after the last line feed. -/
theorem advancePos_closed (cps : List Nat) :
    advancePos (1, 1) cps
      = (1 + cps.count 0x0A, 1 + (cps.reverse.takeWhile (fun x => decide (x ≠ 0x0A))).length) := by
  induction cps using List.reverseRecOn with
  | nil => rfl
  | append_singleton xs c ih =>
    rw [advancePos_concat, ih]
    by_cases hc : c = 0x0A
    · subst hc
      simp [List.count_append]
      omega
    · rw [if_neg hc]
      simp [List.count_append, List.takeWhile_cons, hc, List.count_singleton]
      omega

/-- C6. For every input on which `parseJson` fails, the error carries a
message and the position of a cursor that successive calls of `getUnicodeChar`
reach from the start of the text, with `cps` the codepoints consumed up to that
cursor (a prefix of the codepoints of the text): the row is 1 plus the number
of line feeds in `cps`, the column is 1 plus the number of codepoints of `cps`
after its last line feed, no other cursor reached from the start has that row
and column, and the cursor is the place of the failure (`FailsAt`: for
`Unexpected end of file` the decoder reads U+0000 there, for `Invalid hex digit`
the codepoint consumed last is the offending one, for the other messages what
was consumed last and what stands at the cursor are as the message says).  In
particular `{"a":` fails with `Unexpected end of file` at
row 1, column 6; `"\u0Z"` with `Invalid hex digit` at row 1, column 6, after the
`Z`; `[1 2]` with `Expected ','` at row 1, column 4; `{1}` with `Expected '"'` at
row 1, column 2; `{"a" 1}` with `Expected ':'` at row 1, column 6; and the two
lines `[1,` and `x` with `Expected value` at row 2, column 1. -/
theorem C6_error_position {D : Type} (L : Libc D) :
    (∀ (text : List Nat) (e : RuntimeError), parseJson L text = .error e →
      ∃ (msg : String) (cps : List Nat) (c : LineColCur),
        Reads ⟨text, 1, 1⟩ cps c ∧ codepoints text = cps ++ codepoints c.cur ∧
        FailsAt msg cps c ∧
        e = .atPosition msg (1 + cps.count 0x0A)
              (1 + (cps.reverse.takeWhile (fun x => decide (x ≠ 0x0A))).length) ∧
        ∀ (cps1 : List Nat) (c1 : LineColCur), Reads ⟨text, 1, 1⟩ cps1 c1 →
          e = .atPosition msg c1.line c1.col → cps1 = cps ∧ c1 = c) ∧
    parseJson L [0x7B, 0x22, 0x61, 0x22, 0x3A]
      = .error (.atPosition "Unexpected end of file" 1 6) ∧
    parseJson L [0x22, 0x5C, 0x75, 0x30, 0x5A, 0x22]
      = .error (.atPosition "Invalid hex digit" 1 6) ∧
    parseJson L [0x5B, 0x31, 0x20, 0x32, 0x5D]
      = .error (.atPosition "Expected ','" 1 4) ∧
    parseJson L [0x7B, 0x31, 0x7D]
      = .error (.atPosition "Expected '\"'" 1 2) ∧
    parseJson L [0x7B, 0x22, 0x61, 0x22, 0x20, 0x31, 0x7D]
      = .error (.atPosition "Expected ':'" 1 6) ∧
    parseJson L [0x5B, 0x31, 0x2C, 0x0A, 0x78]
      = .error (.atPosition "Expected value" 2 1) := by
  refine ⟨?_, parseJson_error_of_text L _ _ (by decide!),
    parseJson_error_of_text L _ _ (by decide!), parseJson_error_of_text L _ _ (by decide!),
    parseJson_error_of_text L _ _ (by decide!), parseJson_error_of_text L _ _ (by decide!),
    parseJson_error_of_text L _ _ (by decide!)⟩
  intro text e h
  have ht := parseJson_fails L text
  rw [h] at ht
  obtain ⟨msg, cps, c, hr, he, hf⟩ := ht
  refine ⟨msg, cps, c, hr, hr.codepoints, hf, ?_, ?_⟩
  · have hp := hr.pos
    rw [advancePos_closed] at hp
    simp only [Prod.mk.injEq] at hp
    rw [he, hp.1, hp.2]
  · intro cps1 c1 h1 e1
    rw [he] at e1
    simp only [RuntimeError.atPosition.injEq, true_and] at e1
    exact Reads.unique_of_pos hr h1 e1.1.symm e1.2.symm

/-- C6 at `"\u0Z"`: the error is at row 1, column 6, and the codepoint consumed
last is not a hex digit. -/
theorem C6_error_position_witness :
    ∃ (msg : String) (cps : List Nat) (c : LineColCur),
      Reads ⟨[0x22, 0x5C, 0x75, 0x30, 0x5A, 0x22], 1, 1⟩ cps c ∧
      codepoints [0x22, 0x5C, 0x75, 0x30, 0x5A, 0x22] = cps ++ codepoints c.cur ∧
      FailsAt msg cps c ∧
      RuntimeError.atPosition "Invalid hex digit" 1 6
        = .atPosition msg (1 + cps.count 0x0A)
            (1 + (cps.reverse.takeWhile (fun x => decide (x ≠ 0x0A))).length) ∧
      ∀ (cps1 : List Nat) (c1 : LineColCur),
        Reads ⟨[0x22, 0x5C, 0x75, 0x30, 0x5A, 0x22], 1, 1⟩ cps1 c1 →
        RuntimeError.atPosition "Invalid hex digit" 1 6 = .atPosition msg c1.line c1.col →
        cps1 = cps ∧ c1 = c :=
  (C6_error_position Libc.text).1 _ _ (parseJson_error_of_text Libc.text _ _ (by decide!))

/-! ## The text of a number in front of the cursor -/

theorem Delim.head {rest : List Nat} (h : Delim rest) :
    (readUtf8Char rest).1 ∈ [0, 0x2C, 0x5D, 0x7D] := by
  rcases h with h | ⟨tl, h | h | h⟩ <;> subst h
  · rw [readUtf8Char_nil]; simp
  · rw [readUtf8Char_ascii (by decide)]; simp
  · rw [readUtf8Char_ascii (by decide)]; simp
  · rw [readUtf8Char_ascii (by decide)]; simp

theorem Delim.rest_noWs {rest : List Nat} (h : Delim rest) : NoWs rest := by
  have := h.head
  unfold NoWs
  generalize (readUtf8Char rest).1 = x at this
  simp only [List.mem_cons, List.mem_singleton, List.not_mem_nil, or_false] at this
  rcases this with e | e | e | e <;> subst e <;> rfl

theorem head_expText (t : NumberText) {rest : List Nat} (h : Delim rest) :
    (readUtf8Char (t.expText ++ rest)).1 ∈ [0, 0x2C, 0x5D, 0x7D, 0x65] := by
  unfold NumberText.expText
  cases t.exponent with
  | none =>
    have := h.head
    simp only [List.nil_append]
    simp only [List.mem_cons, List.mem_singleton, List.not_mem_nil, or_false] at this ⊢
    tauto
  | some p =>
    obtain ⟨neg, ds⟩ := p
    simp only [List.cons_append]
    rw [readUtf8Char_ascii (by decide)]
    simp

theorem head_fracText (t : NumberText) {rest : List Nat} (h : Delim rest) :
    (readUtf8Char (t.fracText ++ (t.expText ++ rest))).1 ∈ [0, 0x2C, 0x5D, 0x7D, 0x65, 0x2E] := by
  unfold NumberText.fracText
  cases t.fracDigits with
  | none =>
    have := head_expText t h
    simp only [List.nil_append]
    simp only [List.mem_cons, List.mem_singleton, List.not_mem_nil, or_false] at this ⊢
    tauto
  | some ds =>
    simp only [List.cons_append]
    rw [readUtf8Char_ascii (by decide)]
    simp

theorem NoWs_digits (ds tail : List Nat) (hd : IsDigits ds) (ht : NoWs tail) :
    NoWs (ds ++ tail) := by
  cases ds with
  | nil => exact ht
  | cons d ds =>
    have := hd d (by simp)
    exact NoWs_cons_ascii d _ (by omega) (digit_not_ws this)

/-- The digit loop on digits: it appends them to `num` and stops at the first
codepoint that is not a digit. -/
theorem digitLoop_digits : ∀ (ds : List Nat), IsDigits ds → ∀ (fuel : Nat) (num : List Nat)
    (pc : ParseCursor) (tail : List Nat), pc.cur = ds ++ tail →
    ¬ (0x30 ≤ (readUtf8Char tail).1 ∧ (readUtf8Char tail).1 ≤ 0x39) → ds.length < fuel →
    ∃ pc1, ParseCursor.digitLoop fuel num pc = .ok (num ++ ds, pc1) ∧ pc1.cur = tail := by
  intro ds
  induction ds with
  | nil =>
    intro _ fuel num pc tail h hs hf
    obtain ⟨n, rfl⟩ : ∃ n, fuel = n + 1 := ⟨fuel - 1, by simp at hf; omega⟩
    have hp : ¬ (0x30 ≤ pc.peekUnicodeChar ∧ pc.peekUnicodeChar ≤ 0x39) := by
      unfold LineColCur.peekUnicodeChar
      rw [h]
      exact hs
    refine ⟨pc, ?_, by simpa using h⟩
    unfold ParseCursor.digitLoop
    by_cases hend : pc.atEnd = true
    · rw [if_pos hend]; simp
    · rw [if_neg hend, if_neg hp]; simp
  | cons d ds ih =>
    intro hd fuel num pc tail h hs hf
    obtain ⟨n, rfl⟩ : ∃ n, fuel = n + 1 := ⟨fuel - 1, by simp at hf; omega⟩
    have hdd := hd d (by simp)
    have h1 : pc.cur = d :: (ds ++ tail) := by rw [h]; rfl
    obtain ⟨hp, ha⟩ := peek_advance_ascii pc d _ (by omega) h1
    have hend : ¬ pc.atEnd = true := by
      unfold ParseCursor.atEnd
      rw [h1]
      simp
      omega
    obtain ⟨pc1, e, c⟩ := ih (fun x hx => hd x (by simp [hx])) n (num ++ [d]) pc.advance tail ha hs
      (by simp at hf; omega)
    refine ⟨pc1, ?_, c⟩
    unfold ParseCursor.digitLoop
    rw [if_neg hend, if_pos (by rw [hp]; exact hdd),
      getUnicodeChar_of_peek pc d hp (by omega)]
    simp only [Result.bind_ok, hp]
    rw [Nat.mod_eq_of_lt (by omega), e]
    simp

theorem parseNumberExp_text (t : NumberText) (hw : t.WellFormed) (num : List Nat)
    (pc : ParseCursor) (rest : List Nat) (h : pc.cur = t.expText ++ rest) (hr : Delim rest) :
    ∃ pc1, ParseCursor.parseNumberExp num pc = .ok (num ++ t.expCollected, pc1) ∧
      pc1.cur = rest := by
  have hrest := hr.head
  have hstop : ¬ (0x30 ≤ (readUtf8Char rest).1 ∧ (readUtf8Char rest).1 ≤ 0x39) := by
    generalize (readUtf8Char rest).1 = x at hrest
    simp only [List.mem_cons, List.mem_singleton, List.not_mem_nil, or_false] at hrest
    omega
  unfold NumberText.expText at h
  unfold NumberText.expCollected
  cases hx : t.exponent with
  | none =>
    rw [hx] at h
    simp only [List.nil_append] at h
    have hp : pc.peekUnicodeChar ∈ [0, 0x2C, 0x5D, 0x7D] := by
      unfold LineColCur.peekUnicodeChar; rw [h]; exact hrest
    simp only [List.mem_cons, List.mem_singleton, List.not_mem_nil, or_false] at hp
    have m1 : ParseCursor.tryParse [0x65] pc = .ok (false, pc) :=
      tryParse_miss_peek _ _ (by decide) (by rw [readUtf8Char_ascii (by decide)]; omega)
    have m2 : ParseCursor.tryParse [0x45] pc = .ok (false, pc) :=
      tryParse_miss_peek _ _ (by decide) (by rw [readUtf8Char_ascii (by decide)]; omega)
    refine ⟨pc, ?_, h⟩
    unfold ParseCursor.parseNumberExp
    rw [m1]
    simp only [Result.bind_ok, Bool.false_eq_true, if_false]
    rw [m2]
    simp
  | some p =>
    obtain ⟨neg, ds⟩ := p
    rw [hx] at h
    have hds : IsDigits ds := hw.2.2.2 neg ds hx
    have hnw : NoWs (ds ++ rest) := NoWs_digits ds rest hds hr.rest_noWs
    obtain ⟨p1, e1, c1⟩ := tryParse_byte_hit_cur 0x65 (by decide) (by decide) pc
      ((if neg = true then 0x2D else 0x2B) :: (ds ++ rest)) (by rw [h]; rfl)
      (by cases neg <;> exact NoWs_cons_ascii _ _ (by decide) (by decide))
    cases neg with
    | false =>
      simp only [Bool.false_eq_true, if_false] at c1
      obtain ⟨p2, e2, c2⟩ := tryParse_byte_hit_cur 0x2B (by decide) (by decide) p1 _ c1 hnw
      obtain ⟨p3, e3, c3⟩ := digitLoop_digits ds hds (p2.cur.length + 1) (num ++ [0x65] ++ []) p2
        rest c2 hstop (by rw [c2]; simp; omega)
      refine ⟨p3, ?_, c3⟩
      unfold ParseCursor.parseNumberExp
      rw [e1]
      simp only [Result.bind_ok, if_true]
      rw [e2]
      simp only [Result.bind_ok, if_true, Bool.false_eq_true, if_false]
      rw [e3]
      simp
    | true =>
      simp only [if_true] at c1
      have hp1 := peek_of_cons p1 0x2D _ (by decide) c1
      have m : ParseCursor.tryParse [0x2B] p1 = .ok (false, p1) :=
        tryParse_miss_peek _ _ (by decide) (by
          rw [readUtf8Char_ascii (by decide), hp1]; decide)
      obtain ⟨p2, e2, c2⟩ := tryParse_byte_hit_cur 0x2D (by decide) (by decide) p1 _ c1 hnw
      obtain ⟨p3, e3, c3⟩ := digitLoop_digits ds hds (p2.cur.length + 1)
        (num ++ [0x65] ++ [0x2D]) p2 rest c2 hstop (by rw [c2]; simp; omega)
      refine ⟨p3, ?_, c3⟩
      unfold ParseCursor.parseNumberExp
      rw [e1]
      simp only [Result.bind_ok, if_true]
      rw [m]
      simp only [Result.bind_ok, Bool.false_eq_true, if_false]
      rw [e2]
      simp only [Result.bind_ok, if_true]
      rw [e3]
      simp

theorem parseNumberFrac_text (t : NumberText) (hw : t.WellFormed) (num : List Nat)
    (pc : ParseCursor) (rest : List Nat) (h : pc.cur = t.fracText ++ (t.expText ++ rest))
    (hr : Delim rest) :
    ∃ pc1, ParseCursor.parseNumberFrac num pc = .ok (num ++ t.fracText, pc1) ∧
      pc1.cur = t.expText ++ rest := by
  have htail := head_expText t hr
  have hstop : ¬ (0x30 ≤ (readUtf8Char (t.expText ++ rest)).1
      ∧ (readUtf8Char (t.expText ++ rest)).1 ≤ 0x39) := by
    generalize (readUtf8Char (t.expText ++ rest)).1 = x at htail
    simp only [List.mem_cons, List.mem_singleton, List.not_mem_nil, or_false] at htail
    omega
  have hnw : NoWs (t.expText ++ rest) := by
    unfold NoWs
    generalize (readUtf8Char (t.expText ++ rest)).1 = x at htail
    simp only [List.mem_cons, List.mem_singleton, List.not_mem_nil, or_false] at htail
    rcases htail with e | e | e | e | e <;> subst e <;> rfl
  unfold NumberText.fracText at h ⊢
  cases hx : t.fracDigits with
  | none =>
    rw [hx] at h
    simp only [List.nil_append] at h
    have hp : pc.peekUnicodeChar ∈ [0, 0x2C, 0x5D, 0x7D, 0x65] := by
      unfold LineColCur.peekUnicodeChar; rw [h]; exact htail
    simp only [List.mem_cons, List.mem_singleton, List.not_mem_nil, or_false] at hp
    have m1 : ParseCursor.tryParse [0x2E] pc = .ok (false, pc) :=
      tryParse_miss_peek _ _ (by decide) (by rw [readUtf8Char_ascii (by decide)]; omega)
    refine ⟨pc, ?_, h⟩
    unfold ParseCursor.parseNumberFrac
    rw [m1]
    simp
  | some ds =>
    rw [hx] at h
    have hds : IsDigits ds := hw.2.2.1 ds hx
    obtain ⟨p1, e1, c1⟩ := tryParse_byte_hit_cur 0x2E (by decide) (by decide) pc
      (ds ++ (t.expText ++ rest)) (by rw [h]; rfl) (NoWs_digits ds _ hds hnw)
    obtain ⟨p2, e2, c2⟩ := digitLoop_digits ds hds (p1.cur.length + 1) (num ++ [0x2E]) p1
      _ c1 hstop (by rw [c1]; simp; omega)
    refine ⟨p2, ?_, c2⟩
    unfold ParseCursor.parseNumberFrac
    rw [e1]
    simp only [Result.bind_ok, if_true]
    rw [e2]
    simp

theorem parseNumberInt_text (t : NumberText) (hw : t.WellFormed) (pc : ParseCursor)
    (rest : List Nat) (h : pc.cur = t.printed ++ rest) (hr : Delim rest) :
    ∃ pc1, ParseCursor.parseNumberInt pc
        = .ok ((if t.negative = true then [0x2D] else [])
            ++ (if t.intDigits = [0x30] then [] else t.intDigits), pc1) ∧
      pc1.cur = t.fracText ++ (t.expText ++ rest) := by
  have htail := head_fracText t hr
  have hstop : ¬ (0x30 ≤ (readUtf8Char (t.fracText ++ (t.expText ++ rest))).1
      ∧ (readUtf8Char (t.fracText ++ (t.expText ++ rest))).1 ≤ 0x39) := by
    generalize (readUtf8Char (t.fracText ++ (t.expText ++ rest))).1 = x at htail
    simp only [List.mem_cons, List.mem_singleton, List.not_mem_nil, or_false] at htail
    omega
  have hnw : NoWs (t.fracText ++ (t.expText ++ rest)) := by
    unfold NoWs
    generalize (readUtf8Char (t.fracText ++ (t.expText ++ rest))).1 = x at htail
    simp only [List.mem_cons, List.mem_singleton, List.not_mem_nil, or_false] at htail
    rcases htail with e | e | e | e | e | e <;> subst e <;> rfl
  have hint := hw.1
  have hcur : pc.cur = (if t.negative = true then [0x2D] else [])
      ++ (t.intDigits ++ (t.fracText ++ (t.expText ++ rest))) := by
    rw [h]; unfold NumberText.printed; simp
  -- the minus sign
  have stepA : ∃ p1, ParseCursor.tryParse [0x2D] pc = .ok (t.negative, p1) ∧
      p1.cur = t.intDigits ++ (t.fracText ++ (t.expText ++ rest)) := by
    cases hn : t.negative with
    | true =>
      rw [hn] at hcur
      exact tryParse_byte_hit_cur 0x2D (by decide) (by decide) pc _ hcur
        (NoWs_digits _ _ hint hnw)
    | false =>
      rw [hn] at hcur
      simp only [Bool.false_eq_true, if_false, List.nil_append] at hcur
      refine ⟨pc, ?_, hcur⟩
      rcases hw.2.1 with e | ⟨e, _⟩
      · rw [e] at hcur
        have hp := peek_of_cons pc 0x30 _ (by decide) hcur
        exact tryParse_miss_peek _ _ (by decide) (by
          rw [readUtf8Char_ascii (by decide), hp]; decide)
      · obtain ⟨d, ds, e1⟩ := List.exists_cons_of_ne_nil e
        rw [e1] at hcur hint
        have hd := hint d (by simp)
        have hp := peek_of_cons pc d _ (by omega) hcur
        exact tryParse_miss_peek _ _ (by decide) (by
          rw [readUtf8Char_ascii (by decide), hp]; omega)
  obtain ⟨p1, e1, c1⟩ := stepA
  unfold ParseCursor.parseNumberInt
  rw [e1]
  simp only [Result.bind_ok]
  rcases hw.2.1 with e | ⟨e, e0⟩
  · rw [e] at c1
    obtain ⟨p2, e2, c2⟩ := tryParse_byte_hit_cur 0x30 (by decide) (by decide) p1 _ c1 hnw
    refine ⟨p2, ?_, c2⟩
    rw [e2]
    simp [e]
  · obtain ⟨d, ds, ed⟩ := List.exists_cons_of_ne_nil e
    have hd := hint d (by rw [ed]; simp)
    have hd0 : d ≠ 0x30 := by
      intro hh
      apply e0
      rw [ed, hh]
      rfl
    have hne : ¬ t.intDigits = [0x30] := by
      intro hh
      rw [hh] at ed
      simp only [List.cons.injEq] at ed
      exact hd0 ed.1.symm
    have hp := peek_of_cons p1 d (ds ++ (t.fracText ++ (t.expText ++ rest))) (by omega)
      (by rw [c1, ed]; rfl)
    have m : ParseCursor.tryParse [0x30] p1 = .ok (false, p1) :=
      tryParse_miss_peek _ _ (by decide) (by
        rw [readUtf8Char_ascii (by decide), hp]; exact hd0)
    obtain ⟨p2, e2, c2⟩ := digitLoop_digits t.intDigits hint (p1.cur.length + 1)
      (if t.negative = true then [0x2D] else []) p1 _ c1 hstop (by rw [c1]; simp; omega)
    refine ⟨p2, ?_, c2⟩
    rw [m]
    simp only [Result.bind_ok, Bool.false_eq_true, if_false]
    rw [e2, if_neg hne]

/-- `parseNumber` on the printed text of a number, followed by the end of the
text, a comma or a closing bracket or brace: it collects the text without a
leading `0` and without the plus sign of the exponent, and stops after it. -/
theorem parseNumberText_text (t : NumberText) (hw : t.WellFormed) (pc : ParseCursor)
    (rest : List Nat) (h : pc.cur = t.printed ++ rest) (hr : Delim rest) :
    ∃ pc1, ParseCursor.parseNumberText pc = .ok (t.collected, pc1) ∧ pc1.cur = rest := by
  obtain ⟨p1, e1, c1⟩ := parseNumberInt_text t hw pc rest h hr
  obtain ⟨p2, e2, c2⟩ := parseNumberFrac_text t hw
    ((if t.negative = true then [0x2D] else [])
      ++ (if t.intDigits = [0x30] then [] else t.intDigits)) p1 rest c1 hr
  obtain ⟨p3, e3, c3⟩ := parseNumberExp_text t hw
    ((if t.negative = true then [0x2D] else [])
      ++ (if t.intDigits = [0x30] then [] else t.intDigits) ++ t.fracText) p2 rest c2 hr
  have hs : ParseCursor.skipWhitespace p3 = .ok p3 := by
    apply skipWhitespace_of_not_ws
    have := hr.rest_noWs
    unfold NoWs at this
    unfold LineColCur.peekUnicodeChar
    rw [c3]
    exact this
  refine ⟨p3, ?_, c3⟩
  unfold ParseCursor.parseNumberText
  rw [e1]
  simp only [Result.bind_ok]
  rw [e2]
  simp only [Result.bind_ok]
  rw [e3]
  simp only [Result.bind_ok]
  rw [hs]
  simp [NumberText.collected, List.append_assoc]

theorem printed_head (t : NumberText) (hw : t.WellFormed) :
    ∃ b tl, t.printed = b :: tl ∧ (b = 0x2D ∨ (0x30 ≤ b ∧ b ≤ 0x39)) := by
  unfold NumberText.printed
  cases t.negative with
  | true => exact ⟨0x2D, _, rfl, Or.inl rfl⟩
  | false =>
    have hne : t.intDigits ≠ [] := by
      rcases hw.2.1 with e | ⟨e, _⟩
      · rw [e]; simp
      · exact e
    obtain ⟨d, ds, e⟩ := List.exists_cons_of_ne_nil hne
    refine ⟨d, ds ++ (t.fracText ++ t.expText), by rw [e]; rfl, Or.inr ?_⟩
    exact hw.1 d (by rw [e]; simp)

/-- `parseValue` on the printed text of a number returns the Number that
`strtod` returns for the collected text. -/
theorem parseValue_number {D : Type} (L : Libc D) (n : Nat) (t : NumberText)
    (hw : t.WellFormed) (pc : ParseCursor) (rest : List Nat) (h : pc.cur = t.printed ++ rest)
    (hr : Delim rest) :
    ∃ pc1, parseValue L (n + 1) pc = .ok (JSONValue.number (L.strtod t.collected), pc1) ∧
      pc1.cur = rest := by
  obtain ⟨b, tl, eb, hb⟩ := printed_head t hw
  have hb80 : b < 0x80 := by omega
  have hcur : pc.cur = b :: (tl ++ rest) := by rw [h, eb]; rfl
  have hp := peek_of_cons pc b _ hb80 hcur
  have m1 : ParseCursor.tryParse [0x22] pc = .ok (false, pc) :=
    tryParse_miss_peek _ _ (by decide) (by rw [readUtf8Char_ascii (by decide), hp]; omega)
  have m2 : ParseCursor.tryParse [0x7B] pc = .ok (false, pc) :=
    tryParse_miss_peek _ _ (by decide) (by rw [readUtf8Char_ascii (by decide), hp]; omega)
  have m3 : ParseCursor.tryParse [0x5B] pc = .ok (false, pc) :=
    tryParse_miss_peek _ _ (by decide) (by rw [readUtf8Char_ascii (by decide), hp]; omega)
  have m4 : ParseCursor.tryParse [0x74, 0x72, 0x75, 0x65] pc = .ok (false, pc) :=
    tryParse_miss_peek _ _ (by decide) (by rw [readUtf8Char_ascii (by decide), hp]; omega)
  have m5 : ParseCursor.tryParse [0x66, 0x61, 0x6C, 0x73, 0x65] pc = .ok (false, pc) :=
    tryParse_miss_peek _ _ (by decide) (by rw [readUtf8Char_ascii (by decide), hp]; omega)
  have m6 : ParseCursor.tryParse [0x6E, 0x75, 0x6C, 0x6C] pc = .ok (false, pc) :=
    tryParse_miss_peek _ _ (by decide) (by rw [readUtf8Char_ascii (by decide), hp]; omega)
  have hend : ¬ pc.atEnd = true := by
    unfold ParseCursor.atEnd
    rw [hcur]
    simp
    omega
  obtain ⟨pc1, e, c⟩ := parseNumberText_text t hw pc rest h hr
  refine ⟨pc1, ?_, c⟩
  unfold parseValue
  rw [m1]
  simp only [Result.bind_ok, Bool.false_eq_true, if_false]
  rw [m2]
  simp only [Result.bind_ok, Bool.false_eq_true, if_false]
  rw [m3]
  simp only [Result.bind_ok, Bool.false_eq_true, if_false]
  rw [m4]
  simp only [Result.bind_ok, Bool.false_eq_true, if_false]
  rw [m5]
  simp only [Result.bind_ok, Bool.false_eq_true, if_false]
  rw [m6]
  simp only [Result.bind_ok, Bool.false_eq_true, if_false]
  rw [if_neg hend, if_pos (by rw [hp]; exact hb)]
  unfold parseNumber ParseCursor.parseNumber
  rw [e]
  rfl

/-! ## One round trip of a value with numbers -/

theorem StartsSolid.nonempty {text : List Nat} (h : StartsSolid text) : 0 < text.length := by
  obtain ⟨b, tl, e, _⟩ := h
  rw [e]; simp

theorem StartsSolid.text_noWs {text : List Nat} (h : StartsSolid text) (rest : List Nat) :
    NoWs (text ++ rest) := by
  obtain ⟨b, tl, e, _, hb, hw, _⟩ := h
  rw [e]
  exact NoWs_cons_ascii _ _ hb hw

theorem StartsSolid.peek_plain {text : List Nat} (h : StartsSolid text) (rest : List Nat)
    (pc : LineColCur) (hc : pc.cur = text ++ rest) :
    pc.peekUnicodeChar ≠ 0x5D ∧ pc.peekUnicodeChar ≠ 0xFEFF := by
  obtain ⟨b, tl, e, _, hb, _, h5⟩ := h
  rw [e] at hc
  have hp := peek_of_cons pc b (tl ++ rest) hb hc
  rw [hp]
  omega

theorem StartsSolid.of_printed (t : NumberText) (hw : t.WellFormed) : StartsSolid t.printed := by
  obtain ⟨b, tl, e, hb⟩ := printed_head t hw
  refine ⟨b, tl, e, by omega, by omega, ?_, by omega⟩
  rcases hb with h | h
  · rw [h]; rfl
  · exact digit_not_ws h

theorem ParseCursor.new_of_startsSolid (text : List Nat) (h : StartsSolid text) :
    ParseCursor.new text = .ok ⟨text, 1, 1⟩ := by
  have hp := (h.peek_plain [] ⟨text, 1, 1⟩ (by simp)).2
  have m : ParseCursor.tryParse [0xEF, 0xBB, 0xBF] ⟨text, 1, 1⟩ = .ok (false, ⟨text, 1, 1⟩) :=
    tryParse_miss_peek _ _ (by decide) (by
      have e : (readUtf8Char [0xEF, 0xBB, 0xBF]).1 = 0xFEFF := by decide!
      rw [e]; exact hp)
  unfold ParseCursor.new
  rw [m]
  simp only [Result.bind_ok, Bool.false_eq_true, if_false]
  apply skipWhitespace_of_not_ws
  have := h.text_noWs []
  simpa [NoWs, LineColCur.peekUnicodeChar] using this

mutual
theorem stable_value {D : Type} (L : Libc D) : ∀ (v : JSONValue D),
    JSONValue.AllNumbers (ReadsBack L) v → JSONValue.AllStrings PlainString v →
    JSONValue.SortedKeys v →
    ∃ text, encodeJsonValue L v = .ok text ∧ StartsSolid text ∧
      ∀ (fuel : Nat) (pc : ParseCursor) (rest : List Nat), pc.cur = text ++ rest →
        2 * pc.cur.length + 1 ≤ fuel → Delim rest →
        ∃ pc1, parseValue L fuel pc = .ok (v, pc1) ∧ pc1.cur = rest
  | .null, _, _, _ => by
    refine ⟨[0x6E, 0x75, 0x6C, 0x6C], rfl,
      ⟨_, _, rfl, by decide, by decide, by decide, by decide⟩, ?_⟩
    intro fuel pc rest h hf hw
    cases fuel with
    | zero => omega
    | succ n => exact parseValue_null L n pc rest h hw.rest_noWs
  | .boolean true, _, _, _ => by
    refine ⟨[0x74, 0x72, 0x75, 0x65], rfl,
      ⟨_, _, rfl, by decide, by decide, by decide, by decide⟩, ?_⟩
    intro fuel pc rest h hf hw
    cases fuel with
    | zero => omega
    | succ n => exact parseValue_true L n pc rest h hw.rest_noWs
  | .boolean false, _, _, _ => by
    refine ⟨[0x66, 0x61, 0x6C, 0x73, 0x65], rfl,
      ⟨_, _, rfl, by decide, by decide, by decide, by decide⟩, ?_⟩
    intro fuel pc rest h hf hw
    cases fuel with
    | zero => omega
    | succ n => exact parseValue_false L n pc rest h hw.rest_noWs
  | .number x, hx, _, _ => by
    obtain ⟨hi, hn, t, hw, hp, hs⟩ : ReadsBack L x := hx
    have hlen : ¬ (t.printed.length < 1) := by
      have := (StartsSolid.of_printed t hw).nonempty
      omega
    have henc : encodeJsonValue L (.number x) = .ok t.printed := by
      simp only [encodeJsonValue, encodeNumber, hi, hn, hp, Bool.or_self, Bool.false_eq_true,
        if_false, hlen]
    refine ⟨_, henc, StartsSolid.of_printed t hw, ?_⟩
    intro fuel pc rest h hf hd
    cases fuel with
    | zero => omega
    | succ n =>
      obtain ⟨pc1, e, c⟩ := parseValue_number L n t hw pc rest h hd
      exact ⟨pc1, by rw [e, hs], c⟩
  | .string s, _, hs, _ => by
    obtain ⟨cps, hcps⟩ : PlainString s := hs
    have henc : encodeJsonValue L (.string s)
        = .ok ([0x22] ++ cps.flatMap escapeOrRaw ++ [0x22]) := by
      simp only [encodeJsonValue]
      rw [hcps.2.1]
      exact encodeString_codepoints cps hcps.1
    refine ⟨_, henc, ⟨0x22, _, rfl, by decide, by decide, by decide, by decide⟩, ?_⟩
    intro fuel pc rest h hf hw
    cases fuel with
    | zero => omega
    | succ n =>
      obtain ⟨p1, p2, e1, _, e2, c2⟩ := parse_string_text cps s hcps pc rest h hw.rest_noWs
      refine ⟨p2, ?_, c2⟩
      rw [parseValue_quote L n pc p1 e1, e2]
      rfl
  | .array a, hn, hs, hk => by
    obtain ⟨body, eb, hnw, _, hp⟩ := stable_elements L a true hn hs hk
    have henc : encodeJsonValue L (.array a) = .ok ([0x5B] ++ body ++ [0x5D]) := by
      simp only [encodeJsonValue, eb, Result.map_ok]
    refine ⟨_, henc, ⟨0x5B, _, rfl, by decide, by decide, by decide, by decide⟩, ?_⟩
    intro fuel pc rest h hf hw
    cases fuel with
    | zero => omega
    | succ n =>
      have h1 : pc.cur = 0x5B :: (body ++ 0x5D :: rest) := by rw [h]; simp
      obtain ⟨pc1, c1, e1⟩ := parseValue_bracket L n pc _ h1 (hnw rest)
      have hl : pc.cur.length = pc1.cur.length + 1 := by rw [h1, c1]; simp
      obtain ⟨pc2, e2, c2⟩ := hp n [] pc1 rest c1 (by omega) hw
      refine ⟨pc2, ?_, c2⟩
      rw [e1, e2]
      rfl
  | .object o, hn, hs, hk => by
    obtain ⟨body, eb, hnw, _, hp⟩ := stable_members L o true hn hs hk.2
    have henc : encodeJsonValue L (.object o) = .ok ([0x7B] ++ body ++ [0x7D]) := by
      simp only [encodeJsonValue, eb, Result.map_ok]
    refine ⟨_, henc, ⟨0x7B, _, rfl, by decide, by decide, by decide, by decide⟩, ?_⟩
    intro fuel pc rest h hf hw
    cases fuel with
    | zero => omega
    | succ n =>
      have h1 : pc.cur = 0x7B :: (body ++ 0x7D :: rest) := by rw [h]; simp
      obtain ⟨pc1, c1, e1⟩ := parseValue_brace L n pc _ h1 (hnw rest)
      have hl : pc.cur.length = pc1.cur.length + 1 := by rw [h1, c1]; simp
      obtain ⟨pc2, e2, c2⟩ := hp n [] pc1 rest c1 (by omega) hw (by simp) hk.1
      refine ⟨pc2, ?_, c2⟩
      rw [e1, e2]
      rfl
theorem stable_elements {D : Type} (L : Libc D) : ∀ (a : List (JSONValue D)) (first : Bool),
    JSONValue.AllNumbersElements (ReadsBack L) a → JSONValue.AllStringsElements PlainString a →
    JSONValue.SortedKeysElements a →
    ∃ body, encodeArrayLoop L first a = .ok body ∧
      (∀ tail : List Nat, NoWs (body ++ 0x5D :: tail)) ∧
      (first = false → ∀ tail : List Nat, Delim (body ++ 0x5D :: tail)) ∧
      ∀ (fuel : Nat) (acc : JSONArray D) (pc : ParseCursor) (rest : List Nat),
        pc.cur = body ++ 0x5D :: rest → 2 * pc.cur.length + 2 ≤ fuel → Delim rest →
        ∃ pc1, parseArrayLoop L fuel acc first pc = .ok (acc ++ a, pc1) ∧ pc1.cur = rest
  | [], first, _, _, _ => by
    refine ⟨[], by simp [encodeArrayLoop],
      fun tail => NoWs_cons_ascii _ _ (by decide) (by decide),
      fun _ tail => Or.inr ⟨tail, Or.inr (Or.inl rfl)⟩, ?_⟩
    intro fuel acc pc rest h hf hw
    cases fuel with
    | zero => omega
    | succ n =>
      obtain ⟨pc1, e, c⟩ := parseArrayLoop_end L n acc first pc rest (by simpa using h) hw.rest_noWs
      exact ⟨pc1, by simpa using e, c⟩
  | v :: a1, first, hn, hs, hk => by
    obtain ⟨vs, ev, hsv, hpv⟩ := stable_value L v hn.1 hs.1 hk.1
    obtain ⟨rs, er, hnr, hdr, hpr⟩ := stable_elements L a1 false hn.2 hs.2 hk.2
    have hvl := hsv.nonempty
    refine ⟨(if first then [] else [0x2C]) ++ vs ++ rs, ?_, ?_, ?_, ?_⟩
    · simp only [encodeArrayLoop, ev, er, Result.bind_ok, Result.map_ok]
    · intro tail
      cases first with
      | true =>
        simp only [if_true, List.nil_append, List.append_assoc]
        exact hsv.text_noWs _
      | false => exact NoWs_cons_ascii _ _ (by decide) (by decide)
    · intro hf tail
      subst hf
      exact Or.inr ⟨_, Or.inl rfl⟩
    · intro fuel acc pc rest h hf hw
      cases fuel with
      | zero => omega
      | succ n =>
        have tailStep : ∀ p : ParseCursor, p.cur = vs ++ (rs ++ 0x5D :: rest) →
            p.cur.length ≤ pc.cur.length →
            ∃ pc1, ((parseValue L n p).bind fun w =>
                parseArrayLoop L n (acc ++ [w.1]) false w.2) = .ok (acc ++ v :: a1, pc1) ∧
              pc1.cur = rest := by
          intro p hpc hle
          obtain ⟨p1, e1, c1⟩ := hpv n p _ hpc (by omega) (hdr rfl rest)
          have hl : p.cur.length = vs.length + p1.cur.length := by rw [hpc, c1]; simp
          obtain ⟨p2, e2, c2⟩ := hpr n (acc ++ [v]) p1 rest c1 (by omega) hw
          refine ⟨p2, ?_, c2⟩
          rw [e1]
          simp only [Result.bind_ok, e2, List.append_assoc, List.singleton_append]
        cases first with
        | true =>
          have h1 : pc.cur = vs ++ (rs ++ 0x5D :: rest) := by rw [h]; simp
          rw [parseArrayLoop_first L n acc pc (hsv.peek_plain _ pc h1).1]
          exact tailStep pc h1 (le_refl _)
        | false =>
          have h1 : pc.cur = 0x2C :: (vs ++ (rs ++ 0x5D :: rest)) := by rw [h]; simp
          obtain ⟨p, c, e⟩ := parseArrayLoop_next L n acc pc _ h1 (hsv.text_noWs _)
          rw [e]
          exact tailStep p c (by rw [h1, c]; simp)
theorem stable_members {D : Type} (L : Libc D) :
    ∀ (o : List (List Nat × JSONValue D)) (first : Bool),
    JSONValue.AllNumbersMembers (ReadsBack L) o → JSONValue.AllStringsMembers PlainString o →
    JSONValue.SortedKeysMembers o →
    ∃ body, encodeObjectLoop L first o = .ok body ∧
      (∀ tail : List Nat, NoWs (body ++ 0x7D :: tail)) ∧
      (first = false → ∀ tail : List Nat, Delim (body ++ 0x7D :: tail)) ∧
      ∀ (fuel : Nat) (acc : JSONObject D) (pc : ParseCursor) (rest : List Nat),
        pc.cur = body ++ 0x7D :: rest → 2 * pc.cur.length + 2 ≤ fuel → Delim rest →
        (∀ e ∈ acc, ∀ e1 ∈ o, stringLess e.1 e1.1 = true) → JSONObject.Ascending o →
        ∃ pc1, parseObjectLoop L fuel acc first pc = .ok (acc ++ o, pc1) ∧ pc1.cur = rest
  | [], first, _, _, _ => by
    refine ⟨[], by simp [encodeObjectLoop],
      fun tail => NoWs_cons_ascii _ _ (by decide) (by decide),
      fun _ tail => Or.inr ⟨tail, Or.inr (Or.inr rfl)⟩, ?_⟩
    intro fuel acc pc rest h hf hw _ _
    cases fuel with
    | zero => omega
    | succ n =>
      obtain ⟨pc1, e, c⟩ := parseObjectLoop_end L n acc first pc rest (by simpa using h) hw.rest_noWs
      exact ⟨pc1, by simpa using e, c⟩
  | (k, v) :: o1, first, hn, hs, hk => by
    obtain ⟨vs, ev, hsv, hpv⟩ := stable_value L v hn.1 hs.2.1 hk.1
    obtain ⟨rs, er, hnr, hdr, hpr⟩ := stable_members L o1 false hn.2 hs.2.2 hk.2
    obtain ⟨cps, hcps⟩ : PlainString k := hs.1
    have hvl := hsv.nonempty
    have hks : encodeString k = .ok ([0x22] ++ cps.flatMap escapeOrRaw ++ [0x22]) := by
      rw [hcps.2.1]
      exact encodeString_codepoints cps hcps.1
    refine ⟨(if first then [] else [0x2C]) ++ ([0x22] ++ cps.flatMap escapeOrRaw ++ [0x22])
      ++ [0x3A] ++ vs ++ rs, ?_, ?_, ?_, ?_⟩
    · simp only [encodeObjectLoop, hks, ev, er, Result.bind_ok, Result.map_ok]
    · intro tail
      cases first with
      | true => exact NoWs_cons_ascii _ _ (by decide) (by decide)
      | false => exact NoWs_cons_ascii _ _ (by decide) (by decide)
    · intro hf tail
      subst hf
      exact Or.inr ⟨_, Or.inl rfl⟩
    · intro fuel acc pc rest h hf hw hacc hasc
      cases fuel with
      | zero => omega
      | succ n =>
        have hassign : JSONObject.assign k v acc = acc ++ [(k, v)] :=
          assign_append_of_gt k v acc (fun e he => hacc e he (k, v) (by simp))
        have hasc1 : JSONObject.Ascending o1 := (List.pairwise_cons.mp hasc).2
        have hacc1 : ∀ e ∈ acc ++ [(k, v)], ∀ e1 ∈ o1, stringLess e.1 e1.1 = true := by
          intro e he e1 he1
          rcases List.mem_append.mp he with h1 | h1
          · exact hacc e h1 e1 (by simp [he1])
          · have : e = (k, v) := by simpa using h1
            rw [this]
            exact (List.pairwise_cons.mp hasc).1 e1 he1
        have tailStep : ∀ p : ParseCursor, p.cur = vs ++ (rs ++ 0x7D :: rest) →
            p.cur.length + 3 ≤ pc.cur.length →
            ∃ pc1, ((parseValue L n p).bind fun w =>
                parseObjectLoop L n (JSONObject.assign k w.1 acc) false w.2)
                  = .ok (acc ++ (k, v) :: o1, pc1) ∧
              pc1.cur = rest := by
          intro p hpc hle
          obtain ⟨p1, e1, c1⟩ := hpv n p _ hpc (by omega) (hdr rfl rest)
          have hl : p.cur.length = vs.length + p1.cur.length := by rw [hpc, c1]; simp
          obtain ⟨p2, e2, c2⟩ := hpr n (acc ++ [(k, v)]) p1 rest c1 (by omega) hw hacc1 hasc1
          refine ⟨p2, ?_, c2⟩
          rw [e1]
          simp only [Result.bind_ok, hassign, e2, List.append_assoc, List.singleton_append]
        cases first with
        | true =>
          have h1 : pc.cur = [0x22] ++ cps.flatMap escapeOrRaw ++ [0x22]
              ++ 0x3A :: (vs ++ (rs ++ 0x7D :: rest)) := by rw [h]; simp
          obtain ⟨p, c, e⟩ := parseObjectLoop_first L n acc cps k hcps pc _ h1 (hsv.text_noWs _)
          rw [e]
          exact tailStep p c (by rw [h1, c]; simp)
        | false =>
          have h1 : pc.cur = 0x2C :: ([0x22] ++ cps.flatMap escapeOrRaw ++ [0x22]
              ++ 0x3A :: (vs ++ (rs ++ 0x7D :: rest))) := by rw [h]; simp
          obtain ⟨p, c, e⟩ := parseObjectLoop_next L n acc cps k hcps pc _ h1 (hsv.text_noWs _)
          rw [e]
          exact tailStep p c (by rw [h1, c]; simp; omega)
end

/-- A value whose numbers the C library reads back, with plain strings and
sorted objects, is serialized to a text that is parsed back to the value. -/
theorem stable_json {D : Type} (L : Libc D) (v : JSONValue D)
    (hn : JSONValue.AllNumbers (ReadsBack L) v) (hs : JSONValue.AllStrings PlainString v)
    (hk : JSONValue.SortedKeys v) :
    ∃ text, encodeJson L v = .ok text ∧ parseJson L text = .ok v := by
  obtain ⟨text, e, hsv, hp⟩ := stable_value L v hn hs hk
  refine ⟨text, e, ?_⟩
  obtain ⟨pc1, e1, _⟩ := hp (2 * text.length + 1) ⟨text, 1, 1⟩ [] (by simp) (by simp)
    (Or.inl rfl)
  unfold parseJson
  rw [ParseCursor.new_of_startsSolid text hsv]
  simp only [Result.bind_ok, e1, Result.map_ok]

/-- A Number that is infinite is not read back: `encodeNumber` writes `null`
for it (json.cpp lines 442-445), and `null` is parsed to Null. -/
theorem infinite_number_becomes_null {D : Type} (L : Libc D) (x : D) (hi : L.isinf x = true) :
    encodeJson L (.number x) = .ok [0x6E, 0x75, 0x6C, 0x6C] ∧
    parseJson L [0x6E, 0x75, 0x6C, 0x6C] = .ok .null ∧
    (JSONValue.null : JSONValue D) ≠ .number x := by
  refine ⟨?_, parseJson_of_text L _ .null (by decide!), ?_⟩
  · simp [encodeJson, encodeJsonValue, encodeNumber, hi]
  · intro h
    cases h

/-- C1, amended. For every document `d` on which `parseJson` returns a value in
which no String and no key holds a zero byte or begins with a space, and of
which the C library reads every Number back (the Number is neither infinite nor
NaN, `snprintf` writes for it with `%.17g` a text of digits with an optional
sign, fraction and exponent, and `strtod` returns the Number for the characters
that `parseNumber` collects from that text), `encodeJson` of the value returns
a text and `parseJson` of that text returns the same value. -/
theorem C1_round_trip_stability {D : Type} (L : Libc D) (d : List Nat) (v : JSONValue D)
    (h : parseJson L d = .ok v)
    (hs : JSONValue.AllStrings NoZeroNoLeadingSpace v)
    (hn : JSONValue.AllNumbers (ReadsBack L) v) :
    ∃ text, encodeJson L v = .ok text ∧ parseJson L text = .ok v :=
  stable_json L v hn
    (AllStrings_and WellFormedUtf8 NoZeroNoLeadingSpace PlainString plainString_of_wellFormed v
      (parseJson_wellFormed L d v h) hs)
    (parseJson_sorted L d v h)

/-- C1, amended, at the document `  {"b":[true,false,null,"é"],"a":1.5e-7}  `,
whose key order the round trip changes. -/
theorem C1_round_trip_stability_witness :
    ∃ text,
      encodeJson Libc.text
          (.object [([0x61], .number [0x31, 0x2E, 0x35, 0x65, 0x2D, 0x37]),
            ([0x62], .array [.boolean true, .boolean false, .null, .string [0xC3, 0xA9]])])
        = .ok text ∧
      parseJson Libc.text text
        = .ok (.object [([0x61], .number [0x31, 0x2E, 0x35, 0x65, 0x2D, 0x37]),
            ([0x62], .array [.boolean true, .boolean false, .null, .string [0xC3, 0xA9]])]) :=
  C1_round_trip_stability Libc.text
    [0x20, 0x20, 0x7B, 0x22, 0x62, 0x22, 0x3A, 0x5B, 0x74, 0x72, 0x75, 0x65, 0x2C, 0x66, 0x61,
      0x6C, 0x73, 0x65, 0x2C, 0x6E, 0x75, 0x6C, 0x6C, 0x2C, 0x22, 0xC3, 0xA9, 0x22, 0x5D, 0x2C,
      0x22, 0x61, 0x22, 0x3A, 0x31, 0x2E, 0x35, 0x65, 0x2D, 0x37, 0x7D, 0x20, 0x20]
    (.object [([0x61], .number [0x31, 0x2E, 0x35, 0x65, 0x2D, 0x37]),
      ([0x62], .array [.boolean true, .boolean false, .null, .string [0xC3, 0xA9]])])
    (parseJson_of_text Libc.text _
      (.object [([0x61], .number [0x31, 0x2E, 0x35, 0x65, 0x2D, 0x37]),
        ([0x62], .array [.boolean true, .boolean false, .null, .string [0xC3, 0xA9]])])
      (by decide!))
    (by simp [JSONValue.AllStrings, JSONValue.AllStringsMembers, JSONValue.AllStringsElements,
      NoZeroNoLeadingSpace])
    (by
      simp only [JSONValue.AllNumbers, JSONValue.AllNumbersMembers, JSONValue.AllNumbersElements,
        and_true, true_and]
      refine ⟨rfl, rfl, ⟨false, [0x31], some [0x35], some (true, [0x37])⟩, ?_, rfl, rfl⟩
      refine ⟨by simp [IsDigits], Or.inr (by simp), ?_, ?_⟩
      · intro ds e
        cases e
        simp [IsDigits]
      · intro neg ds e
        cases e
        simp [IsDigits])

end JsonCodec
